import Mathlib

/-!
Shallow embedding of `patch_tf.py`: the line-oriented block scanner and
attribute-reconciliation engine for Terraform `aws_vpn_connection` blocks.

A Python `str` line is modelled as `List Char`; the shared line buffer is a
`List Line`.  Python list mutation becomes explicit state passing; every
buffer index access that could raise `IndexError` is modelled with `Option`
(`none` = the run raised an exception).  The fixed regular expressions of
the source are hand-compiled to deterministic character-list matchers; all
of them are anchored with a final `$` and use `re.IGNORECASE`, which for
the ASCII literals involved means comparison up to `Char.toLower`.
-/

set_option autoImplicit false

namespace PatchTf

/-- A single text line (no embedded newline), Python `str`. -/
abbrev Line := List Char

/-- Characters matched by `\s` (ASCII range, as used by the source's data). -/
def isWsChar (c : Char) : Bool :=
  c = ' ' || c = '\t' || c = '\n' || c = '\r' || c = '\x0b' || c = '\x0c'

/-- Drop the leading whitespace of a line: `\s*` at the start / `str.lstrip()`. -/
def dropWs (l : Line) : Line := l.dropWhile isWsChar

/-- The leading-whitespace run of a line: `re.match(r'^(\s*)', line).group(1)`. -/
def leadingWs (l : Line) : Line := l.takeWhile isWsChar

/-- `line.strip() == ""`: the line is empty or whitespace-only. -/
def isBlank (l : Line) : Bool := l.all isWsChar

/-- Case-insensitive character comparison (`re.IGNORECASE`). -/
def lowerEq (a b : Char) : Bool := a.toLower = b.toLower

/-- Match a literal (first argument) case-insensitively at the head of the
second argument, returning the remainder on success. -/
def stripLit : Line → Line → Option Line
  | [], l => some l
  | _ :: _, [] => none
  | p :: ps, c :: cs => if lowerEq p c then stripLit ps cs else none

/-- `build_uncommented_exact_re`: `^\s*{attr}\s*=\s*{value}\s*$` (IGNORECASE).
The target values never start or end with whitespace, so greedy whitespace
skipping is exact. -/
def matchExactAttr (attr value l : Line) : Bool :=
  match stripLit attr (dropWs l) with
  | none => false
  | some r1 =>
    match dropWs r1 with
    | '=' :: r2 =>
      match stripLit value (dropWs r2) with
      | none => false
      | some r3 => r3.all isWsChar
    | _ => false

/-- `build_any_value_uncommented_re`: `^\s*{attr}\s*=\s*.+$` (IGNORECASE).
After the `=`, `\s*.+$` accepts exactly the nonempty remainders. -/
def matchAnyValueAttr (attr l : Line) : Bool :=
  match stripLit attr (dropWs l) with
  | none => false
  | some r1 =>
    match dropWs r1 with
    | '=' :: r2 => !r2.isEmpty
    | _ => false

/-- `build_comment_re`: `^\s*(#|//)\s*{attr}\s*=.*$` (IGNORECASE). -/
def matchCommentAttr (attr l : Line) : Bool :=
  match dropWs l with
  | '#' :: r =>
    (match stripLit attr (dropWs r) with
     | none => false
     | some r2 =>
       match dropWs r2 with
       | '=' :: _ => true
       | _ => false)
  | '/' :: '/' :: r =>
    (match stripLit attr (dropWs r) with
     | none => false
     | some r2 =>
       match dropWs r2 with
       | '=' :: _ => true
       | _ => false)
  | _ => false

/-- `RESOURCE_HEADER_RE`:
`^\s*resource\s+"aws_vpn_connection"\s+"[^"]+"\s*\{\s*$` (IGNORECASE). -/
def matchResourceHeader (l : Line) : Bool :=
  match stripLit ("resource").data (dropWs l) with
  | none => false
  | some r1 =>
    match r1 with
    | c :: r2 =>
      if isWsChar c then
        match dropWs r2 with
        | '"' :: r3 =>
          (match stripLit ("aws_vpn_connection").data r3 with
           | some ('"' :: r4) =>
             (match r4 with
              | c2 :: r5 =>
                if isWsChar c2 then
                  match dropWs r5 with
                  | '"' :: r6 =>
                    let name := r6.takeWhile (fun ch => ch ≠ '"')
                    let rest := r6.dropWhile (fun ch => ch ≠ '"')
                    if name.isEmpty then false
                    else
                      (match rest with
                       | '"' :: r7 =>
                         (match dropWs r7 with
                          | '{' :: r8 => r8.all isWsChar
                          | _ => false)
                       | _ => false)
                  | _ => false
                else false
              | [] => false)
           | _ => false)
        | _ => false
      else false
    | [] => false

/-- `TARGET_ATTRS`: the desired `(name, value)` pairs, in source order. -/
def TARGET_ATTRS : List (Line × Line) :=
  [(("tunnel1_startup_action").data, ("\"start\"").data),
   (("tunnel2_startup_action").data, ("\"start\"").data),
   (("tunnel1_enable_tunnel_lifecycle_control").data, ("true").data),
   (("tunnel2_enable_tunnel_lifecycle_control").data, ("true").data)]

/-- `GROUPS`: the adjacency pairs, in source order. -/
def GROUPS : List (Line × Line) :=
  [(("tunnel1_startup_action").data, ("tunnel2_startup_action").data),
   (("tunnel1_enable_tunnel_lifecycle_control").data,
    ("tunnel2_enable_tunnel_lifecycle_control").data)]

/-- `line.count(c)` for a single character. -/
def countChar (c : Char) (l : Line) : Nat := l.countP (fun x => x = c)

/-- Per-line brace-depth change: `+ line.count("\x7b") - line.count("\x7d")`. -/
def braceDelta (l : Line) : Int :=
  (countChar '{' l : Int) - (countChar '}' l : Int)

/-- The inner walk of `find_resource_blocks`: starting from the given list
suffix with the given accumulated depth, return the offset of the first line
after which the depth is exactly zero (`none` when the file ends first). -/
def findEndOff : List Line → Int → Option Nat
  | [], _ => none
  | l :: rest, depth =>
    let d := depth + braceDelta l
    if d = 0 then some 0
    else (findEndOff rest d).map (fun k => k + 1)

/-- The outer loop of `find_resource_blocks` starting at index `i`.  On a
successful block `(i, j)` scanning resumes at `j + 1`; on a header whose
depth never returns to zero, and on a non-header line, at `i + 1`.  The
`fuel` argument only bounds the number of iterations (each iteration
advances `i` by at least one, so `lines.length + 1` is enough); it makes
the recursion structural, hence kernel-computable. -/
def findBlocksFrom (lines : List Line) : Nat → Nat → List (Nat × Nat)
  | 0, _ => []
  | fuel + 1, i =>
    if h : i < lines.length then
      if matchResourceHeader (lines.get ⟨i, h⟩) then
        match findEndOff (lines.drop i) 0 with
        | some k => (i, i + k) :: findBlocksFrom lines fuel (i + k + 1)
        | none => findBlocksFrom lines fuel (i + 1)
      else findBlocksFrom lines fuel (i + 1)
    else []

/-- `find_resource_blocks(lines)`. -/
def find_resource_blocks (lines : List Line) : List (Nat × Nat) :=
  findBlocksFrom lines (lines.length + 1) 0

/-- The per-attribute findings of the block scan of
`ensure_attributes_in_block` (the dicts `exists_exact`, `commented_idx`,
`other_value_idx`, all keyed by attribute name). -/
structure ScanState where
  exists_exact : Line → Bool
  commented_idx : Line → Option Nat
  other_value_idx : Line → Option Nat

/-- Initial scan state: `False` / `None` for every key. -/
def initScan : ScanState :=
  { exists_exact := fun _ => false
    commented_idx := fun _ => none
    other_value_idx := fun _ => none }

/-- Pointwise update of a `Line → Bool` table. -/
def setB (f : Line → Bool) (k : Line) (v : Bool) : Line → Bool :=
  fun a => if a = k then v else f a

/-- Pointwise update of a `Line → Option Nat` table. -/
def setN (f : Line → Option Nat) (k : Line) (v : Option Nat) : Line → Option Nat :=
  fun a => if a = k then v else f a

/-- The inner classification of one raw line against one target attribute
(the `elif` chain of the scan loop). -/
def classifyLine (idx : Nat) (raw : Line) (st : ScanState) (av : Line × Line) :
    ScanState :=
  let attr := av.1
  let value := av.2
  if matchExactAttr attr value raw then
    { st with exists_exact := setB st.exists_exact attr true }
  else if matchCommentAttr attr raw then
    (if (st.commented_idx attr).isNone then
      { st with commented_idx := setN st.commented_idx attr (some idx) }
    else st)
  else if matchAnyValueAttr attr raw then
    (if (st.other_value_idx attr).isNone then
      { st with other_value_idx := setN st.other_value_idx attr (some idx) }
    else st)
  else st

/-- The scan loop `for idx in range(start+1, end)` over an explicit index
list; `none` models the `IndexError` raised when an index reaches past the
end of the buffer. -/
def scanLinesGo (lines : List Line) : List Nat → ScanState → Option ScanState
  | [], st => some st
  | idx :: idxs, st =>
    match lines[idx]? with
    | none => none
    | some raw =>
      scanLinesGo lines idxs (TARGET_ATTRS.foldl (classifyLine idx raw) st)

/-- `for idx in range(start+1, end)` of the block scan. -/
def scanLines (lines : List Line) (start stop : Nat) (st : ScanState) :
    Option ScanState :=
  scanLinesGo lines (List.range' (start + 1) (stop - (start + 1))) st

/-- The indentation-inference loop body over an explicit index list: first
non-blank line gives the indent (default two spaces); `none` models
`IndexError`. -/
def inferIndentGo (lines : List Line) : List Nat → Option Line
  | [] => some (("  ").data)
  | k :: ks =>
    match lines[k]? with
    | none => none
    | some l =>
      if isBlank l then inferIndentGo lines ks
      else some (if (leadingWs l).isEmpty then ("  ").data else leadingWs l)

/-- `for k in range(start+1, end+1)` of the indentation inference. -/
def inferIndentLoop (lines : List Line) (start endIdx : Nat) : Option Line :=
  inferIndentGo lines (List.range' (start + 1) ((endIdx + 1) - (start + 1)))

/-- Per-block, per-attribute change messages (the data of the f-strings of
the source; line numbers are the 1-based numbers the source prints). -/
inductive Msg where
  | noChange (attr value : Line)
  | skipped (attr : Line) (lineNo : Nat) (value : Line)
  | updated (attr : Line) (lineNo : Nat) (value : Line)
  | uncommented (attr : Line) (lineNo : Nat)
  | appended (attr : Line) (beforeLineNo : Nat)
  deriving DecidableEq

/-- `f"\x7battr\x7d = \x7bvalue\x7d"`. -/
def targetLine (attr value : Line) : Line := attr ++ (" = ").data ++ value

/-- Python `list.insert(i, x)` (clamps `i` to the list length). -/
def pyInsertAt (l : List Line) (i : Nat) (x : Line) : List Line :=
  l.take i ++ x :: l.drop i

/-- Accumulator of the reconcile loop `for attr, value in TARGET_ATTRS`. -/
structure RecAcc where
  lines : List Line
  endIdx : Nat
  modified : Bool
  msgs : List Msg
  st : ScanState

/-- One iteration of the reconcile loop: no-op, skip, enforce-overwrite,
uncomment-and-normalize, or append-before-close.  `none` models
`IndexError` on a stale index. -/
def reconcileStep (enforce : Bool) (inner : Line) (acc : RecAcc)
    (av : Line × Line) : Option RecAcc :=
  let attr := av.1
  let value := av.2
  let target := targetLine attr value
  if acc.st.exists_exact attr then
    some { acc with msgs := acc.msgs ++ [Msg.noChange attr value] }
  else
    match acc.st.other_value_idx attr with
    | some i =>
      if enforce then
        match acc.lines[i]? with
        | none => none
        | some old =>
          let ind := if (leadingWs old).isEmpty then inner else leadingWs old
          let newLine := ind ++ target
          let acc1 :=
            if old = newLine then acc
            else { acc with
                    lines := acc.lines.set i newLine
                    modified := true
                    msgs := acc.msgs ++ [Msg.updated attr (i + 1) value] }
          some { acc1 with
                  st := { acc1.st with
                           exists_exact := setB acc1.st.exists_exact attr true } }
      else
        some { acc with msgs := acc.msgs ++ [Msg.skipped attr (i + 1) value] }
    | none =>
      match acc.st.commented_idx attr with
      | some i =>
        (match acc.lines[i]? with
         | none => none
         | some old =>
           let ind := if (leadingWs old).isEmpty then inner else leadingWs old
           let newLine := ind ++ target
           let acc1 :=
             if old = newLine then acc
             else { acc with
                     lines := acc.lines.set i newLine
                     modified := true
                     msgs := acc.msgs ++ [Msg.uncommented attr (i + 1)] }
           some { acc1 with
                   st := { acc1.st with
                            exists_exact := setB acc1.st.exists_exact attr true } })
      | none =>
        some { acc with
                lines := pyInsertAt acc.lines acc.endIdx (inner ++ target)
                modified := true
                msgs := acc.msgs ++ [Msg.appended attr (acc.endIdx + 1)]
                endIdx := acc.endIdx + 1
                st := { acc.st with
                         exists_exact := setB acc.st.exists_exact attr true } }

/-- `idx_of_attr` loop body over an explicit index list: first line
matching the any-value pattern.  Outer `none` models `IndexError`;
`some none` is Python's `None` result. -/
def idxOfAttrGo (lines : List Line) (attr : Line) : List Nat → Option (Option Nat)
  | [] => some none
  | i :: is =>
    match lines[i]? with
    | none => none
    | some l =>
      if matchAnyValueAttr attr l then some (some i)
      else idxOfAttrGo lines attr is

/-- `idx_of_attr(attr)`: scan `for i in range(start+1, end)`. -/
def idxOfAttrFrom (lines : List Line) (attr : Line) (start stop : Nat) :
    Option (Option Nat) :=
  idxOfAttrGo lines attr (List.range' (start + 1) (stop - (start + 1)))

/-- A line that `only_comments_between` accepts: blank after `lstrip`, or
starting with `#` or `//`. -/
def commentish (l : Line) : Bool :=
  match dropWs l with
  | [] => true
  | '#' :: _ => true
  | '/' :: '/' :: _ => true
  | _ => false

/-- `only_comments_between(i1, i2)` body over an explicit index list. -/
def onlyCommentsGo (lines : List Line) : List Nat → Option Bool
  | [] => some true
  | k :: ks =>
    match lines[k]? with
    | none => none
    | some l =>
      if commentish l then onlyCommentsGo lines ks else some false

/-- `only_comments_between(i1, i2)`: `for k in range(i1+1, i2)`. -/
def onlyCommentsBetween (lines : List Line) (i1 i2 : Nat) : Option Bool :=
  onlyCommentsGo lines (List.range' (i1 + 1) (i2 - (i1 + 1)))

/-- The blank-removal `while j < i2` loop between a pair: `del lines[j]`
shifts the tracked second index down by one per deletion.  The quantity
`i2 - j` decreases by exactly one per iteration, so it serves as exact
structural fuel. -/
def deleteBlanksGo (lines : List Line) (j i2 : Nat) (modified : Bool) :
    Nat → Option (List Line × Nat × Bool)
  | 0 => some (lines, i2, modified)
  | fuel + 1 =>
    match lines[j]? with
    | none => none
    | some l =>
      if isBlank l then deleteBlanksGo (lines.eraseIdx j) j (i2 - 1) true fuel
      else deleteBlanksGo lines (j + 1) i2 modified fuel

/-- The blank-removal loop starting at `j = i1 + 1`. -/
def deleteBlanks (lines : List Line) (j i2 : Nat) (modified : Bool) :
    Option (List Line × Nat × Bool) :=
  deleteBlanksGo lines j i2 modified (i2 - j)

/-- One iteration of the `for a1, a2 in GROUPS` loop: locate the pair,
remove blanks between, and relocate the second member when only comments
remain in between. -/
def normalizeGroup (start endIdx : Nat) (state : List Line × Bool)
    (g : Line × Line) : Option (List Line × Bool) :=
  let lines := state.1
  match idxOfAttrFrom lines g.1 start endIdx with
  | none => none
  | some none => some state
  | some (some i1) =>
    match idxOfAttrFrom lines g.2 start endIdx with
    | none => none
    | some none => some state
    | some (some i2) =>
      if i2 ≤ i1 then some state
      else
        match deleteBlanks lines (i1 + 1) i2 state.2 with
        | none => none
        | some (lines1, i2', modified1) =>
          if i2' ≠ i1 + 1 then
            match onlyCommentsBetween lines1 i1 i2' with
            | none => none
            | some true =>
              (match lines1[i2']? with
               | none => none
               | some moved =>
                 some (pyInsertAt (lines1.eraseIdx i2') (i1 + 1) moved, true))
            | some false => some (lines1, modified1)
          else some (lines1, modified1)

/-- `ensure_attributes_in_block(lines, start, end, enforce)`: returns
`(modified, new_end, msgs, lines)`; `none` models an uncaught exception. -/
def ensure_attributes_in_block (lines : List Line) (start endIdx : Nat)
    (enforce : Bool) : Option (Bool × Nat × List Msg × List Line) :=
  match inferIndentLoop lines start endIdx with
  | none => none
  | some inner =>
    match scanLines lines start endIdx initScan with
    | none => none
    | some st0 =>
      match TARGET_ATTRS.foldlM (reconcileStep enforce inner)
          (RecAcc.mk lines endIdx false [] st0) with
      | none => none
      | some acc =>
        match GROUPS.foldlM (normalizeGroup start acc.endIdx)
            (acc.lines, acc.modified) with
        | none => none
        | some (lines2, modified2) =>
          some (modified2, acc.endIdx, acc.msgs, lines2)

/-- The core loop of `process_file`: locate the blocks once, then reconcile
each recorded block in order against the shared (mutated) buffer,
accumulating the overall change flag and the tagged messages. -/
def run_core (lines : List Line) (enforce : Bool) :
    Option (Bool × List (Nat × Nat × Msg) × List Line) :=
  (find_resource_blocks lines).foldlM
    (fun stt b =>
      match ensure_attributes_in_block stt.2.2 b.1 b.2 enforce with
      | none => none
      | some (ch, e', msgs, lines') =>
        some (stt.1 || ch, stt.2.1 ++ msgs.map (fun m => (b.1 + 1, e' + 1, m)),
              lines'))
    (false, [], lines)

end PatchTf

namespace PatchTf

/-! ## Specification-side helper definitions used by the theorems -/

/-- Two literals are case-insensitively incompatible: at some common index
their characters differ even after lowercasing.  No line can then match
both as a prefix. -/
def ciIncompat : Line → Line → Bool
  | [], _ => false
  | _ :: _, [] => false
  | a :: as, b :: bs => if lowerEq a b then ciIncompat as bs else true

/-- Sum of the per-line brace-depth changes of a list of lines. -/
def deltaSum (ls : List Line) : Int := (ls.map braceDelta).sum

/-- Cumulative brace depth of `lines[s..j]` (both inclusive). -/
def depthThrough (lines : List Line) (s j : Nat) : Int :=
  deltaSum ((lines.drop s).take (j + 1 - s))

/-- The block contract of the locator: `s ≤ e`, dominated by the buffer,
header line at `s`, depth zero first reached at `e`. -/
def BlockSpec (lines : List Line) (s e : Nat) : Prop :=
  s ≤ e ∧ e < lines.length ∧ matchResourceHeader (lines.getD s []) = true ∧
  depthThrough lines s e = 0 ∧ ∀ j, s ≤ j → j < e → depthThrough lines s j ≠ 0

/-- The index window `range(start+1, stop)` scanned inside a block. -/
def scanWindow (start stop : Nat) : List Nat :=
  List.range' (start + 1) (stop - (start + 1))

/-- The appended-attribute messages produced by a run of consecutive
insertions starting at a given tracked end index (the tracked end grows by
one per insertion, and the source prints the 1-based number of the line
the insertion lands in front of). -/
def appendMsgs : Nat → List (Line × Line) → List Msg
  | _, [] => []
  | n, p :: ps => Msg.appended p.1 (n + 1) :: appendMsgs (n + 1) ps

/-- A line that is an exact uncommented `name = desired_value` match for
some target attribute.  The reconcile loop only ever writes such lines, and
never overwrites one. -/
def isTargetExact (l : Line) : Bool :=
  TARGET_ATTRS.any (fun p => matchExactAttr p.1 p.2 l)

/-- Position-weighted count of comment-or-blank lines, starting the index
count at `n`.  A relocation moves comment lines one slot to the right, so
this weight strictly grows; deletions and overwrites are measured by the
plain counts instead. -/
def cwGo : Nat → List Line → Nat
  | _, [] => 0
  | n, l :: ls => (if commentish l then n else 0) + cwGo (n + 1) ls

/-- Position-weighted comment count of a whole buffer. -/
def commentWeight (buf : List Line) : Nat := cwGo 0 buf

/-- The reconcile-loop invariant for a list of still-unprocessed attribute
pairs: every recorded index still holds the line recorded for it by the
scan — an uncommented non-exact assignment line at `other_value_idx`, a
comment-pattern line at `commented_idx` — and the index lies inside the
scanned region `(start, end)`. -/
def PendingInv (start : Nat) (ps : List (Line × Line)) (acc : RecAcc) : Prop :=
  ∀ p ∈ ps,
    (∀ i, acc.st.other_value_idx p.1 = some i →
      start + 1 ≤ i ∧ i < acc.endIdx ∧ ∃ li, acc.lines[i]? = some li ∧
        matchAnyValueAttr p.1 li = true ∧ matchExactAttr p.1 p.2 li = false) ∧
    (∀ i, acc.st.commented_idx p.1 = some i →
      start + 1 ≤ i ∧ i < acc.endIdx ∧ ∃ li, acc.lines[i]? = some li ∧
        matchCommentAttr p.1 li = true)

/-! ## Concrete input buffers

These buffers exercise the core on multi-block and mixed-classification
inputs; each is written out line by line exactly as the orchestrator would
hand it to the core after newline splitting. -/

/-- Two compliant blocks; block `a` holds two blank lines inside its first
adjacency pair, and one commented target-attribute line sits after the
final block, outside every block. -/
def bufCross : List Line :=
  [("resource \"aws_vpn_connection\" \"a\" \x7b").data,
   ("  tunnel1_startup_action = \"start\"").data,
   ("").data,
   ("").data,
   ("  tunnel2_startup_action = \"start\"").data,
   ("  tunnel1_enable_tunnel_lifecycle_control = true").data,
   ("  tunnel2_enable_tunnel_lifecycle_control = true").data,
   ("\x7d").data,
   ("resource \"aws_vpn_connection\" \"b\" \x7b").data,
   ("  tunnel1_startup_action = \"start\"").data,
   ("  tunnel2_startup_action = \"start\"").data,
   ("  tunnel1_enable_tunnel_lifecycle_control = true").data,
   ("  tunnel2_enable_tunnel_lifecycle_control = true").data,
   ("\x7d").data,
   ("# tunnel1_startup_action = \"stop\"").data]

/-- What the core produces from `bufCross` with enforcement off. -/
def outCross : List Line :=
  [("resource \"aws_vpn_connection\" \"a\" \x7b").data,
   ("  tunnel1_startup_action = \"start\"").data,
   ("  tunnel2_startup_action = \"start\"").data,
   ("  tunnel1_enable_tunnel_lifecycle_control = true").data,
   ("  tunnel2_enable_tunnel_lifecycle_control = true").data,
   ("\x7d").data,
   ("resource \"aws_vpn_connection\" \"b\" \x7b").data,
   ("  tunnel1_startup_action = \"start\"").data,
   ("  tunnel2_startup_action = \"start\"").data,
   ("  tunnel1_enable_tunnel_lifecycle_control = true").data,
   ("  tunnel2_enable_tunnel_lifecycle_control = true").data,
   ("\x7d").data,
   ("  tunnel1_startup_action = \"start\"").data,
   ("  tunnel2_startup_action = \"start\"").data]

/-- One block whose commented target line contains an unbalanced `{`. -/
def bufIdem : List Line :=
  [("resource \"aws_vpn_connection\" \"x\" \x7b").data,
   ("# tunnel1_startup_action = \x7b").data,
   ("\x7d").data,
   ("\x7d").data]

/-- The core's output from `bufIdem` (first application, enforcement off). -/
def outIdem1 : List Line :=
  [("resource \"aws_vpn_connection\" \"x\" \x7b").data,
   ("  tunnel1_startup_action = \"start\"").data,
   ("\x7d").data,
   ("  tunnel2_startup_action = \"start\"").data,
   ("  tunnel1_enable_tunnel_lifecycle_control = true").data,
   ("  tunnel2_enable_tunnel_lifecycle_control = true").data,
   ("\x7d").data]

/-- The core's output from `outIdem1` (second application, enforcement off). -/
def outIdem2 : List Line :=
  [("resource \"aws_vpn_connection\" \"x\" \x7b").data,
   ("  tunnel1_startup_action = \"start\"").data,
   ("  tunnel2_startup_action = \"start\"").data,
   ("  tunnel1_enable_tunnel_lifecycle_control = true").data,
   ("  tunnel2_enable_tunnel_lifecycle_control = true").data,
   ("\x7d").data,
   ("  tunnel2_startup_action = \"start\"").data,
   ("  tunnel1_enable_tunnel_lifecycle_control = true").data,
   ("  tunnel2_enable_tunnel_lifecycle_control = true").data,
   ("\x7d").data]

/-- A compliant block whose first pair is separated by one blank line,
followed by a second, empty block that ends at the last buffer line. -/
def bufCrash : List Line :=
  [("resource \"aws_vpn_connection\" \"a\" \x7b").data,
   ("  tunnel1_startup_action = \"start\"").data,
   ("").data,
   ("  tunnel2_startup_action = \"start\"").data,
   ("  tunnel1_enable_tunnel_lifecycle_control = true").data,
   ("  tunnel2_enable_tunnel_lifecycle_control = true").data,
   ("\x7d").data,
   ("resource \"aws_vpn_connection\" \"b\" \x7b").data,
   ("\x7d").data]

/-- One block holding two uncommented `tunnel1_startup_action` assignment
lines, both with a non-desired value. -/
def bufDup : List Line :=
  [("resource \"aws_vpn_connection\" \"a\" \x7b").data,
   ("  tunnel1_startup_action = \"stop\"").data,
   ("  tunnel1_startup_action = \"stop\"").data,
   ("\x7d").data]

/-- The core's output from `bufDup` with enforcement on. -/
def outDup : List Line :=
  [("resource \"aws_vpn_connection\" \"a\" \x7b").data,
   ("  tunnel1_startup_action = \"start\"").data,
   ("  tunnel1_startup_action = \"stop\"").data,
   ("  tunnel2_startup_action = \"start\"").data,
   ("  tunnel1_enable_tunnel_lifecycle_control = true").data,
   ("  tunnel2_enable_tunnel_lifecycle_control = true").data,
   ("\x7d").data]

/-- One block holding both a commented `tunnel1_startup_action` line and an
uncommented one with a non-desired value. -/
def bufCm : List Line :=
  [("resource \"aws_vpn_connection\" \"a\" \x7b").data,
   ("  # tunnel1_startup_action = \"start\"").data,
   ("  tunnel1_startup_action = \"stop\"").data,
   ("  tunnel2_startup_action = \"start\"").data,
   ("  tunnel1_enable_tunnel_lifecycle_control = true").data,
   ("  tunnel2_enable_tunnel_lifecycle_control = true").data,
   ("\x7d").data]

/-- One block holding a commented `tunnel1_startup_action` line (with a
stale value) and no uncommented assignment line for that attribute. -/
def bufUnc : List Line :=
  [("resource \"aws_vpn_connection\" \"a\" \x7b").data,
   ("  # tunnel1_startup_action = \"stop\"").data,
   ("  tunnel2_startup_action = \"start\"").data,
   ("  tunnel1_enable_tunnel_lifecycle_control = true").data,
   ("  tunnel2_enable_tunnel_lifecycle_control = true").data,
   ("\x7d").data]

/-- The core's output from `bufUnc` (either enforcement value). -/
def outUnc : List Line :=
  [("resource \"aws_vpn_connection\" \"a\" \x7b").data,
   ("  tunnel1_startup_action = \"start\"").data,
   ("  tunnel2_startup_action = \"start\"").data,
   ("  tunnel1_enable_tunnel_lifecycle_control = true").data,
   ("  tunnel2_enable_tunnel_lifecycle_control = true").data,
   ("\x7d").data]

/-- The messages the core emits on `bufUnc`. -/
def msgsUnc : List Msg :=
  [Msg.uncommented (("tunnel1_startup_action").data) 2,
   Msg.noChange (("tunnel2_startup_action").data) (("\"start\"").data),
   Msg.noChange (("tunnel1_enable_tunnel_lifecycle_control").data) (("true").data),
   Msg.noChange (("tunnel2_enable_tunnel_lifecycle_control").data) (("true").data)]

/-- The messages the core emits on `bufCm` with enforcement off. -/
def msgsCm : List Msg :=
  [Msg.skipped (("tunnel1_startup_action").data) 3 (("\"start\"").data),
   Msg.noChange (("tunnel2_startup_action").data) (("\"start\"").data),
   Msg.noChange (("tunnel1_enable_tunnel_lifecycle_control").data) (("true").data),
   Msg.noChange (("tunnel2_enable_tunnel_lifecycle_control").data) (("true").data)]

/-- The core's output from `bufCm` with enforcement on. -/
def outCm : List Line :=
  [("resource \"aws_vpn_connection\" \"a\" \x7b").data,
   ("  # tunnel1_startup_action = \"start\"").data,
   ("  tunnel1_startup_action = \"start\"").data,
   ("  tunnel2_startup_action = \"start\"").data,
   ("  tunnel1_enable_tunnel_lifecycle_control = true").data,
   ("  tunnel2_enable_tunnel_lifecycle_control = true").data,
   ("\x7d").data]

/-- A minimal resource block with an empty body: all four target attributes
are absent. -/
def bufC7 : List Line :=
  [("resource \"aws_vpn_connection\" \"main\" \x7b").data,
   ("\x7d").data]

/-- One block mixing all enforcement classifications without duplicates:
one attribute with a wrong value, one commented, two absent. -/
def bufC3 : List Line :=
  [("resource \"aws_vpn_connection\" \"main\" \x7b").data,
   ("  tunnel1_startup_action = \"stop\"").data,
   ("  # tunnel2_startup_action = \"start\"").data,
   ("\x7d").data]

/-- One block whose first adjacency pair is separated by a blank line and
a comment line: the normalizer must delete the blank and relocate the
second member directly after the first. -/
def bufC8 : List Line :=
  [("resource \"aws_vpn_connection\" \"a\" \x7b").data,
   ("  tunnel1_startup_action = \"stop\"").data,
   ("").data,
   ("  # note").data,
   ("  tunnel2_startup_action = \"start\"").data,
   ("\x7d").data]

/-- The buffer produced by one `normalizeGroup` pass on `bufC8` for the
startup-action pair: blank deleted, second member moved above the
comment. -/
def outC8 : List Line :=
  [("resource \"aws_vpn_connection\" \"a\" \x7b").data,
   ("  tunnel1_startup_action = \"stop\"").data,
   ("  tunnel2_startup_action = \"start\"").data,
   ("  # note").data,
   ("\x7d").data]

/-- C1: the claim fails on the code.  `bufCross` has exactly the two blocks
`[0,7]` and `[8,13]`, and its last line, outside both blocks, is a commented
target-attribute line.  Reconciling block `a` deletes two blank lines, so
block `b` is reconciled against its stale recorded boundaries; the run
rewrites the outside comment line (it no longer occurs in the output) and
appends a target line beyond the last closing brace. -/
theorem C1_cross_block_leakage_eval :
    find_resource_blocks bufCross = [(0, 7), (8, 13)] ∧
    (run_core bufCross false).map (fun r => r.2.2) = some outCross ∧
    bufCross.getD 14 [] = ("# tunnel1_startup_action = \"stop\"").data ∧
    outCross.contains (("# tunnel1_startup_action = \"stop\"").data) = false := by
  decide

/-- C2: the claim fails on the code.  On `bufIdem` the first run (with
enforcement off) uncomments a line that contained an unbalanced `{`, which
changes the brace balance; the second run therefore sees a shorter block,
classifies three attributes absent again, mutates, and yields a different
buffer. -/
theorem C2_idempotence_failure_eval :
    (run_core bufIdem false).map (fun r => (r.1, r.2.2)) = some (true, outIdem1) ∧
    (run_core outIdem1 false).map (fun r => (r.1, r.2.2)) = some (true, outIdem2) ∧
    outIdem1 ≠ outIdem2 := by
  decide

/-- C4: the claim fails on the code.  On `bufCrash` the first block's
normalization deletes a blank line, so the second recorded block's range
`[7,8]` reaches one line past the shortened buffer and the
indentation-inference loop raises `IndexError` (modelled as `none`). -/
theorem C4_index_error_eval : run_core bufCrash false = none := by
  decide

/-- C3 counterexample: with enforcement on, the block of `bufDup` ends up
with its first `tunnel1_startup_action` line normalized but the duplicate
uncommented `"stop"` assignment line still inside the block, so the
attribute does not have exactly one uncommented assignment line. -/
theorem C3_counterexample :
    find_resource_blocks bufDup = [(0, 3)] ∧
    (run_core bufDup true).map (fun r => r.2.2) = some outDup ∧
    outDup.getD 1 [] = ("  tunnel1_startup_action = \"start\"").data ∧
    outDup.getD 2 [] = ("  tunnel1_startup_action = \"stop\"").data ∧
    matchAnyValueAttr (("tunnel1_startup_action").data) (outDup.getD 2 []) = true ∧
    matchExactAttr (("tunnel1_startup_action").data) (("\"start\"").data)
      (outDup.getD 2 []) = false := by
  decide

/-- C5 counterexample: in `bufCm` the attribute `tunnel1_startup_action`
has a commented occurrence (line 1) and no uncommented exact match anywhere
in the block, yet with enforcement off the run performs no mutation at all
(the commented line is not replaced), and with enforcement on it rewrites
the other-value line while still leaving the commented line untouched. -/
theorem C5_counterexample :
    matchCommentAttr (("tunnel1_startup_action").data) (bufCm.getD 1 []) = true ∧
    (List.range 7).all (fun k =>
      !(matchExactAttr (("tunnel1_startup_action").data) (("\"start\"").data)
        (bufCm.getD k []))) = true ∧
    (run_core bufCm false).map (fun r => (r.1, r.2.2)) = some (false, bufCm) ∧
    (run_core bufCm true).map (fun r => r.2.2) = some outCm ∧
    outCm.getD 1 [] = bufCm.getD 1 [] := by
  decide

/-! ## Matcher infrastructure -/

theorem lowerEq_refl (c : Char) : lowerEq c c = true := by
  simp [lowerEq]

theorem lowerEq_iff (a b : Char) : lowerEq a b = true ↔ a.toLower = b.toLower := by
  simp [lowerEq]

theorem dropWs_cons_of_ws {c : Char} (l : Line) (h : isWsChar c = true) :
    dropWs (c :: l) = dropWs l := by
  simp [dropWs, List.dropWhile_cons, h]

theorem dropWs_cons_of_not_ws {c : Char} (l : Line) (h : isWsChar c = false) :
    dropWs (c :: l) = c :: l := by
  simp [dropWs, List.dropWhile_cons, h]

theorem dropWs_ws_append {w : Line} (l : Line) (h : w.all isWsChar = true) :
    dropWs (w ++ l) = dropWs l := by
  induction w with
  | nil => rfl
  | cons c cs ih =>
    simp only [List.all_cons, Bool.and_eq_true] at h
    rw [List.cons_append, dropWs_cons_of_ws _ h.1, ih h.2]

theorem dropWs_eq_nil_of_isBlank {l : Line} (h : isBlank l = true) :
    dropWs l = [] := by
  simp only [isBlank, List.all_eq_true] at h
  simp only [dropWs, List.dropWhile_eq_nil_iff]
  exact h

theorem leadingWs_ws_append {w : Line} (l : Line) (h : w.all isWsChar = true) :
    leadingWs (w ++ l) = w ++ leadingWs l := by
  induction w with
  | nil => rfl
  | cons c cs ih =>
    simp only [List.all_cons, Bool.and_eq_true] at h
    simp only [List.cons_append, leadingWs, List.takeWhile_cons, h.1, if_true]
    simpa [leadingWs] using ih h.2

theorem stripLit_append_self (p l : Line) : stripLit p (p ++ l) = some l := by
  induction p with
  | nil => rfl
  | cons c cs ih => simp [stripLit, lowerEq_refl, ih]

theorem stripLit_cons_some {x : Char} {xs l r : Line}
    (h : stripLit (x :: xs) l = some r) :
    ∃ c cs, l = c :: cs ∧ lowerEq x c = true ∧ stripLit xs cs = some r := by
  cases l with
  | nil => simp [stripLit] at h
  | cons c cs =>
    by_cases hc : lowerEq x c
    · exact ⟨c, cs, rfl, hc, by simpa [stripLit, hc] using h⟩
    · simp [stripLit, hc] at h

theorem stripLit_none_of_incompat {p q l r : Line} (h : ciIncompat p q = true)
    (hp : stripLit p l = some r) : stripLit q l = none := by
  induction p generalizing q l r with
  | nil => simp [ciIncompat] at h
  | cons a as ih =>
    cases q with
    | nil => simp [ciIncompat] at h
    | cons b bs =>
      obtain ⟨c, cs, rfl, hac, hrec⟩ := stripLit_cons_some hp
      by_cases hab : lowerEq a b
      · have hincompat : ciIncompat as bs = true := by
          simpa [ciIncompat, hab] using h
        have hbc : lowerEq b c = true := by
          rw [lowerEq_iff] at hab hac ⊢
          rw [← hab, hac]
        simp only [stripLit, hbc, if_true]
        exact ih hincompat hrec
      · have hbc : lowerEq b c = false := by
          rw [lowerEq_iff] at hac
          rw [Bool.eq_false_iff]
          intro hbc'
          rw [lowerEq_iff] at hbc'
          exact hab (by rw [lowerEq_iff, hbc', hac])
        simp [stripLit, hbc]

/-- A line matching the any-value pattern of one attribute matches neither
the any-value nor the exact pattern of a case-insensitively incompatible
attribute. -/
theorem matchAnyValue_incompat {a b l : Line} (h : ciIncompat a b = true)
    (ha : matchAnyValueAttr a l = true) :
    matchAnyValueAttr b l = false ∧ ∀ w, matchExactAttr b w l = false := by
  unfold matchAnyValueAttr at ha
  rcases hs : stripLit a (dropWs l) with _ | r1
  · rw [hs] at ha; exact absurd ha (by simp)
  · have hnone := stripLit_none_of_incompat h hs
    constructor
    · unfold matchAnyValueAttr
      rw [hnone]
    · intro w
      unfold matchExactAttr
      rw [hnone]

theorem stripLit_head_lower {x : Char} {xs l r : Line}
    (h : stripLit (x :: xs) l = some r) :
    ∃ c cs, l = c :: cs ∧ c.toLower = x.toLower := by
  obtain ⟨c, cs, rfl, hc, _⟩ := stripLit_cons_some h
  exact ⟨c, cs, rfl, ((lowerEq_iff x c).mp hc).symm⟩

/-- A line matching the comment pattern of some attribute starts, after
leading whitespace, with `#` or `//`. -/
theorem matchComment_head {b l : Line} (hb : matchCommentAttr b l = true) :
    (∃ r, dropWs l = '#' :: r) ∨ (∃ r, dropWs l = '/' :: '/' :: r) := by
  unfold matchCommentAttr at hb
  split at hb
  · next r heq => exact Or.inl ⟨r, heq⟩
  · next r heq => exact Or.inr ⟨r, heq⟩
  · simp at hb

/-- A comment-pattern line matches no attribute whose name starts with a
character other than `#` or `/` after lowercasing. -/
theorem matchComment_excludes {b l : Line} (hb : matchCommentAttr b l = true)
    {x : Char} {xs : Line}
    (hxne : x.toLower ≠ '#' ∧ x.toLower ≠ '/') :
    matchAnyValueAttr (x :: xs) l = false ∧
    ∀ w, matchExactAttr (x :: xs) w l = false := by
  have hnone : stripLit (x :: xs) (dropWs l) = none := by
    rcases hs : stripLit (x :: xs) (dropWs l) with _ | r
    · rfl
    · exfalso
      obtain ⟨c, cs, hdw, hcl⟩ := stripLit_head_lower hs
      rcases matchComment_head hb with ⟨r1, hr⟩ | ⟨r1, hr⟩
      · rw [hr] at hdw
        injection hdw with h1 _
        exact hxne.1 (by rw [← hcl, ← h1]; rfl)
      · rw [hr] at hdw
        injection hdw with h1 _
        exact hxne.2 (by rw [← hcl, ← h1]; rfl)
  constructor
  · unfold matchAnyValueAttr; rw [hnone]
  · intro w; unfold matchExactAttr; rw [hnone]

theorem matchAnyValueAttr_iff {a l : Line} :
    matchAnyValueAttr a l = true ↔
    ∃ r1 r2, stripLit a (dropWs l) = some r1 ∧ dropWs r1 = '=' :: r2 ∧
      r2 ≠ [] := by
  unfold matchAnyValueAttr
  constructor
  · intro h
    split at h
    · simp at h
    · next r1 hs =>
      split at h
      · next r2 hd => exact ⟨r1, r2, hs, hd, by simpa using h⟩
      · simp at h
  · rintro ⟨r1, r2, hs, hd, hne⟩
    simp [hs, hd, hne]

theorem matchExactAttr_iff {a v l : Line} :
    matchExactAttr a v l = true ↔
    ∃ r1 r2 r3, stripLit a (dropWs l) = some r1 ∧ dropWs r1 = '=' :: r2 ∧
      stripLit v (dropWs r2) = some r3 ∧ r3.all isWsChar = true := by
  unfold matchExactAttr
  constructor
  · intro h
    split at h
    · simp at h
    · next r1 hs =>
      split at h
      · next r2 hd =>
        split at h
        · simp at h
        · next r3 hsv => exact ⟨r1, r2, r3, hs, hd, hsv, h⟩
      · simp at h
  · rintro ⟨r1, r2, r3, hs, hd, hsv, hws⟩
    simp [hs, hd, hsv, hws]

theorem matchCommentAttr_iff {a l : Line} :
    matchCommentAttr a l = true ↔
    ∃ r, (dropWs l = '#' :: r ∨ dropWs l = '/' :: '/' :: r) ∧
      ∃ r2 r3, stripLit a (dropWs r) = some r2 ∧ dropWs r2 = '=' :: r3 := by
  unfold matchCommentAttr
  constructor
  · intro h
    split at h
    · next r heq =>
      refine ⟨r, Or.inl heq, ?_⟩
      split at h
      · simp at h
      · next r2 hs =>
        split at h
        · next r3 hd => exact ⟨r2, r3, hs, hd⟩
        · simp at h
    · next r heq =>
      refine ⟨r, Or.inr heq, ?_⟩
      split at h
      · simp at h
      · next r2 hs =>
        split at h
        · next r3 hd => exact ⟨r2, r3, hs, hd⟩
        · simp at h
    · simp at h
  · rintro ⟨r, hdl | hdl, r2, r3, hs, hd⟩ <;> simp [hdl, hs, hd]

/-- An exact match implies an any-value match (for a nonempty value). -/
theorem matchExact_imp_any {a v l : Line} (hv : v ≠ [])
    (h : matchExactAttr a v l = true) : matchAnyValueAttr a l = true := by
  obtain ⟨r1, r2, r3, hs, hd, hsv, _⟩ := matchExactAttr_iff.mp h
  refine matchAnyValueAttr_iff.mpr ⟨r1, r2, hs, hd, ?_⟩
  rintro rfl
  obtain ⟨y, ys, rfl⟩ : ∃ y ys, v = y :: ys := by
    cases v with
    | nil => exact absurd rfl hv
    | cons y ys => exact ⟨y, ys, rfl⟩
  simp [stripLit, dropWs] at hsv

/-- A line matching the any-value pattern of a nonempty attribute is not
blank. -/
theorem matchAny_not_blank {a l : Line} {x : Char} {xs : Line}
    (hx : a = x :: xs) (h : matchAnyValueAttr a l = true) :
    isBlank l = false := by
  obtain ⟨r1, r2, hs, _, _⟩ := matchAnyValueAttr_iff.mp h
  rw [Bool.eq_false_iff]
  intro hb
  rw [hx, dropWs_eq_nil_of_isBlank hb] at hs
  simp [stripLit] at hs

/-- A line matching the comment pattern of any attribute is not blank. -/
theorem matchComment_not_blank {a l : Line}
    (h : matchCommentAttr a l = true) : isBlank l = false := by
  rw [Bool.eq_false_iff]
  intro hb
  rcases matchComment_head h with ⟨r, hr⟩ | ⟨r, hr⟩ <;>
    rw [dropWs_eq_nil_of_isBlank hb] at hr <;> exact absurd hr (by simp)

/-! ## Constructed target lines -/

theorem stripLit_self (p : Line) : stripLit p p = some [] := by
  have h := stripLit_append_self p []
  simpa using h

theorem targetLine_eq (a v : Line) :
    targetLine a v = a ++ ' ' :: '=' :: ' ' :: v := by
  have h : (" = ").data = [' ', '=', ' '] := rfl
  simp [targetLine, h]

theorem dropWs_target {a v ind : Line} {x : Char} {xs : Line}
    (hind : ind.all isWsChar = true) (hx : a = x :: xs)
    (hxw : isWsChar x = false) :
    dropWs (ind ++ targetLine a v) = targetLine a v := by
  rw [dropWs_ws_append _ hind, targetLine_eq, hx, List.cons_append,
    dropWs_cons_of_not_ws _ hxw]

/-- The constructed line `indent ++ name ++ " = " ++ value` is an exact
match for `(name, value)`. -/
theorem matchExact_target {a v ind : Line} {x y : Char} {xs ys : Line}
    (hind : ind.all isWsChar = true) (hx : a = x :: xs)
    (hxw : isWsChar x = false) (hy : v = y :: ys) (hyw : isWsChar y = false) :
    matchExactAttr a v (ind ++ targetLine a v) = true := by
  refine matchExactAttr_iff.mpr ⟨' ' :: '=' :: ' ' :: v, ' ' :: v, [], ?_, ?_, ?_, rfl⟩
  · rw [dropWs_target hind hx hxw, targetLine_eq]
    exact stripLit_append_self a _
  · rw [dropWs_cons_of_ws _ (by rfl), dropWs_cons_of_not_ws _ (by rfl)]
  · rw [dropWs_cons_of_ws _ (by rfl), hy, dropWs_cons_of_not_ws _ hyw, ← hy]
    exact stripLit_self v

/-- The constructed line is an any-value match for its own attribute. -/
theorem matchAny_target {a v ind : Line} {x : Char} {xs : Line}
    (hind : ind.all isWsChar = true) (hx : a = x :: xs)
    (hxw : isWsChar x = false) :
    matchAnyValueAttr a (ind ++ targetLine a v) = true := by
  refine matchAnyValueAttr_iff.mpr ⟨' ' :: '=' :: ' ' :: v, ' ' :: v, ?_, ?_, by simp⟩
  · rw [dropWs_target hind hx hxw, targetLine_eq]
    exact stripLit_append_self a _
  · rw [dropWs_cons_of_ws _ (by rfl), dropWs_cons_of_not_ws _ (by rfl)]

/-- The constructed line matches no comment pattern. -/
theorem matchComment_target {b a v ind : Line} {x : Char} {xs : Line}
    (hind : ind.all isWsChar = true) (hx : a = x :: xs)
    (hxw : isWsChar x = false) (hxh : x ≠ '#' ∧ x ≠ '/') :
    matchCommentAttr b (ind ++ targetLine a v) = false := by
  rw [Bool.eq_false_iff]
  intro h
  have hdw := dropWs_target (v := v) hind hx hxw
  rcases matchComment_head h with ⟨r, hr⟩ | ⟨r, hr⟩ <;>
    rw [hdw] at hr <;> rw [targetLine_eq, hx, List.cons_append] at hr <;>
    injection hr with h1 _
  · exact hxh.1 h1
  · exact hxh.2 h1

/-- The constructed line is not blank. -/
theorem isBlank_target {a v ind : Line} {x : Char} {xs : Line}
    (hx : a = x :: xs) (hxw : isWsChar x = false) :
    isBlank (ind ++ targetLine a v) = false := by
  rw [Bool.eq_false_iff]
  intro h
  simp only [isBlank, List.all_eq_true] at h
  exact absurd (h x (by rw [targetLine_eq, hx]; simp)) (by simp [hxw])

/-- The constructed line is not accepted by `only_comments_between`. -/
theorem commentish_target {a v ind : Line} {x : Char} {xs : Line}
    (hind : ind.all isWsChar = true) (hx : a = x :: xs)
    (hxw : isWsChar x = false) (hxh : x ≠ '#' ∧ x ≠ '/') :
    commentish (ind ++ targetLine a v) = false := by
  have hdw := dropWs_target (v := v) hind hx hxw
  unfold commentish
  split
  · next heq =>
    rw [hdw, targetLine_eq, hx, List.cons_append] at heq
    exact absurd heq (by simp)
  · next heq =>
    rw [hdw, targetLine_eq, hx, List.cons_append] at heq
    injection heq with h1 _
    exact absurd h1 hxh.1
  · next heq =>
    rw [hdw, targetLine_eq, hx, List.cons_append] at heq
    injection heq with h1 _
    exact absurd h1 hxh.2
  · rfl

/-- The leading whitespace of the constructed line is exactly the given
whitespace indent. -/
theorem leadingWs_target {a v ind : Line} {x : Char} {xs : Line}
    (hind : ind.all isWsChar = true) (hx : a = x :: xs)
    (hxw : isWsChar x = false) :
    leadingWs (ind ++ targetLine a v) = ind := by
  rw [leadingWs_ws_append _ hind, targetLine_eq, hx, List.cons_append]
  simp [leadingWs, List.takeWhile_cons, hxw]

/-! ## Facts about the concrete attribute table -/

theorem attrs_incompat : ∀ p ∈ TARGET_ATTRS, ∀ q ∈ TARGET_ATTRS,
    p.1 ≠ q.1 → ciIncompat p.1 q.1 = true := by decide

theorem attrs_shape : ∀ p ∈ TARGET_ATTRS,
    p.1.headD ' ' = 't' ∧ p.1 ≠ [] ∧ p.2.headD ' ' ≠ ' ' ∧
    isWsChar (p.2.headD ' ') = false ∧ p.2 ≠ [] := by decide

theorem groups_shape : ∀ g ∈ GROUPS,
    g.1 ∈ TARGET_ATTRS.map Prod.fst ∧ g.2 ∈ TARGET_ATTRS.map Prod.fst ∧
    g.1 ≠ g.2 := by decide

theorem attr_cons_of_mem {a v : Line} (h : (a, v) ∈ TARGET_ATTRS) :
    ∃ xs, a = 't' :: xs := by
  obtain ⟨h1, h2, -⟩ := attrs_shape (a, v) h
  cases a with
  | nil => exact absurd rfl h2
  | cons x xs => exact ⟨xs, by rw [show x = 't' from h1]⟩

theorem value_cons_of_mem {a v : Line} (h : (a, v) ∈ TARGET_ATTRS) :
    ∃ y ys, v = y :: ys ∧ isWsChar y = false := by
  obtain ⟨-, -, -, h4, h5⟩ := attrs_shape (a, v) h
  cases v with
  | nil => exact absurd rfl h5
  | cons y ys => exact ⟨y, ys, rfl, h4⟩

/-- A comment match for any pattern excludes an exact or any-value match
for a target attribute on the same line. -/
theorem comment_excludes_attr {a v b l : Line} (hm : (a, v) ∈ TARGET_ATTRS)
    (hb : matchCommentAttr b l = true) :
    matchAnyValueAttr a l = false ∧ ∀ w, matchExactAttr a w l = false := by
  obtain ⟨xs, rfl⟩ := attr_cons_of_mem hm
  exact matchComment_excludes hb (by constructor <;> decide)

/-- An any-value match for one target attribute excludes any-value and
exact matches for a different one on the same line. -/
theorem any_excludes_other {a v b w l : Line} (hm : (a, v) ∈ TARGET_ATTRS)
    (hm' : (b, w) ∈ TARGET_ATTRS) (hne : a ≠ b)
    (ha : matchAnyValueAttr a l = true) :
    matchAnyValueAttr b l = false ∧ ∀ u, matchExactAttr b u l = false :=
  matchAnyValue_incompat (attrs_incompat (a, v) hm (b, w) hm' hne) ha

/-- An exact match excludes a comment match for the same target attribute. -/
theorem exact_imp_not_comment {a v l : Line} (hm : (a, v) ∈ TARGET_ATTRS)
    (h : matchExactAttr a v l = true) : matchCommentAttr a l = false := by
  cases hc : matchCommentAttr a l with
  | false => rfl
  | true =>
    have hfalse := (comment_excludes_attr hm hc).2 v
    rw [h] at hfalse
    exact absurd hfalse (by simp)

/-- A comment match excludes an any-value match for the same attribute. -/
theorem comment_imp_not_any {a v l : Line} (hm : (a, v) ∈ TARGET_ATTRS)
    (h : matchCommentAttr a l = true) : matchAnyValueAttr a l = false :=
  (comment_excludes_attr hm h).1

/-! ## Scan-state characterization -/

theorem classifyLine_other {idx : Nat} {raw : Line} {st : ScanState}
    {av : Line × Line} {a : Line} (h : a ≠ av.1) :
    ((classifyLine idx raw st av).exists_exact a = st.exists_exact a) ∧
    ((classifyLine idx raw st av).commented_idx a = st.commented_idx a) ∧
    ((classifyLine idx raw st av).other_value_idx a = st.other_value_idx a) := by
  unfold classifyLine
  dsimp only
  split
  · simp [setB, h]
  · split
    · split <;> simp [setN, h]
    · split
      · split <;> simp [setN, h]
      · simp

theorem classifyLine_own {idx : Nat} {raw : Line} {st : ScanState}
    {a v : Line} (hm : (a, v) ∈ TARGET_ATTRS) :
    ((classifyLine idx raw st (a, v)).exists_exact a =
      (st.exists_exact a || matchExactAttr a v raw)) ∧
    ((classifyLine idx raw st (a, v)).commented_idx a =
      if matchCommentAttr a raw = true ∧ st.commented_idx a = none
      then some idx else st.commented_idx a) ∧
    ((classifyLine idx raw st (a, v)).other_value_idx a =
      if matchAnyValueAttr a raw = true ∧ matchExactAttr a v raw = false ∧
          st.other_value_idx a = none
      then some idx else st.other_value_idx a) := by
  unfold classifyLine
  cases he : matchExactAttr a v raw with
  | true =>
    have hc := exact_imp_not_comment hm he
    obtain ⟨y, ys, rfl, _⟩ := value_cons_of_mem hm
    have hany := matchExact_imp_any (by simp) he
    simp [he, hc, setB]
  | false =>
    cases hc : matchCommentAttr a raw with
    | true =>
      have hany := comment_imp_not_any hm hc
      simp only [he, hc, if_false, if_true, Bool.false_eq_true]
      refine ⟨?_, ?_, ?_⟩
      · split <;> simp [setN]
      · split
        · next hnone =>
          simp only [Option.isNone_iff_eq_none] at hnone
          simp [setN, hnone]
        · next hnone =>
          simp only [Option.isNone_iff_eq_none] at hnone
          simp [hnone]
      · split <;> simp [setN, hany]
    | false =>
      cases hany : matchAnyValueAttr a raw with
      | true =>
        simp only [he, hc, hany, Bool.false_eq_true, if_false]
        cases hnone : st.other_value_idx a with
        | none => simp [setN, hnone]
        | some j => simp [hnone]
      | false => simp [he, hc, hany]

theorem attrs_keys_nodup : (TARGET_ATTRS.map Prod.fst).Nodup := by decide

theorem classify_fold_other {idx : Nat} {raw : Line} {a : Line} :
    ∀ (ps : List (Line × Line)), (∀ p ∈ ps, p.1 ≠ a) → ∀ st : ScanState,
    ((ps.foldl (classifyLine idx raw) st).exists_exact a = st.exists_exact a) ∧
    ((ps.foldl (classifyLine idx raw) st).commented_idx a = st.commented_idx a) ∧
    ((ps.foldl (classifyLine idx raw) st).other_value_idx a =
      st.other_value_idx a) := by
  intro ps
  induction ps with
  | nil => intro _ st; exact ⟨rfl, rfl, rfl⟩
  | cons p ps ih =>
    intro h st
    simp only [List.foldl_cons]
    obtain ⟨e1, c1, o1⟩ :=
      @classifyLine_other idx raw st p a
        (Ne.symm (h p (List.mem_cons_self p ps)))
    obtain ⟨e2, c2, o2⟩ :=
      ih (fun q hq => h q (List.mem_cons_of_mem _ hq)) (classifyLine idx raw st p)
    exact ⟨e2.trans e1, c2.trans c1, o2.trans o1⟩

theorem classify_fold_key_aux {idx : Nat} {raw : Line} :
    ∀ (ps : List (Line × Line)), (∀ p ∈ ps, p ∈ TARGET_ATTRS) →
    (ps.map Prod.fst).Nodup → ∀ {a v : Line}, (a, v) ∈ ps → ∀ st : ScanState,
    ((ps.foldl (classifyLine idx raw) st).exists_exact a =
      (st.exists_exact a || matchExactAttr a v raw)) ∧
    ((ps.foldl (classifyLine idx raw) st).commented_idx a =
      if matchCommentAttr a raw = true ∧ st.commented_idx a = none
      then some idx else st.commented_idx a) ∧
    ((ps.foldl (classifyLine idx raw) st).other_value_idx a =
      if matchAnyValueAttr a raw = true ∧ matchExactAttr a v raw = false ∧
          st.other_value_idx a = none
      then some idx else st.other_value_idx a) := by
  intro ps
  induction ps with
  | nil => intro _ _ a v hm; exact absurd hm (by simp)
  | cons p ps ih =>
    intro hsub hnd a v hm st
    simp only [List.map_cons, List.nodup_cons] at hnd
    rcases List.mem_cons.mp hm with heq | hmem
    · subst heq
      simp only [List.foldl_cons]
      have hown := @classifyLine_own idx raw st a v
        (hsub (a, v) (List.mem_cons_self _ _))
      have hkeys : ∀ q ∈ ps, q.1 ≠ a := by
        intro q hq hqa
        have hmem' : q.1 ∈ List.map Prod.fst ps := List.mem_map_of_mem Prod.fst hq
        rw [hqa] at hmem'
        exact hnd.1 hmem'
      obtain ⟨e2, c2, o2⟩ := classify_fold_other ps hkeys (classifyLine idx raw st (a, v))
      exact ⟨e2.trans hown.1, c2.trans hown.2.1, o2.trans hown.2.2⟩
    · have hpa : p.1 ≠ a := by
        intro hpa
        have : a ∈ List.map Prod.fst ps := by
          have := List.mem_map_of_mem Prod.fst hmem
          simpa using this
        exact hnd.1 (hpa ▸ this)
      simp only [List.foldl_cons]
      obtain ⟨e1, c1, o1⟩ := @classifyLine_other idx raw st p a (Ne.symm hpa)
      obtain ⟨e2, c2, o2⟩ :=
        ih (fun q hq => hsub q (List.mem_cons_of_mem _ hq)) hnd.2 hmem
          (classifyLine idx raw st p)
      rw [e1] at e2
      rw [c1] at c2
      rw [o1] at o2
      exact ⟨e2, c2, o2⟩

theorem classify_fold_key {idx : Nat} {raw : Line} {st : ScanState}
    {a v : Line} (hm : (a, v) ∈ TARGET_ATTRS) :
    ((TARGET_ATTRS.foldl (classifyLine idx raw) st).exists_exact a =
      (st.exists_exact a || matchExactAttr a v raw)) ∧
    ((TARGET_ATTRS.foldl (classifyLine idx raw) st).commented_idx a =
      if matchCommentAttr a raw = true ∧ st.commented_idx a = none
      then some idx else st.commented_idx a) ∧
    ((TARGET_ATTRS.foldl (classifyLine idx raw) st).other_value_idx a =
      if matchAnyValueAttr a raw = true ∧ matchExactAttr a v raw = false ∧
          st.other_value_idx a = none
      then some idx else st.other_value_idx a) :=
  classify_fold_key_aux TARGET_ATTRS (fun _ h => h) attrs_keys_nodup hm st

theorem lt_of_getElem?_some {α : Type} {l : List α} {k : Nat} {x : α}
    (h : l[k]? = some x) : k < l.length := by
  by_contra hk
  rw [List.getElem?_eq_none (Nat.le_of_not_lt hk)] at h
  exact absurd h (by simp)

theorem getD_of_getElem? {lines : List Line} {k : Nat} {raw : Line}
    (h : lines[k]? = some raw) : lines.getD k [] = raw := by
  rw [List.getD_eq_getElem?_getD, h]
  rfl

theorem scanLinesGo_mem_lt {lines : List Line} :
    ∀ {L : List Nat} {st st' : ScanState},
    scanLinesGo lines L st = some st' → ∀ i ∈ L, i < lines.length := by
  intro L
  induction L with
  | nil => intro st st' _ i hi; exact absurd hi (by simp)
  | cons k ks ih =>
    intro st st' h i hi
    unfold scanLinesGo at h
    rcases hk : lines[k]? with _ | raw
    · rw [hk] at h; exact absurd h (by simp)
    · rw [hk] at h
      rcases List.mem_cons.mp hi with rfl | hi'
      · exact lt_of_getElem?_some hk
      · exact ih h i hi'

theorem scanLinesGo_fields {lines : List Line} {a v : Line}
    (hm : (a, v) ∈ TARGET_ATTRS) :
    ∀ {L : List Nat} {st st' : ScanState},
    scanLinesGo lines L st = some st' →
    (st'.exists_exact a =
      (st.exists_exact a ||
        L.any (fun k => matchExactAttr a v (lines.getD k [])))) ∧
    (st'.commented_idx a = (st.commented_idx a).or
      (L.find? (fun k => matchCommentAttr a (lines.getD k [])))) ∧
    (st'.other_value_idx a = (st.other_value_idx a).or
      (L.find? (fun k => matchAnyValueAttr a (lines.getD k []) &&
        !matchExactAttr a v (lines.getD k [])))) := by
  intro L
  induction L with
  | nil =>
    intro st st' h
    unfold scanLinesGo at h
    injection h with h
    subst h
    simp
  | cons k ks ih =>
    intro st st' h
    unfold scanLinesGo at h
    rcases hk : lines[k]? with _ | raw
    · rw [hk] at h; exact absurd h (by simp)
    · rw [hk] at h
      have hgd := getD_of_getElem? hk
      obtain ⟨e1, c1, o1⟩ := @classify_fold_key k raw st _ _ hm
      obtain ⟨e2, c2, o2⟩ := ih h
      refine ⟨?_, ?_, ?_⟩
      · rw [e2, e1, List.any_cons, hgd]
        cases st.exists_exact a <;> cases matchExactAttr a v raw <;> simp
      · rw [c2, c1]
        rcases hsc : st.commented_idx a with _ | j
        · cases hcr : matchCommentAttr a raw with
          | true =>
            rw [if_pos ⟨rfl, rfl⟩,
              List.find?_cons_of_pos _ (by
                show matchCommentAttr a (lines.getD k []) = true
                rw [hgd, hcr])]
            simp
          | false =>
            rw [if_neg (by simp),
              List.find?_cons_of_neg _ (by
                show ¬matchCommentAttr a (lines.getD k []) = true
                rw [hgd, hcr]; simp)]
        · rw [if_neg (by simp),
            List.find?_cons]
          rcases List.find? (fun k => matchCommentAttr a (lines.getD k [])) ks with
            _ | j2 <;> simp
      · rw [o2, o1]
        rcases hso : st.other_value_idx a with _ | j
        · cases hany : matchAnyValueAttr a raw with
          | true =>
            cases hex : matchExactAttr a v raw with
            | false =>
              rw [if_pos ⟨rfl, rfl, rfl⟩,
                List.find?_cons_of_pos _ (by
                  show (matchAnyValueAttr a (lines.getD k []) &&
                    !matchExactAttr a v (lines.getD k [])) = true
                  rw [hgd, hany, hex]; rfl)]
              simp
            | true =>
              rw [if_neg (by simp),
                List.find?_cons_of_neg _ (by
                  show ¬(matchAnyValueAttr a (lines.getD k []) &&
                    !matchExactAttr a v (lines.getD k [])) = true
                  rw [hgd, hany, hex]; simp)]
          | false =>
            rw [if_neg (by simp),
              List.find?_cons_of_neg _ (by
                show ¬(matchAnyValueAttr a (lines.getD k []) &&
                  !matchExactAttr a v (lines.getD k [])) = true
                rw [hgd, hany]; simp)]
        · rw [if_neg (by simp)]
          simp

/-- The high-level reading of the block scan: `exists_exact` records whether
an exact line occurs in the window, `commented_idx` and `other_value_idx`
the first comment-pattern and first non-exact assignment line. -/
theorem scanLines_fields {lines : List Line} {start stop : Nat}
    {st0 : ScanState} {a v : Line} (hm : (a, v) ∈ TARGET_ATTRS)
    (h : scanLines lines start stop initScan = some st0) :
    (st0.exists_exact a =
      (scanWindow start stop).any
        (fun k => matchExactAttr a v (lines.getD k []))) ∧
    (st0.commented_idx a =
      (scanWindow start stop).find?
        (fun k => matchCommentAttr a (lines.getD k []))) ∧
    (st0.other_value_idx a =
      (scanWindow start stop).find?
        (fun k => matchAnyValueAttr a (lines.getD k []) &&
          !matchExactAttr a v (lines.getD k []))) := by
  obtain ⟨e, c, o⟩ := scanLinesGo_fields hm (show scanLinesGo lines
    (scanWindow start stop) initScan = some st0 from h)
  refine ⟨?_, ?_, ?_⟩
  · rw [e]; rfl
  · rw [c]; rfl
  · rw [o]; rfl

/-! ## Block locator -/

theorem deltaSum_nil : deltaSum [] = 0 := rfl

theorem deltaSum_cons (l : Line) (ls : List Line) :
    deltaSum (l :: ls) = braceDelta l + deltaSum ls := by
  simp [deltaSum]

theorem findEndOff_some {ls : List Line} {d : Int} {k : Nat}
    (h : findEndOff ls d = some k) :
    k < ls.length ∧ d + deltaSum (ls.take (k + 1)) = 0 ∧
    ∀ j, j < k → d + deltaSum (ls.take (j + 1)) ≠ 0 := by
  induction ls generalizing d k with
  | nil => exact absurd h (by simp [findEndOff])
  | cons l rest ih =>
    unfold findEndOff at h
    by_cases hd : d + braceDelta l = 0
    · rw [if_pos hd] at h
      injection h with h
      subst h
      refine ⟨by simp, ?_, by omega⟩
      simpa [List.take_succ_cons, deltaSum_cons, deltaSum_nil] using hd
    · rw [if_neg hd] at h
      rcases hrec : findEndOff rest (d + braceDelta l) with _ | k'
      · rw [hrec] at h; exact absurd h (by simp)
      · rw [hrec] at h
        simp only [Option.map_some'] at h
        injection h with h
        subst h
        obtain ⟨hlen, hzero, hfirst⟩ := ih hrec
        refine ⟨by simpa using hlen, ?_, ?_⟩
        · rw [List.take_succ_cons, deltaSum_cons, ← Int.add_assoc]
          exact hzero
        · intro j hj
          cases j with
          | zero =>
            simpa [List.take_succ_cons, deltaSum_cons, deltaSum_nil] using hd
          | succ j' =>
            rw [List.take_succ_cons, deltaSum_cons, ← Int.add_assoc]
            exact hfirst j' (by omega)

theorem findBlocksFrom_spec (lines : List Line) :
    ∀ (fuel i : Nat),
    (∀ b ∈ findBlocksFrom lines fuel i, i ≤ b.1 ∧ BlockSpec lines b.1 b.2) ∧
    List.Chain' (fun b1 b2 : Nat × Nat => b1.2 < b2.1)
      (findBlocksFrom lines fuel i) := by
  intro fuel
  induction fuel with
  | zero =>
    intro i
    constructor
    · intro b hb; exact absurd hb (by simp [findBlocksFrom])
    · simp [findBlocksFrom]
  | succ fuel ih =>
    intro i
    unfold findBlocksFrom
    split
    · next hlt =>
      split
      · next hhead =>
        rcases hoff : findEndOff (lines.drop i) 0 with _ | k
        · exact ih (i + 1) |>.imp (fun h b hb => ⟨Nat.le_of_succ_le (h b hb).1,
            (h b hb).2⟩) id
        · obtain ⟨hklen, hzero, hfirst⟩ := findEndOff_some hoff
          rw [List.length_drop] at hklen
          have hik : i + k < lines.length := by omega
          have hspec : BlockSpec lines i (i + k) := by
            refine ⟨Nat.le_add_right i k, hik, ?_, ?_, ?_⟩
            · rw [List.getD_eq_getElem lines [] hlt]
              exact hhead
            · unfold depthThrough
              have harith : i + k + 1 - i = k + 1 := by omega
              rw [harith]
              simpa using hzero
            · intro j hij hjk
              unfold depthThrough
              have harith : j + 1 - i = (j - i) + 1 := by omega
              rw [harith]
              have := hfirst (j - i) (by omega)
              simpa using this
          obtain ⟨hall, hchain⟩ := ih (i + k + 1)
          constructor
          · intro b hb
            rcases List.mem_cons.mp hb with rfl | hb'
            · exact ⟨Nat.le_refl i, hspec⟩
            · exact ⟨by have := (hall b hb').1; omega, (hall b hb').2⟩
          · refine List.chain'_cons'.mpr ⟨?_, hchain⟩
            intro y hy
            have hmem := List.mem_of_mem_head? hy
            have := (hall y hmem).1
            simpa using by omega
      · exact ih (i + 1) |>.imp (fun h b hb => ⟨Nat.le_of_succ_le (h b hb).1,
          (h b hb).2⟩) id
    · constructor
      · intro b hb; exact absurd hb (by simp)
      · simp

/-- C9: Block Locator contract.  Every block returned by
`find_resource_blocks` satisfies `BlockSpec`: its header line matches the
resource pattern, the cumulative brace depth over the block is zero and is
nonzero at every earlier line of the block; and consecutive returned blocks
are non-overlapping and in file order. -/
theorem C9_block_locator_contract (lines : List Line) :
    List.Chain' (fun b1 b2 : Nat × Nat => b1.2 < b2.1)
      (find_resource_blocks lines) ∧
    ∀ b ∈ find_resource_blocks lines, BlockSpec lines b.1 b.2 := by
  obtain ⟨hall, hchain⟩ := findBlocksFrom_spec lines (lines.length + 1) 0
  exact ⟨hchain, fun b hb => (hall b hb).2⟩

/-- Witness for C9 at a concrete two-block buffer. -/
theorem C9_block_locator_contract_witness :
    BlockSpec bufCross 8 13 ∧ (8, 13) ∈ find_resource_blocks bufCross :=
  have hmem : (8, 13) ∈ find_resource_blocks bufCross := by decide
  ⟨(C9_block_locator_contract bufCross).2 (8, 13) hmem, hmem⟩

/-! ## Elementary list lemmas for the mutation steps -/

theorem pyInsertAt_length (ls : List Line) (n : Nat) (x : Line) :
    (pyInsertAt ls n x).length = ls.length + 1 := by
  unfold pyInsertAt
  rw [List.length_append, List.length_cons, List.length_take, List.length_drop]
  omega

theorem set_getElem?_ne {ls : List Line} {i j : Nat} {x : Line} (h : j ≠ i) :
    (ls.set i x)[j]? = ls[j]? :=
  List.getElem?_set_ne (Ne.symm h)

theorem pyInsertAt_getElem?_lt {ls : List Line} {n j : Nat} {x : Line}
    (hj : j < n) (hlen : j < ls.length) :
    (pyInsertAt ls n x)[j]? = ls[j]? := by
  unfold pyInsertAt
  rw [List.getElem?_append_left (by simp [List.length_take]; omega)]
  exact List.getElem?_take_of_lt hj

theorem set_getElem?_self {ls : List Line} {i : Nat} {x : Line}
    (h : i < ls.length) : (ls.set i x)[i]? = some x :=
  List.getElem?_set_self h

theorem pyInsertAt_twice (ls : List Line) (n : Nat) (x y : Line) :
    pyInsertAt (pyInsertAt ls n x) (n + 1) y =
    ls.take n ++ x :: y :: ls.drop n := by
  unfold pyInsertAt
  rcases le_or_lt n ls.length with hle | hgt
  · have hlt : (ls.take n).length = n := List.length_take_of_le hle
    rw [List.take_append_eq_append_take, List.drop_append_eq_append_drop]
    rw [List.take_of_length_le (by rw [hlt]; omega),
      show (ls.take n).drop (n + 1) = [] from
        List.drop_eq_nil_of_le (by rw [hlt]; omega)]
    rw [hlt]
    have h1 : n + 1 - n = 1 := by omega
    rw [h1]
    simp
  · have htake : ls.take n = ls := List.take_of_length_le (by omega)
    have hdrop : ls.drop n = [] := List.drop_eq_nil_of_le (by omega)
    rw [htake, hdrop]
    have h2 : (ls ++ [x]).take (n + 1) = ls ++ [x] :=
      List.take_of_length_le (by simp; omega)
    have h3 : (ls ++ [x]).drop (n + 1) = [] :=
      List.drop_eq_nil_of_le (by simp; omega)
    rw [h2, h3]
    simp

/-! ## Reconcile-step analysis -/

/-- Exhaustive description of one `reconcileStep`: the index tables of the
scan state never change, `exists_exact` changes only at the step's own key,
the tracked end never decreases and accounts exactly for the length change,
messages are appended, and the buffer either stays, is overwritten at a
recorded index, or receives one inserted line at the tracked end. -/
theorem reconcileStep_fields {enforce : Bool} {inner : Line}
    {acc acc' : RecAcc} {av : Line × Line}
    (h : reconcileStep enforce inner acc av = some acc') :
    acc'.st.commented_idx = acc.st.commented_idx ∧
    acc'.st.other_value_idx = acc.st.other_value_idx ∧
    (∀ b, b ≠ av.1 → acc'.st.exists_exact b = acc.st.exists_exact b) ∧
    acc.endIdx ≤ acc'.endIdx ∧
    acc'.lines.length + acc.endIdx = acc.lines.length + acc'.endIdx ∧
    (∃ ms, acc'.msgs = acc.msgs ++ ms) ∧
    ((acc'.lines = acc.lines ∧ acc'.endIdx = acc.endIdx ∧
        acc'.modified = acc.modified) ∨
     (∃ i old,
        (acc.st.other_value_idx av.1 = some i ∨
          acc.st.commented_idx av.1 = some i) ∧
        acc.lines[i]? = some old ∧
        old ≠ ((if (leadingWs old).isEmpty then inner else leadingWs old) ++
          targetLine av.1 av.2) ∧
        acc'.lines = acc.lines.set i
          ((if (leadingWs old).isEmpty then inner else leadingWs old) ++
            targetLine av.1 av.2) ∧
        acc'.endIdx = acc.endIdx ∧ acc'.modified = true) ∨
     (acc'.lines = pyInsertAt acc.lines acc.endIdx (inner ++ targetLine av.1 av.2) ∧
        acc'.endIdx = acc.endIdx + 1 ∧ acc'.modified = true)) := by
  unfold reconcileStep at h
  dsimp only at h
  by_cases he : acc.st.exists_exact av.1 = true
  · rw [if_pos he] at h
    injection h with h
    subst h
    exact ⟨rfl, rfl, fun b _ => rfl, Nat.le_refl _, rfl, ⟨_, rfl⟩,
      Or.inl ⟨rfl, rfl, rfl⟩⟩
  · rw [if_neg he] at h
    rcases ho : acc.st.other_value_idx av.1 with _ | i
    · simp only [ho] at h
      rcases hc : acc.st.commented_idx av.1 with _ | i
      · simp only [hc] at h
        injection h with h
        subst h
        refine ⟨rfl, rfl, fun b hb => by simp [setB, hb], Nat.le_succ _, ?_,
          ⟨_, rfl⟩, Or.inr (Or.inr ⟨rfl, rfl, rfl⟩)⟩
        show (pyInsertAt acc.lines acc.endIdx (inner ++ targetLine av.1 av.2)).length +
          acc.endIdx = acc.lines.length + (acc.endIdx + 1)
        rw [pyInsertAt_length]
        omega
      · simp only [hc] at h
        rcases hold : acc.lines[i]? with _ | old
        · simp only [hold] at h
          exact Option.noConfusion h
        · simp only [hold] at h
          by_cases heq :
              old = ((if (leadingWs old).isEmpty then inner else leadingWs old) ++
                targetLine av.1 av.2)
          · rw [if_pos heq] at h
            injection h with h
            subst h
            exact ⟨rfl, rfl, fun b hb => by simp [setB, hb], Nat.le_refl _, rfl,
              ⟨[], by simp⟩, Or.inl ⟨rfl, rfl, rfl⟩⟩
          · rw [if_neg heq] at h
            injection h with h
            subst h
            refine ⟨rfl, rfl, fun b hb => by simp [setB, hb], Nat.le_refl _, ?_,
              ⟨_, rfl⟩,
              Or.inr (Or.inl ⟨i, old, Or.inr rfl, hold, heq, rfl, rfl, rfl⟩)⟩
            show (acc.lines.set i _).length + acc.endIdx = acc.lines.length + acc.endIdx
            rw [List.length_set]
    · simp only [ho] at h
      cases enforce with
      | false =>
        rw [if_neg (by simp)] at h
        injection h with h
        subst h
        exact ⟨rfl, rfl, fun b _ => rfl, Nat.le_refl _, rfl, ⟨_, rfl⟩,
          Or.inl ⟨rfl, rfl, rfl⟩⟩
      | true =>
        rw [if_pos rfl] at h
        rcases hold : acc.lines[i]? with _ | old
        · simp only [hold] at h
          exact Option.noConfusion h
        · simp only [hold] at h
          by_cases heq :
              old = ((if (leadingWs old).isEmpty then inner else leadingWs old) ++
                targetLine av.1 av.2)
          · rw [if_pos heq] at h
            injection h with h
            subst h
            exact ⟨rfl, rfl, fun b hb => by simp [setB, hb], Nat.le_refl _, rfl,
              ⟨[], by simp⟩, Or.inl ⟨rfl, rfl, rfl⟩⟩
          · rw [if_neg heq] at h
            injection h with h
            subst h
            refine ⟨rfl, rfl, fun b hb => by simp [setB, hb], Nat.le_refl _, ?_,
              ⟨_, rfl⟩,
              Or.inr (Or.inl ⟨i, old, Or.inl rfl, hold, heq, rfl, rfl, rfl⟩)⟩
            show (acc.lines.set i _).length + acc.endIdx = acc.lines.length + acc.endIdx
            rw [List.length_set]

/-- The step's modified flag never drops back to `False`. -/
theorem reconcileStep_modified_mono {enforce : Bool} {inner : Line}
    {acc acc' : RecAcc} {av : Line × Line}
    (h : reconcileStep enforce inner acc av = some acc')
    (hm : acc.modified = true) : acc'.modified = true := by
  rcases (reconcileStep_fields h).2.2.2.2.2.2 with ⟨_, _, hmod⟩ | h2 | h3
  · rw [hmod, hm]
  · exact h2.choose_spec.choose_spec.2.2.2.2.2
  · exact h3.2.2

/-- Branch evaluation: `exact_present` means a pure no-op message. -/
theorem reconcileStep_noop {enforce : Bool} {inner : Line} {acc : RecAcc}
    {a v : Line} (he : acc.st.exists_exact a = true) :
    reconcileStep enforce inner acc (a, v) =
    some { acc with msgs := acc.msgs ++ [Msg.noChange a v] } := by
  unfold reconcileStep
  dsimp only
  rw [if_pos he]

/-- Branch evaluation: `other_value` with enforcement off is a skip. -/
theorem reconcileStep_skip {inner : Line} {acc : RecAcc} {a v : Line} {i : Nat}
    (he : acc.st.exists_exact a = false)
    (ho : acc.st.other_value_idx a = some i) :
    reconcileStep false inner acc (a, v) =
    some { acc with msgs := acc.msgs ++ [Msg.skipped a (i + 1) v] } := by
  unfold reconcileStep
  dsimp only
  rw [if_neg (by rw [he]; simp)]
  simp only [ho]
  rw [if_neg (by simp)]

/-- Branch evaluation: `commented` is uncommented and normalized, for either
value of the enforcement flag. -/
theorem reconcileStep_uncomment {enforce : Bool} {inner : Line} {acc : RecAcc}
    {a v old : Line} {i : Nat}
    (he : acc.st.exists_exact a = false)
    (ho : acc.st.other_value_idx a = none)
    (hc : acc.st.commented_idx a = some i)
    (hold : acc.lines[i]? = some old)
    (hne : old ≠ ((if (leadingWs old).isEmpty then inner else leadingWs old) ++
      targetLine a v)) :
    reconcileStep enforce inner acc (a, v) =
    some { acc with
            lines := acc.lines.set i
              ((if (leadingWs old).isEmpty then inner else leadingWs old) ++
                targetLine a v)
            modified := true
            msgs := acc.msgs ++ [Msg.uncommented a (i + 1)]
            st := { acc.st with
                     exists_exact := setB acc.st.exists_exact a true } } := by
  unfold reconcileStep
  dsimp only
  rw [if_neg (by rw [he]; simp)]
  simp only [ho, hc, hold]
  rw [if_neg hne]

/-- Branch evaluation: `absent` appends before the closing line. -/
theorem reconcileStep_insert {enforce : Bool} {inner : Line} {acc : RecAcc}
    {a v : Line}
    (he : acc.st.exists_exact a = false)
    (ho : acc.st.other_value_idx a = none)
    (hc : acc.st.commented_idx a = none) :
    reconcileStep enforce inner acc (a, v) =
    some { acc with
            lines := pyInsertAt acc.lines acc.endIdx (inner ++ targetLine a v)
            modified := true
            msgs := acc.msgs ++ [Msg.appended a (acc.endIdx + 1)]
            endIdx := acc.endIdx + 1
            st := { acc.st with
                     exists_exact := setB acc.st.exists_exact a true } } := by
  unfold reconcileStep
  dsimp only
  rw [if_neg (by rw [he]; simp)]
  simp only [ho, hc]

/-- Branch evaluation: `other_value` with enforcement on overwrites. -/
theorem reconcileStep_enforce {inner : Line} {acc : RecAcc}
    {a v old : Line} {i : Nat}
    (he : acc.st.exists_exact a = false)
    (ho : acc.st.other_value_idx a = some i)
    (hold : acc.lines[i]? = some old)
    (hne : old ≠ ((if (leadingWs old).isEmpty then inner else leadingWs old) ++
      targetLine a v)) :
    reconcileStep true inner acc (a, v) =
    some { acc with
            lines := acc.lines.set i
              ((if (leadingWs old).isEmpty then inner else leadingWs old) ++
                targetLine a v)
            modified := true
            msgs := acc.msgs ++ [Msg.updated a (i + 1) v]
            st := { acc.st with
                     exists_exact := setB acc.st.exists_exact a true } } := by
  unfold reconcileStep
  dsimp only
  rw [if_neg (by rw [he]; simp)]
  simp only [ho, hold]
  rw [if_pos trivial, if_neg hne]

/-! ## Reconcile-fold lemmas -/

theorem reconcileFold_fields {enforce : Bool} {inner : Line} :
    ∀ (ps : List (Line × Line)) (acc acc' : RecAcc),
    ps.foldlM (reconcileStep enforce inner) acc = some acc' →
    acc'.st.commented_idx = acc.st.commented_idx ∧
    acc'.st.other_value_idx = acc.st.other_value_idx ∧
    (∀ b, (∀ p ∈ ps, p.1 ≠ b) → acc'.st.exists_exact b = acc.st.exists_exact b) ∧
    acc.endIdx ≤ acc'.endIdx ∧
    acc'.lines.length + acc.endIdx = acc.lines.length + acc'.endIdx ∧
    (∃ ms, acc'.msgs = acc.msgs ++ ms) ∧
    (acc.modified = true → acc'.modified = true) := by
  intro ps
  induction ps with
  | nil =>
    intro acc acc' h
    simp only [List.foldlM_nil] at h
    injection h with h
    subst h
    exact ⟨rfl, rfl, fun _ _ => rfl, Nat.le_refl _, rfl, ⟨[], by simp⟩, id⟩
  | cons p ps ih =>
    intro acc acc' h
    rw [List.foldlM_cons] at h
    rcases hstep : reconcileStep enforce inner acc p with _ | acc1
    · rw [hstep] at h; exact absurd h (by simp)
    · rw [hstep] at h
      simp only [Option.bind_eq_bind, Option.some_bind] at h
      obtain ⟨sc1, so1, se1, hend1, hlen1, ⟨ms1, hmsg1⟩, hlr1⟩ :=
        reconcileStep_fields hstep
      obtain ⟨sc2, so2, se2, hend2, hlen2, ⟨ms2, hmsg2⟩, hmod2⟩ := ih acc1 acc' h
      refine ⟨sc2.trans sc1, so2.trans so1, ?_, Nat.le_trans hend1 hend2,
        by omega, ⟨ms1 ++ ms2, by rw [hmsg2, hmsg1, List.append_assoc]⟩, ?_⟩
      · intro b hb
        rw [se2 b (fun q hq => hb q (List.mem_cons_of_mem _ hq)),
          (reconcileStep_fields hstep).2.2.1 b
            (Ne.symm (hb p (List.mem_cons_self p ps)))]
      · intro hm
        exact hmod2 (reconcileStep_modified_mono hstep hm)

theorem reconcileFold_frame {enforce : Bool} {inner : Line} :
    ∀ (ps : List (Line × Line)) (acc acc' : RecAcc),
    ps.foldlM (reconcileStep enforce inner) acc = some acc' →
    ∀ i : Nat, i < acc.endIdx → i < acc.lines.length →
    (∀ p ∈ ps, acc.st.other_value_idx p.1 ≠ some i ∧
      acc.st.commented_idx p.1 ≠ some i) →
    acc'.lines[i]? = acc.lines[i]? := by
  intro ps
  induction ps with
  | nil =>
    intro acc acc' h i _ _ _
    simp only [List.foldlM_nil] at h
    injection h with h
    subst h
    rfl
  | cons p ps ih =>
    intro acc acc' h i hiend hilen hni
    rw [List.foldlM_cons] at h
    rcases hstep : reconcileStep enforce inner acc p with _ | acc1
    · rw [hstep] at h; exact absurd h (by simp)
    · rw [hstep] at h
      simp only [Option.bind_eq_bind, Option.some_bind] at h
      obtain ⟨sc1, so1, _, hend1, hlen1, _, hlr1⟩ := reconcileStep_fields hstep
      have hstay : acc1.lines[i]? = acc.lines[i]? := by
        rcases hlr1 with ⟨hl, _, _⟩ | ⟨j, old, hrec, _, _, hl, _, _⟩ | ⟨hl, _, _⟩
        · rw [hl]
        · rw [hl]
          refine set_getElem?_ne ?_
          intro hij
          subst hij
          rcases hrec with hrec | hrec
          · exact (hni p (List.mem_cons_self p ps)).1 hrec
          · exact (hni p (List.mem_cons_self p ps)).2 hrec
        · rw [hl]
          exact pyInsertAt_getElem?_lt hiend hilen
      have hiend1 : i < acc1.endIdx := Nat.lt_of_lt_of_le hiend hend1
      have hilen1 : i < acc1.lines.length := by omega
      have hni1 : ∀ q ∈ ps, acc1.st.other_value_idx q.1 ≠ some i ∧
          acc1.st.commented_idx q.1 ≠ some i := by
        intro q hq
        rw [so1, sc1]
        exact hni q (List.mem_cons_of_mem _ hq)
      rw [ih acc1 acc' h i hiend1 hilen1 hni1, hstay]

/-- Destructuring of one `ensure_attributes_in_block` call into its four
phases. -/
theorem ensure_destruct {lines : List Line} {start e : Nat} {enforce : Bool}
    {r : Bool × Nat × List Msg × List Line}
    (h : ensure_attributes_in_block lines start e enforce = some r) :
    ∃ inner st0 acc lines2 m2,
      inferIndentLoop lines start e = some inner ∧
      scanLines lines start e initScan = some st0 ∧
      TARGET_ATTRS.foldlM (reconcileStep enforce inner)
        (RecAcc.mk lines e false [] st0) = some acc ∧
      GROUPS.foldlM (normalizeGroup start acc.endIdx)
        (acc.lines, acc.modified) = some (lines2, m2) ∧
      r = (m2, acc.endIdx, acc.msgs, lines2) := by
  unfold ensure_attributes_in_block at h
  rcases h1 : inferIndentLoop lines start e with _ | inner
  · simp only [h1] at h
    exact Option.noConfusion h
  · simp only [h1] at h
    rcases h2 : scanLines lines start e initScan with _ | st0
    · simp only [h2] at h
      exact Option.noConfusion h
    · simp only [h2] at h
      rcases h3 : TARGET_ATTRS.foldlM (reconcileStep enforce inner)
          (RecAcc.mk lines e false [] st0) with _ | acc
      · simp only [h3] at h
        exact Option.noConfusion h
      · simp only [h3] at h
        rcases h4 : GROUPS.foldlM (normalizeGroup start acc.endIdx)
            (acc.lines, acc.modified) with _ | p
        · simp only [h4] at h
          exact Option.noConfusion h
        · simp only [h4] at h
          obtain ⟨lines2, m2⟩ := p
          injection h with h
          exact ⟨inner, st0, acc, lines2, m2, rfl, rfl, h3, h4, h.symm⟩

/-! ## Membership preservation through the adjacency normalizer -/

theorem mem_eraseIdx_of_ne {ls : List Line} {j : Nat} {b l : Line}
    (hb : ls[j]? = some b) (hl : l ∈ ls) (hne : l ≠ b) :
    l ∈ ls.eraseIdx j := by
  have hjl : j < ls.length := lt_of_getElem?_some hb
  have hdecomp : ls = ls.take j ++ b :: ls.drop (j + 1) := by
    conv_lhs => rw [← List.take_append_drop j ls]
    rw [List.drop_eq_getElem_cons hjl]
    have : ls[j] = b := by
      have := List.getElem?_eq_getElem hjl
      rw [hb] at this
      injection this with this
      exact this.symm
    rw [this]
  rw [List.eraseIdx_eq_take_drop_succ]
  rw [hdecomp] at hl
  rcases List.mem_append.mp hl with h1 | h2
  · exact List.mem_append.mpr (Or.inl h1)
  · rcases List.mem_cons.mp h2 with rfl | h3
    · exact absurd rfl hne
    · exact List.mem_append.mpr (Or.inr h3)

theorem mem_pyInsertAt {ls : List Line} {n : Nat} {x l : Line} (h : l ∈ ls) :
    l ∈ pyInsertAt ls n x := by
  unfold pyInsertAt
  rw [← List.take_append_drop n ls] at h
  rcases List.mem_append.mp h with h1 | h2
  · exact List.mem_append.mpr (Or.inl h1)
  · exact List.mem_append.mpr (Or.inr (List.mem_cons_of_mem _ h2))

theorem mem_pyInsertAt_self (ls : List Line) (n : Nat) (x : Line) :
    x ∈ pyInsertAt ls n x := by
  unfold pyInsertAt
  exact List.mem_append.mpr (Or.inr (List.mem_cons_self _ _))

theorem deleteBlanksGo_mem {l : Line} (hl : isBlank l = false) :
    ∀ (fuel : Nat) (lines : List Line) (j i2 : Nat) (m : Bool)
    (lines' : List Line) (i2' : Nat) (m' : Bool),
    deleteBlanksGo lines j i2 m fuel = some (lines', i2', m') →
    l ∈ lines → l ∈ lines' := by
  intro fuel
  induction fuel with
  | zero =>
    intro lines j i2 m lines' i2' m' h hmem
    unfold deleteBlanksGo at h
    injection h with h
    obtain ⟨rfl, -⟩ := Prod.mk.injEq .. ▸ Prod.ext_iff.mp h
    exact hmem
  | succ fuel ih =>
    intro lines j i2 m lines' i2' m' h hmem
    unfold deleteBlanksGo at h
    rcases hj : lines[j]? with _ | raw
    · simp only [hj] at h
      exact Option.noConfusion h
    · simp only [hj] at h
      by_cases hb : isBlank raw = true
      · rw [if_pos hb] at h
        refine ih _ _ _ _ _ _ _ h (mem_eraseIdx_of_ne hj hmem ?_)
        intro heq
        rw [heq, hb] at hl
        exact absurd hl (by simp)
      · rw [if_neg hb] at h
        exact ih _ _ _ _ _ _ _ h hmem

theorem normalizeGroup_mem {start endIdx : Nat} {state state' : List Line × Bool}
    {g : Line × Line} (h : normalizeGroup start endIdx state g = some state')
    {l : Line} (hl : isBlank l = false) (hmem : l ∈ state.1) : l ∈ state'.1 := by
  unfold normalizeGroup at h
  rcases h1 : idxOfAttrFrom state.1 g.1 start endIdx with _ | oi1
  · simp only [h1] at h
    exact Option.noConfusion h
  · rcases oi1 with _ | i1
    · simp only [h1] at h
      injection h with h
      subst h
      exact hmem
    · simp only [h1] at h
      rcases h2 : idxOfAttrFrom state.1 g.2 start endIdx with _ | oi2
      · simp only [h2] at h
        exact Option.noConfusion h
      · rcases oi2 with _ | i2
        · simp only [h2] at h
          injection h with h
          subst h
          exact hmem
        · simp only [h2] at h
          by_cases hle : i2 ≤ i1
          · rw [if_pos hle] at h
            injection h with h
            subst h
            exact hmem
          · rw [if_neg hle] at h
            rcases h3 : deleteBlanks state.1 (i1 + 1) i2 state.2 with _ | t
            · simp only [h3] at h
              exact Option.noConfusion h
            · obtain ⟨lines1, i2', m1⟩ := t
              simp only [h3] at h
              have hmem1 : l ∈ lines1 :=
                deleteBlanksGo_mem hl _ _ _ _ _ _ _ _ h3 hmem
              by_cases hne : i2' ≠ i1 + 1
              · rw [if_pos hne] at h
                rcases h4 : onlyCommentsBetween lines1 i1 i2' with _ | b
                · simp only [h4] at h
                  exact Option.noConfusion h
                · cases b with
                  | true =>
                    simp only [h4] at h
                    rcases h5 : lines1[i2']? with _ | moved
                    · simp only [h5] at h
                      exact Option.noConfusion h
                    · simp only [h5] at h
                      injection h with h
                      subst h
                      by_cases hlm : l = moved
                      · subst hlm
                        exact mem_pyInsertAt_self _ _ _
                      · exact mem_pyInsertAt (mem_eraseIdx_of_ne h5 hmem1 hlm)
                  | false =>
                    simp only [h4] at h
                    injection h with h
                    subst h
                    exact hmem1
              · rw [if_neg hne] at h
                injection h with h
                subst h
                exact hmem1

theorem groupsFold_mem {start endIdx : Nat} :
    ∀ (gs : List (Line × Line)) (state state' : List Line × Bool),
    gs.foldlM (normalizeGroup start endIdx) state = some state' →
    ∀ l : Line, isBlank l = false → l ∈ state.1 → l ∈ state'.1 := by
  intro gs
  induction gs with
  | nil =>
    intro state state' h l _ hmem
    simp only [List.foldlM_nil] at h
    injection h with h
    subst h
    exact hmem
  | cons g gs ih =>
    intro state state' h l hl hmem
    rw [List.foldlM_cons] at h
    rcases hstep : normalizeGroup start endIdx state g with _ | state1
    · rw [hstep] at h; exact absurd h (by simp)
    · rw [hstep] at h
      simp only [Option.bind_eq_bind, Option.some_bind] at h
      exact ih state1 state' h l hl (normalizeGroup_mem hstep hl hmem)

/-- C6: Non-destructive default.  If a target attribute is classified as
`other_value` (its first non-exact uncommented assignment line is at `i`,
and no exact line occurs in the block window) and enforcement is off, then
the run emits the skip message naming that line and the override flag, the
line's text survives the whole run byte-identically, and the reconcile step
of that attribute performs no mutation at all. -/
theorem C6_nondestructive_default
    {lines out : List Line} {start e e' : Nat} {m : Bool} {msgs : List Msg}
    {a v : Line} {i : Nat} (hm : (a, v) ∈ TARGET_ATTRS)
    (hrun : ensure_attributes_in_block lines start e false =
      some (m, e', msgs, out))
    (hnoex : ∀ k ∈ scanWindow start e,
      matchExactAttr a v (lines.getD k []) = false)
    (hfirst : (scanWindow start e).find?
      (fun k => matchAnyValueAttr a (lines.getD k []) &&
        !matchExactAttr a v (lines.getD k [])) = some i) :
    Msg.skipped a (i + 1) v ∈ msgs ∧
    (∃ old, lines[i]? = some old ∧ matchAnyValueAttr a old = true ∧
      old ∈ out) ∧
    (∀ (inner : Line) (acc : RecAcc), acc.st.exists_exact a = false →
      acc.st.other_value_idx a = some i →
      reconcileStep false inner acc (a, v) =
        some { acc with msgs := acc.msgs ++ [Msg.skipped a (i + 1) v] }) := by
  obtain ⟨inner, st0, acc, lines2, m2, hinf, hscan, hfold, hgroups, hr⟩ :=
    ensure_destruct hrun
  simp only [Prod.mk.injEq] at hr
  obtain ⟨rfl, rfl, rfl, rfl⟩ := hr
  obtain ⟨hef, hcf, hof⟩ := scanLines_fields hm hscan
  have hex_false : st0.exists_exact a = false := by
    rw [hef, List.any_eq_false]
    intro k hk
    show ¬matchExactAttr a v (lines.getD k []) = true
    rw [hnoex k hk]
    simp
  have hov : st0.other_value_idx a = some i := by rw [hof]; exact hfirst
  have hq0 := List.find?_some hfirst
  have hq : (matchAnyValueAttr a (lines.getD i []) &&
      !matchExactAttr a v (lines.getD i [])) = true := hq0
  have hiwin : i ∈ scanWindow start e := List.mem_of_find?_eq_some hfirst
  have hilen : i < lines.length :=
    scanLinesGo_mem_lt (show scanLinesGo lines (scanWindow start e) initScan =
      some st0 from hscan) i hiwin
  have hie : i < e := by
    have := List.mem_range'_1.mp hiwin
    omega
  obtain ⟨old, hold⟩ : ∃ old, lines[i]? = some old :=
    ⟨lines[i], List.getElem?_eq_getElem hilen⟩
  have hgd : lines.getD i [] = old := getD_of_getElem? hold
  rw [hgd] at hq
  have hany_old : matchAnyValueAttr a old = true := by
    simp only [Bool.and_eq_true] at hq
    exact hq.1
  have hkeys : ∀ p : Line × Line, p ∈ TARGET_ATTRS → p.1 ≠ a →
      st0.other_value_idx p.1 ≠ some i ∧ st0.commented_idx p.1 ≠ some i := by
    intro p hp hpa
    obtain ⟨hefp, hcfp, hofp⟩ :=
      scanLines_fields (a := p.1) (v := p.2) hp hscan
    constructor
    · rw [hofp]
      intro hfp
      have hpq0 := List.find?_some hfp
      have hpq : (matchAnyValueAttr p.1 (lines.getD i []) &&
          !matchExactAttr p.1 p.2 (lines.getD i [])) = true := hpq0
      rw [hgd] at hpq
      have h1 : matchAnyValueAttr p.1 old = true := by
        simp only [Bool.and_eq_true] at hpq
        exact hpq.1
      have h2 := (any_excludes_other hm hp (fun hh => hpa hh.symm) hany_old).1
      rw [h1] at h2
      exact absurd h2 (by simp)
    · rw [hcfp]
      intro hfp
      have hpq1 := List.find?_some hfp
      have hpq : matchCommentAttr p.1 (lines.getD i []) = true := hpq1
      rw [hgd] at hpq
      have h2 := (comment_excludes_attr hm hpq).1
      rw [hany_old] at h2
      exact absurd h2 (by simp)
  obtain ⟨ps1, ps2, hsplit⟩ := List.append_of_mem hm
  have hnd := attrs_keys_nodup
  rw [hsplit, List.map_append, List.map_cons] at hnd
  have hdisj := List.disjoint_of_nodup_append hnd
  have hps1a : ∀ p ∈ ps1, p.1 ≠ a := by
    intro p hp hpa
    have hmm : p.1 ∈ ps1.map Prod.fst := List.mem_map_of_mem Prod.fst hp
    rw [hpa] at hmm
    exact hdisj hmm (List.mem_cons_self _ _)
  have hps2a : ∀ p ∈ ps2, p.1 ≠ a := by
    intro p hp hpa
    have hninner := (List.nodup_cons.mp (List.Nodup.of_append_right hnd)).1
    have hmm : p.1 ∈ ps2.map Prod.fst := List.mem_map_of_mem Prod.fst hp
    rw [hpa] at hmm
    exact hninner hmm
  rw [hsplit, List.foldlM_append] at hfold
  rcases h1 : List.foldlM (reconcileStep false inner)
      (RecAcc.mk lines e false [] st0) ps1 with _ | acc1
  · rw [h1] at hfold; exact absurd hfold (by simp)
  · rw [h1] at hfold
    simp only [Option.bind_eq_bind, Option.some_bind, List.foldlM_cons] at hfold
    obtain ⟨sc1, so1, se1, hend1, hlen1, ⟨ms1, hmsg1⟩, -⟩ :=
      reconcileFold_fields ps1 _ _ h1
    have hl1 : acc1.lines[i]? = some old := by
      rw [reconcileFold_frame ps1 _ _ h1 i hie hilen ?hni]
      · exact hold
      case hni =>
        intro p hp
        exact hkeys p (hsplit ▸ List.mem_append.mpr (Or.inl hp)) (hps1a p hp)
    have hex1 : acc1.st.exists_exact a = false := by
      rw [se1 a hps1a]
      exact hex_false
    have hov1 : acc1.st.other_value_idx a = some i := by
      rw [so1]
      exact hov
    have hstep := @reconcileStep_skip inner acc1 a v i hex1 hov1
    rw [hstep] at hfold
    simp only [Option.some_bind] at hfold
    obtain ⟨sc2, so2, se2, hend2, hlen2, ⟨ms2, hmsg2⟩, -⟩ :=
      reconcileFold_fields ps2 _ _ hfold
    have hend1' : e ≤ acc1.endIdx := hend1
    have hlen1' : acc1.lines.length + e = lines.length + acc1.endIdx := hlen1
    have hl2 : acc.lines[i]? = some old := by
      have h5 := reconcileFold_frame ps2 _ _ hfold i ?hie2 ?hilen2 ?hni2
      · rw [h5]; exact hl1
      case hie2 =>
        show i < acc1.endIdx
        omega
      case hilen2 =>
        show i < acc1.lines.length
        omega
      case hni2 =>
        intro p hp
        show acc1.st.other_value_idx p.1 ≠ some i ∧
          acc1.st.commented_idx p.1 ≠ some i
        rw [so1, sc1]
        exact hkeys p (hsplit ▸ List.mem_append.mpr
          (Or.inr (List.mem_cons_of_mem _ hp))) (hps2a p hp)
    refine ⟨?_, ⟨old, hold, hany_old, ?_⟩, ?_⟩
    · rw [hmsg2]
      dsimp only
      exact List.mem_append.mpr (Or.inl (List.mem_append.mpr
        (Or.inr (List.mem_singleton.mpr rfl))))
    · obtain ⟨xs, hxa⟩ := attr_cons_of_mem hm
      refine groupsFold_mem GROUPS _ _ hgroups old ?_ (List.getElem?_mem hl2)
      exact matchAny_not_blank hxa hany_old
    · intro inner' acc'
      exact fun hea hoa => reconcileStep_skip hea hoa

/-- Witness for C6 at the concrete `bufCm` input. -/
theorem C6_nondestructive_default_witness :
    Msg.skipped (("tunnel1_startup_action").data) 3 (("\"start\"").data) ∈
      msgsCm ∧
    (∃ old, bufCm[2]? = some old ∧
      matchAnyValueAttr (("tunnel1_startup_action").data) old = true ∧
      old ∈ bufCm) ∧
    (∀ (inner : Line) (acc : RecAcc),
      acc.st.exists_exact (("tunnel1_startup_action").data) = false →
      acc.st.other_value_idx (("tunnel1_startup_action").data) = some 2 →
      reconcileStep false inner acc
        ((("tunnel1_startup_action").data), (("\"start\"").data)) =
        some { acc with msgs := acc.msgs ++
          [Msg.skipped (("tunnel1_startup_action").data) 3
            (("\"start\"").data)] }) :=
  C6_nondestructive_default (by decide)
    (show ensure_attributes_in_block bufCm 0 6 false =
      some (false, 6, msgsCm, bufCm) by decide)
    (by decide) (by decide)

/-! ## C5: uncomment and normalize -/

theorem leadingWs_all_ws (l : Line) : (leadingWs l).all isWsChar = true := by
  rw [List.all_eq_true]
  intro x hx
  exact List.mem_takeWhile_imp hx

theorem inferIndentGo_ws {lines : List Line} :
    ∀ {L : List Nat} {inner : Line}, inferIndentGo lines L = some inner →
    inner.all isWsChar = true := by
  intro L
  induction L with
  | nil =>
    intro inner h
    unfold inferIndentGo at h
    injection h with h
    subst h
    decide
  | cons k ks ih =>
    intro inner h
    unfold inferIndentGo at h
    rcases hk : lines[k]? with _ | l
    · simp only [hk] at h
      exact Option.noConfusion h
    · simp only [hk] at h
      by_cases hb : isBlank l = true
      · rw [if_pos hb] at h
        exact ih h
      · rw [if_neg hb] at h
        injection h with h
        subst h
        by_cases hemp : (leadingWs l).isEmpty = true
        · rw [if_pos hemp]; decide
        · rw [if_neg hemp]; exact leadingWs_all_ws l

theorem inferIndentLoop_ws {lines : List Line} {start e : Nat} {inner : Line}
    (h : inferIndentLoop lines start e = some inner) :
    inner.all isWsChar = true :=
  inferIndentGo_ws h

/-- Two case-insensitively incompatible attributes cannot both comment-match
one line. -/
theorem matchComment_incompat {a b l : Line} (h : ciIncompat a b = true)
    (ha : matchCommentAttr a l = true) : matchCommentAttr b l = false := by
  rw [Bool.eq_false_iff]
  intro hb
  obtain ⟨r, hdl, r2, r3, hs, -⟩ := matchCommentAttr_iff.mp ha
  obtain ⟨r', hdl', r2', r3', hs', -⟩ := matchCommentAttr_iff.mp hb
  have hrr : r = r' := by
    rcases hdl with h1 | h1 <;> rcases hdl' with h2 | h2 <;> rw [h1] at h2 <;>
      simp_all
  rw [← hrr] at hs'
  rw [stripLit_none_of_incompat h hs] at hs'
  exact Option.noConfusion hs'

/-- C5 (amended): Uncommenting is unconditional once the attribute has no
uncommented assignment line at all in the block: the first commented
occurrence is rewritten, with its own indentation (or the inferred inner
indentation when it has none) plus `name = desired_value`, and this happens
for both values of the enforcement flag. -/
theorem C5_uncomment_normalizes
    {lines out : List Line} {start e e' : Nat} {enforce m : Bool}
    {msgs : List Msg} {a v : Line} {i : Nat} (hm : (a, v) ∈ TARGET_ATTRS)
    (hrun : ensure_attributes_in_block lines start e enforce =
      some (m, e', msgs, out))
    (hnoany : ∀ k ∈ scanWindow start e,
      matchAnyValueAttr a (lines.getD k []) = false)
    (hcm : (scanWindow start e).find?
      (fun k => matchCommentAttr a (lines.getD k [])) = some i) :
    Msg.uncommented a (i + 1) ∈ msgs ∧
    ∃ old inner, lines[i]? = some old ∧ matchCommentAttr a old = true ∧
      inferIndentLoop lines start e = some inner ∧
      ((if (leadingWs old).isEmpty then inner else leadingWs old) ++
        targetLine a v) ∈ out ∧
      matchExactAttr a v
        ((if (leadingWs old).isEmpty then inner else leadingWs old) ++
          targetLine a v) = true := by
  obtain ⟨inner, st0, acc, lines2, m2, hinf, hscan, hfold, hgroups, hr⟩ :=
    ensure_destruct hrun
  simp only [Prod.mk.injEq] at hr
  obtain ⟨rfl, rfl, rfl, rfl⟩ := hr
  obtain ⟨xs, hxa⟩ := attr_cons_of_mem hm
  obtain ⟨y, ys, hyv, hyw⟩ := value_cons_of_mem hm
  obtain ⟨hef, hcf, hof⟩ := scanLines_fields hm hscan
  have hex_false : st0.exists_exact a = false := by
    rw [hef, List.any_eq_false]
    intro k hk
    show ¬matchExactAttr a v (lines.getD k []) = true
    intro hx
    have := matchExact_imp_any (by rw [hyv]; simp) hx
    rw [hnoany k hk] at this
    exact absurd this (by simp)
  have hov : st0.other_value_idx a = none := by
    rw [hof, List.find?_eq_none]
    intro k hk
    show ¬(matchAnyValueAttr a (lines.getD k []) &&
      !matchExactAttr a v (lines.getD k [])) = true
    rw [hnoany k hk]
    simp
  have hcmv : st0.commented_idx a = some i := by rw [hcf]; exact hcm
  have hq0 := List.find?_some hcm
  have hq : matchCommentAttr a (lines.getD i []) = true := hq0
  have hiwin : i ∈ scanWindow start e := List.mem_of_find?_eq_some hcm
  have hilen : i < lines.length :=
    scanLinesGo_mem_lt (show scanLinesGo lines (scanWindow start e) initScan =
      some st0 from hscan) i hiwin
  have hie : i < e := by
    have := List.mem_range'_1.mp hiwin
    omega
  obtain ⟨old, hold⟩ : ∃ old, lines[i]? = some old :=
    ⟨lines[i], List.getElem?_eq_getElem hilen⟩
  have hgd : lines.getD i [] = old := getD_of_getElem? hold
  rw [hgd] at hq
  have hinner_ws : inner.all isWsChar = true := inferIndentLoop_ws hinf
  have hind_ws : ((if (leadingWs old).isEmpty then inner else leadingWs old)).all
      isWsChar = true := by
    by_cases hemp : (leadingWs old).isEmpty = true
    · rw [if_pos hemp]; exact hinner_ws
    · rw [if_neg hemp]; exact leadingWs_all_ws old
  have hne : old ≠ ((if (leadingWs old).isEmpty then inner else leadingWs old) ++
      targetLine a v) := by
    intro heq
    have hcf2 := matchComment_target (b := a) (v := v) hind_ws hxa
      (by decide) (by constructor <;> decide)
    rw [← heq, hq] at hcf2
    exact absurd hcf2 (by simp)
  have hkeys : ∀ p : Line × Line, p ∈ TARGET_ATTRS → p.1 ≠ a →
      st0.other_value_idx p.1 ≠ some i ∧ st0.commented_idx p.1 ≠ some i := by
    intro p hp hpa
    obtain ⟨hefp, hcfp, hofp⟩ :=
      scanLines_fields (a := p.1) (v := p.2) hp hscan
    constructor
    · rw [hofp]
      intro hfp
      have hpq0 := List.find?_some hfp
      have hpq : (matchAnyValueAttr p.1 (lines.getD i []) &&
          !matchExactAttr p.1 p.2 (lines.getD i [])) = true := hpq0
      rw [hgd] at hpq
      have h1 : matchAnyValueAttr p.1 old = true := by
        simp only [Bool.and_eq_true] at hpq
        exact hpq.1
      have h2 := (comment_excludes_attr hp hq).1
      rw [h1] at h2
      exact absurd h2 (by simp)
    · rw [hcfp]
      intro hfp
      have hpq1 := List.find?_some hfp
      have hpq : matchCommentAttr p.1 (lines.getD i []) = true := hpq1
      rw [hgd] at hpq
      have h2 := matchComment_incompat
        (attrs_incompat (a, v) hm p hp (fun hh => hpa hh.symm)) hq
      rw [hpq] at h2
      exact absurd h2 (by simp)
  obtain ⟨ps1, ps2, hsplit⟩ := List.append_of_mem hm
  have hnd := attrs_keys_nodup
  rw [hsplit, List.map_append, List.map_cons] at hnd
  have hdisj := List.disjoint_of_nodup_append hnd
  have hps1a : ∀ p ∈ ps1, p.1 ≠ a := by
    intro p hp hpa
    have hmm : p.1 ∈ ps1.map Prod.fst := List.mem_map_of_mem Prod.fst hp
    rw [hpa] at hmm
    exact hdisj hmm (List.mem_cons_self _ _)
  have hps2a : ∀ p ∈ ps2, p.1 ≠ a := by
    intro p hp hpa
    have hninner := (List.nodup_cons.mp (List.Nodup.of_append_right hnd)).1
    have hmm : p.1 ∈ ps2.map Prod.fst := List.mem_map_of_mem Prod.fst hp
    rw [hpa] at hmm
    exact hninner hmm
  rw [hsplit, List.foldlM_append] at hfold
  rcases h1 : List.foldlM (reconcileStep enforce inner)
      (RecAcc.mk lines e false [] st0) ps1 with _ | acc1
  · rw [h1] at hfold; exact absurd hfold (by simp)
  · rw [h1] at hfold
    simp only [Option.bind_eq_bind, Option.some_bind, List.foldlM_cons] at hfold
    obtain ⟨sc1, so1, se1, hend1, hlen1, ⟨ms1, hmsg1⟩, -⟩ :=
      reconcileFold_fields ps1 _ _ h1
    have hl1 : acc1.lines[i]? = some old := by
      rw [reconcileFold_frame ps1 _ _ h1 i hie hilen ?hni]
      · exact hold
      case hni =>
        intro p hp
        exact hkeys p (hsplit ▸ List.mem_append.mpr (Or.inl hp)) (hps1a p hp)
    have hex1 : acc1.st.exists_exact a = false := by
      rw [se1 a hps1a]
      exact hex_false
    have hov1 : acc1.st.other_value_idx a = none := by
      rw [so1]
      exact hov
    have hcm1 : acc1.st.commented_idx a = some i := by
      rw [sc1]
      exact hcmv
    have hstep := @reconcileStep_uncomment enforce inner acc1 a v old i
      hex1 hov1 hcm1 hl1 hne
    rw [hstep] at hfold
    simp only [Option.some_bind] at hfold
    obtain ⟨sc2, so2, se2, hend2, hlen2, ⟨ms2, hmsg2⟩, -⟩ :=
      reconcileFold_fields ps2 _ _ hfold
    have hend1' : e ≤ acc1.endIdx := hend1
    have hlen1' : acc1.lines.length + e = lines.length + acc1.endIdx := hlen1
    have hnewline : ((if (leadingWs old).isEmpty then inner else leadingWs old) ++
        targetLine a v) ∈ acc.lines := by
      have h5 := reconcileFold_frame ps2 _ _ hfold i ?hie2 ?hilen2 ?hni2
      · refine List.getElem?_mem (n := i) ?_
        rw [h5]
        show (acc1.lines.set i _)[i]? = _
        rw [set_getElem?_self (by omega)]
      case hie2 =>
        show i < acc1.endIdx
        omega
      case hilen2 =>
        show i < (acc1.lines.set i _).length
        rw [List.length_set]
        omega
      case hni2 =>
        intro p hp
        show acc1.st.other_value_idx p.1 ≠ some i ∧
          acc1.st.commented_idx p.1 ≠ some i
        rw [so1, sc1]
        exact hkeys p (hsplit ▸ List.mem_append.mpr
          (Or.inr (List.mem_cons_of_mem _ hp))) (hps2a p hp)
    refine ⟨?_, old, inner, hold, hq, hinf, ?_, ?_⟩
    · rw [hmsg2]
      dsimp only
      exact List.mem_append.mpr (Or.inl (List.mem_append.mpr
        (Or.inr (List.mem_singleton.mpr rfl))))
    · refine groupsFold_mem GROUPS _ _ hgroups _ ?_ hnewline
      exact isBlank_target hxa (by decide)
    · exact matchExact_target hind_ws hxa (by decide) hyv hyw

/-- Witness for C5 (amended) at the concrete `bufUnc` input. -/
theorem C5_uncomment_normalizes_witness :
    Msg.uncommented (("tunnel1_startup_action").data) 2 ∈ msgsUnc ∧
    ∃ old inner, bufUnc[1]? = some old ∧
      matchCommentAttr (("tunnel1_startup_action").data) old = true ∧
      inferIndentLoop bufUnc 0 5 = some inner ∧
      ((if (leadingWs old).isEmpty then inner else leadingWs old) ++
        targetLine (("tunnel1_startup_action").data) (("\"start\"").data)) ∈
        outUnc ∧
      matchExactAttr (("tunnel1_startup_action").data) (("\"start\"").data)
        ((if (leadingWs old).isEmpty then inner else leadingWs old) ++
          targetLine (("tunnel1_startup_action").data)
            (("\"start\"").data)) = true :=
  C5_uncomment_normalizes (by decide)
    (show ensure_attributes_in_block bufUnc 0 5 false =
      some (true, 5, msgsUnc, outUnc) by decide)
    (by decide) (by decide)

/-! ## Loop-termination lemmas: in-bounds index lists never raise -/

theorem inferIndentGo_isSome {lines : List Line} :
    ∀ {L : List Nat}, (∀ k ∈ L, k < lines.length) →
    ∃ ind, inferIndentGo lines L = some ind := by
  intro L
  induction L with
  | nil => intro _; exact ⟨("  ").data, rfl⟩
  | cons k ks ih =>
    intro hb
    have hk : k < lines.length := hb k (List.mem_cons_self k ks)
    rcases hl : lines[k]? with _ | l
    · have h2 := List.getElem?_eq_getElem hk
      rw [hl] at h2
      exact Option.noConfusion h2
    · by_cases hbl : isBlank l = true
      · obtain ⟨ind, h⟩ := ih (fun j hj => hb j (List.mem_cons_of_mem _ hj))
        refine ⟨ind, ?_⟩
        unfold inferIndentGo
        simp only [hl]
        rw [if_pos hbl]
        exact h
      · refine ⟨if (leadingWs l).isEmpty then ("  ").data else leadingWs l, ?_⟩
        unfold inferIndentGo
        simp only [hl]
        rw [if_neg hbl]

theorem scanLinesGo_isSome {lines : List Line} :
    ∀ {L : List Nat}, (∀ k ∈ L, k < lines.length) →
    ∀ st, ∃ st', scanLinesGo lines L st = some st' := by
  intro L
  induction L with
  | nil => intro _ st; exact ⟨st, rfl⟩
  | cons k ks ih =>
    intro hb st
    have hk : k < lines.length := hb k (List.mem_cons_self k ks)
    rcases hl : lines[k]? with _ | raw
    · have h2 := List.getElem?_eq_getElem hk
      rw [hl] at h2
      exact Option.noConfusion h2
    · obtain ⟨st', h⟩ := ih (fun j hj => hb j (List.mem_cons_of_mem _ hj))
        (TARGET_ATTRS.foldl (classifyLine k raw) st)
      refine ⟨st', ?_⟩
      unfold scanLinesGo
      simp only [hl]
      exact h

/-- `idx_of_attr` over an in-bounds index list is exactly a `find?`. -/
theorem idxOfAttrGo_eq_find {lines : List Line} {attr : Line} :
    ∀ {L : List Nat}, (∀ k ∈ L, k < lines.length) →
    idxOfAttrGo lines attr L =
      some (L.find? (fun k => matchAnyValueAttr attr (lines.getD k []))) := by
  intro L
  induction L with
  | nil => intro _; rfl
  | cons i is ih =>
    intro hb
    have hi : i < lines.length := hb i (List.mem_cons_self i is)
    rcases hl : lines[i]? with _ | l
    · have h2 := List.getElem?_eq_getElem hi
      rw [hl] at h2
      exact Option.noConfusion h2
    · have hgd := getD_of_getElem? hl
      unfold idxOfAttrGo
      simp only [hl]
      cases hm : matchAnyValueAttr attr l with
      | true =>
        rw [if_pos rfl,
          List.find?_cons_of_pos
            (p := fun k => matchAnyValueAttr attr (lines.getD k [])) _
            (show matchAnyValueAttr attr
              (lines.getD i []) = true by rw [hgd, hm])]
      | false =>
        rw [if_neg (by simp),
          List.find?_cons_of_neg
            (p := fun k => matchAnyValueAttr attr (lines.getD k [])) _
            (show ¬matchAnyValueAttr attr
              (lines.getD i []) = true by rw [hgd, hm]; simp)]
        exact ih (fun j hj => hb j (List.mem_cons_of_mem _ hj))

/-! ## Insertion at the region boundary -/

theorem pyInsertAt_boundary {A M C : List Line} {n : Nat}
    (h : A.length + M.length = n) (x : Line) :
    pyInsertAt (A ++ M ++ C) n x = A ++ (M ++ [x]) ++ C := by
  unfold pyInsertAt
  have h1 : (A ++ M ++ C).take n = A ++ M :=
    List.take_left' (by rw [List.length_append]; omega)
  have h2 : (A ++ M ++ C).drop n = C :=
    List.drop_left' (by rw [List.length_append]; omega)
  rw [h1, h2]
  simp [List.append_assoc]

theorem append_getD_lt {lines ins : List Line} {e k : Nat}
    (hk : k < e) (he : e ≤ lines.length) :
    (lines.take e ++ ins ++ lines.drop e).getD k [] = lines.getD k [] := by
  rw [List.getD_eq_getElem?_getD, List.getD_eq_getElem?_getD]
  rw [List.getElem?_append_left (show k < (lines.take e ++ ins).length by
    rw [List.length_append, List.length_take_of_le he]; omega)]
  rw [List.getElem?_append_left (show k < (lines.take e).length by
    rw [List.length_take_of_le he]; exact hk)]
  rw [List.getElem?_take_of_lt hk]

theorem append_getElem_mid {lines ins : List Line} {e j : Nat}
    (he : e ≤ lines.length) (hj : j < ins.length) :
    (lines.take e ++ ins ++ lines.drop e)[e + j]? = ins[j]? := by
  rw [List.getElem?_append_left (show e + j < (lines.take e ++ ins).length by
    rw [List.length_append, List.length_take_of_le he]; omega)]
  rw [List.getElem?_append_right (show (lines.take e).length ≤ e + j by
    rw [List.length_take_of_le he]; omega)]
  rw [List.length_take_of_le he, show e + j - e = j from by omega]

/-! ## The scan window split around the insertion point -/

theorem find_window_append {start e : Nat} (q : Nat → Bool)
    (hse : start < e)
    (hpre : ∀ k ∈ scanWindow start e, q k = false) :
    (List.range' (start + 1) ((e + 4) - (start + 1))).find? q =
      (List.range' e 4).find? q := by
  have hsplit : List.range' (start + 1) ((e + 4) - (start + 1)) =
      List.range' (start + 1) (e - (start + 1)) ++ List.range' e 4 := by
    have h := List.range'_append_1 (start + 1) (e - (start + 1)) 4
    rw [show start + 1 + (e - (start + 1)) = e from by omega] at h
    rw [show (e + 4) - (start + 1) = 4 + (e - (start + 1)) from by omega]
    exact h.symm
  have hnone : (List.range' (start + 1) (e - (start + 1))).find? q = none :=
    List.find?_eq_none.mpr (fun k hk => by rw [hpre k hk]; simp)
  rw [hsplit, List.find?_append, hnone]
  rfl

/-- `idx_of_attr` on the post-insertion buffer: the window prefix has no
match, so the result is the first match among the four fresh lines. -/
theorem idxOfAttrFrom_of_find {out : List Line} {attr : Line} {start e n : Nat}
    (hse : start < e)
    (hlen : ∀ k ∈ List.range' (start + 1) ((e + 4) - (start + 1)),
      k < out.length)
    (hpre : ∀ k ∈ scanWindow start e,
      matchAnyValueAttr attr (out.getD k []) = false)
    (hfind : (List.range' e 4).find?
      (fun k => matchAnyValueAttr attr (out.getD k [])) = some n) :
    idxOfAttrFrom out attr start (e + 4) = some (some n) := by
  unfold idxOfAttrFrom
  rw [idxOfAttrGo_eq_find hlen, find_window_append _ hse hpre, hfind]

/-! ## The adjacency pass is the identity on an adjacent pair -/

theorem normalizeGroup_adjacent {start endIdx : Nat}
    {state : List Line × Bool} {g : Line × Line} {i1 : Nat}
    (h1 : idxOfAttrFrom state.1 g.1 start endIdx = some (some i1))
    (h2 : idxOfAttrFrom state.1 g.2 start endIdx = some (some (i1 + 1))) :
    normalizeGroup start endIdx state g = some state := by
  have hdel : deleteBlanks state.1 (i1 + 1) (i1 + 1) state.2 =
      some (state.1, i1 + 1, state.2) := by
    unfold deleteBlanks
    rw [show (i1 + 1) - (i1 + 1) = 0 from by omega]
    rfl
  unfold normalizeGroup
  dsimp only
  simp only [h1, h2]
  rw [if_neg (by omega)]
  simp only [hdel]
  rw [if_neg (by simp)]

theorem foldlM_normalizeGroup_id {start endIdx : Nat} :
    ∀ (gs : List (Line × Line)) (state : List Line × Bool),
    (∀ g ∈ gs, normalizeGroup start endIdx state g = some state) →
    gs.foldlM (normalizeGroup start endIdx) state = some state := by
  intro gs
  induction gs with
  | nil => intro state _; rfl
  | cons g gs ih =>
    intro state h
    rw [List.foldlM_cons, h g (List.mem_cons_self g gs)]
    simp only [Option.bind_eq_bind, Option.some_bind]
    exact ih state (fun g' hg' => h g' (List.mem_cons_of_mem _ hg'))

/-! ## The reconcile fold when every attribute is absent -/

theorem reconcileFold_all_absent {enforce : Bool} {inner : Line} :
    ∀ (ps : List (Line × Line)) (acc : RecAcc) (A M C : List Line),
    acc.lines = A ++ M ++ C →
    A.length + M.length = acc.endIdx →
    (∀ p ∈ ps, acc.st.exists_exact p.1 = false ∧
      acc.st.other_value_idx p.1 = none ∧ acc.st.commented_idx p.1 = none) →
    (ps.map Prod.fst).Nodup →
    ∃ acc', ps.foldlM (reconcileStep enforce inner) acc = some acc' ∧
      acc'.lines =
        A ++ (M ++ ps.map (fun p => inner ++ targetLine p.1 p.2)) ++ C ∧
      acc'.endIdx = acc.endIdx + ps.length ∧
      acc'.modified = (acc.modified || !ps.isEmpty) ∧
      acc'.msgs = acc.msgs ++ appendMsgs acc.endIdx ps := by
  intro ps
  induction ps with
  | nil =>
    intro acc A M C hl hlen _ _
    exact ⟨acc, by simp [List.foldlM_nil], by simpa using hl, by simp,
      by simp, by simp [appendMsgs]⟩
  | cons p ps ih =>
    intro acc A M C hl hlen hst hnd
    obtain ⟨a, v⟩ := p
    obtain ⟨hp1, hp2, hp3⟩ := hst (a, v) (List.mem_cons_self _ ps)
    have hstep := @reconcileStep_insert enforce inner acc a v hp1 hp2 hp3
    rw [List.foldlM_cons, hstep]
    simp only [Option.bind_eq_bind, Option.some_bind]
    have hl1 : pyInsertAt acc.lines acc.endIdx (inner ++ targetLine a v) =
        A ++ (M ++ [inner ++ targetLine a v]) ++ C := by
      rw [hl, pyInsertAt_boundary hlen]
    have hnp : a ∉ ps.map Prod.fst := by
      have h := (List.nodup_cons.mp hnd).1
      exact h
    obtain ⟨acc', hfold', hl', he', hm', hms'⟩ := ih
      { acc with
        lines := pyInsertAt acc.lines acc.endIdx (inner ++ targetLine a v)
        modified := true
        msgs := acc.msgs ++ [Msg.appended a (acc.endIdx + 1)]
        endIdx := acc.endIdx + 1
        st := { acc.st with
                 exists_exact := setB acc.st.exists_exact a true } }
      A (M ++ [inner ++ targetLine a v]) C hl1
      (by rw [List.length_append]; simp; omega)
      (by
        intro q hq
        obtain ⟨h1, h2, h3⟩ := hst q (List.mem_cons_of_mem _ hq)
        have hne : q.1 ≠ a := by
          intro he
          exact hnp (he ▸ List.mem_map_of_mem Prod.fst hq)
        refine ⟨?_, h2, h3⟩
        show setB acc.st.exists_exact a true q.1 = false
        simp only [setB]
        rw [if_neg hne]
        exact h1)
      (List.nodup_cons.mp hnd).2
    refine ⟨acc', hfold', ?_, ?_, ?_, ?_⟩
    · rw [hl']
      simp [List.append_assoc]
    · rw [he']
      show acc.endIdx + 1 + ps.length = acc.endIdx + (ps.length + 1)
      omega
    · rw [hm']
      show (true || !ps.isEmpty) = (acc.modified || !((a, v) :: ps).isEmpty)
      simp
    · rw [hms']
      show (acc.msgs ++ [Msg.appended a (acc.endIdx + 1)]) ++
        appendMsgs (acc.endIdx + 1) ps =
        acc.msgs ++ appendMsgs acc.endIdx ((a, v) :: ps)
      rw [List.append_assoc]
      rfl

/-! ## Per-position `find?` evaluation over the fresh window tail -/

theorem find_attr_cons_false {out : List Line} {attr : Line} {x : Nat}
    {xs : List Nat}
    (h : matchAnyValueAttr attr (out.getD x []) = false) :
    (x :: xs).find? (fun k => matchAnyValueAttr attr (out.getD k [])) =
      xs.find? (fun k => matchAnyValueAttr attr (out.getD k [])) :=
  List.find?_cons_of_neg _ (show ¬matchAnyValueAttr attr
    (out.getD x []) = true by rw [h]; simp)

theorem find_attr_cons_true {out : List Line} {attr : Line} {x : Nat}
    {xs : List Nat}
    (h : matchAnyValueAttr attr (out.getD x []) = true) :
    (x :: xs).find? (fun k => matchAnyValueAttr attr (out.getD k [])) =
      some x :=
  List.find?_cons_of_pos _ h

/-- C7: Append-before-close.  In a block whose interior has no assignment
line and no commented occurrence of any target attribute (so every target
attribute is classified absent), the Reconciler inserts, for each attribute
in spec order, one line of inferred inner indentation plus
`name = desired_value` at the tracked end index (directly in front of the
closing-brace line) and increments the tracked end by one, for either value
of the enforcement flag; the four lines land as consecutive lines before the
closing brace, so each adjacency pair is adjacent, the adjacency pass
changes nothing further, and the tracked end finishes at `e + 4`. -/
theorem C7_append_before_close (lines : List Line) (start e : Nat)
    (enforce : Bool) (hse : start < e) (hel : e < lines.length)
    (habs : ∀ p ∈ TARGET_ATTRS, ∀ k ∈ scanWindow start e,
      matchAnyValueAttr p.1 (lines.getD k []) = false ∧
      matchCommentAttr p.1 (lines.getD k []) = false) :
    ∃ ind, inferIndentLoop lines start e = some ind ∧
      ensure_attributes_in_block lines start e enforce =
        some (true, e + 4,
          [Msg.appended (("tunnel1_startup_action").data) (e + 1),
           Msg.appended (("tunnel2_startup_action").data) (e + 2),
           Msg.appended (("tunnel1_enable_tunnel_lifecycle_control").data)
             (e + 3),
           Msg.appended (("tunnel2_enable_tunnel_lifecycle_control").data)
             (e + 4)],
          lines.take e ++
            TARGET_ATTRS.map (fun p => ind ++ targetLine p.1 p.2) ++
            lines.drop e) := by
  obtain ⟨inner, hinfer0⟩ := @inferIndentGo_isSome lines
    (List.range' (start + 1) ((e + 1) - (start + 1)))
    (by
      intro k hk
      have h := List.mem_range'_1.mp hk
      omega)
  have hinfer : inferIndentLoop lines start e = some inner := hinfer0
  have hws : inner.all isWsChar = true := inferIndentLoop_ws hinfer
  obtain ⟨st0, hscan0⟩ := @scanLinesGo_isSome lines
    (List.range' (start + 1) (e - (start + 1)))
    (by
      intro k hk
      have h := List.mem_range'_1.mp hk
      omega)
    initScan
  have hscan : scanLines lines start e initScan = some st0 := hscan0
  have hfields : ∀ p ∈ TARGET_ATTRS, st0.exists_exact p.1 = false ∧
      st0.other_value_idx p.1 = none ∧ st0.commented_idx p.1 = none := by
    intro p hp
    obtain ⟨a, v⟩ := p
    obtain ⟨hee, hcc, hoo⟩ := scanLines_fields hp hscan
    have hv : v ≠ [] := (attrs_shape (a, v) hp).2.2.2.2
    refine ⟨?_, ?_, ?_⟩
    · show st0.exists_exact a = false
      rw [hee]
      apply List.any_eq_false.mpr
      intro k hk hex
      have h1 := (habs (a, v) hp k hk).1
      rw [matchExact_imp_any hv hex] at h1
      exact Bool.noConfusion h1
    · show st0.other_value_idx a = none
      rw [hoo]
      apply List.find?_eq_none.mpr
      intro k hk
      show ¬(matchAnyValueAttr a (lines.getD k []) &&
        !matchExactAttr a v (lines.getD k [])) = true
      intro hb
      simp only [Bool.and_eq_true] at hb
      have h1 : matchAnyValueAttr a (lines.getD k []) = false :=
        (habs (a, v) hp k hk).1
      rw [h1] at hb
      exact Bool.noConfusion hb.1
    · show st0.commented_idx a = none
      rw [hcc]
      apply List.find?_eq_none.mpr
      intro k hk
      show ¬matchCommentAttr a (lines.getD k []) = true
      intro hb
      have h2 : matchCommentAttr a (lines.getD k []) = false :=
        (habs (a, v) hp k hk).2
      rw [h2] at hb
      exact Bool.noConfusion hb
  obtain ⟨acc, hfold, haccl, hacce, haccm, haccmsg⟩ :=
    @reconcileFold_all_absent enforce inner TARGET_ATTRS
      (RecAcc.mk lines e false [] st0)
      (lines.take e) [] (lines.drop e)
      (by simp)
      (by simp [List.length_take_of_le (Nat.le_of_lt hel)])
      hfields attrs_keys_nodup
  have hTlen : TARGET_ATTRS.length = 4 := rfl
  refine ⟨inner, hinfer, ?_⟩
  set out : List Line := lines.take e ++
    TARGET_ATTRS.map (fun p => inner ++ targetLine p.1 p.2) ++
    lines.drop e with hout
  have haccl' : acc.lines = out := haccl
  have hacce4 : acc.endIdx = e + 4 := by rw [hacce]; rfl
  have haccm' : acc.modified = true := by rw [haccm]; rfl
  have hmsg4 : acc.msgs =
      [Msg.appended (("tunnel1_startup_action").data) (e + 1),
       Msg.appended (("tunnel2_startup_action").data) (e + 2),
       Msg.appended (("tunnel1_enable_tunnel_lifecycle_control").data)
         (e + 3),
       Msg.appended (("tunnel2_enable_tunnel_lifecycle_control").data)
         (e + 4)] := by rw [haccmsg]; rfl
  have houtlen : out.length = lines.length + 4 := by
    rw [hout, List.length_append, List.length_append, List.length_map,
      List.length_take_of_le (Nat.le_of_lt hel), List.length_drop, hTlen]
    omega
  have hbound : ∀ k ∈ List.range' (start + 1) ((e + 4) - (start + 1)),
      k < out.length := by
    intro k hk
    have h := List.mem_range'_1.mp hk
    rw [houtlen]
    omega
  have houtpre : ∀ a : Line,
      (∀ k ∈ scanWindow start e,
        matchAnyValueAttr a (lines.getD k []) = false) →
      ∀ k ∈ scanWindow start e,
        matchAnyValueAttr a (out.getD k []) = false := by
    intro a ha k hk
    have hke : k < e := by
      have h := List.mem_range'_1.mp hk
      omega
    rw [hout, append_getD_lt hke (Nat.le_of_lt hel)]
    exact ha k hk
  have hgd : ∀ j, j < 4 → out.getD (e + j) [] =
      (TARGET_ATTRS.map (fun p => inner ++ targetLine p.1 p.2)).getD j [] := by
    intro j hj
    rw [hout, List.getD_eq_getElem?_getD, List.getD_eq_getElem?_getD,
      append_getElem_mid (Nat.le_of_lt hel)
        (by rw [List.length_map, hTlen]; omega)]
  have hv0 : out.getD e [] = inner ++
      targetLine (("tunnel1_startup_action").data) (("\"start\"").data) :=
    (hgd 0 (by omega)).trans rfl
  have hv1 : out.getD (e + 1) [] = inner ++
      targetLine (("tunnel2_startup_action").data) (("\"start\"").data) :=
    (hgd 1 (by omega)).trans rfl
  have hv2 : out.getD (e + 2) [] = inner ++
      targetLine (("tunnel1_enable_tunnel_lifecycle_control").data)
        (("true").data) :=
    (hgd 2 (by omega)).trans rfl
  have hv3 : out.getD (e + 3) [] = inner ++
      targetLine (("tunnel2_enable_tunnel_lifecycle_control").data)
        (("true").data) :=
    (hgd 3 (by omega)).trans rfl
  have hmem0 : ((("tunnel1_startup_action").data : Line),
      (("\"start\"").data : Line)) ∈ TARGET_ATTRS := by decide
  have hmem1 : ((("tunnel2_startup_action").data : Line),
      (("\"start\"").data : Line)) ∈ TARGET_ATTRS := by decide
  have hmem2 : ((("tunnel1_enable_tunnel_lifecycle_control").data : Line),
      (("true").data : Line)) ∈ TARGET_ATTRS := by decide
  have hmem3 : ((("tunnel2_enable_tunnel_lifecycle_control").data : Line),
      (("true").data : Line)) ∈ TARGET_ATTRS := by decide
  have hM0 : matchAnyValueAttr (("tunnel1_startup_action").data)
      (inner ++ targetLine (("tunnel1_startup_action").data)
        (("\"start\"").data)) = true :=
    matchAny_target hws (show (("tunnel1_startup_action").data : Line) =
      't' :: ("unnel1_startup_action").data from by decide) (by decide)
  have hM1 : matchAnyValueAttr (("tunnel2_startup_action").data)
      (inner ++ targetLine (("tunnel2_startup_action").data)
        (("\"start\"").data)) = true :=
    matchAny_target hws (show (("tunnel2_startup_action").data : Line) =
      't' :: ("unnel2_startup_action").data from by decide) (by decide)
  have hM2 : matchAnyValueAttr
      (("tunnel1_enable_tunnel_lifecycle_control").data)
      (inner ++ targetLine (("tunnel1_enable_tunnel_lifecycle_control").data)
        (("true").data)) = true :=
    matchAny_target hws
      (show (("tunnel1_enable_tunnel_lifecycle_control").data : Line) =
        't' :: ("unnel1_enable_tunnel_lifecycle_control").data from by decide)
      (by decide)
  have hM3 : matchAnyValueAttr
      (("tunnel2_enable_tunnel_lifecycle_control").data)
      (inner ++ targetLine (("tunnel2_enable_tunnel_lifecycle_control").data)
        (("true").data)) = true :=
    matchAny_target hws
      (show (("tunnel2_enable_tunnel_lifecycle_control").data : Line) =
        't' :: ("unnel2_enable_tunnel_lifecycle_control").data from by decide)
      (by decide)
  have hA00 : matchAnyValueAttr (("tunnel1_startup_action").data)
      (out.getD e []) = true := by rw [hv0]; exact hM0
  have hA10 : matchAnyValueAttr (("tunnel2_startup_action").data)
      (out.getD e []) = false := by
    rw [hv0]
    exact (any_excludes_other hmem0 hmem1 (by decide) hM0).1
  have hA11 : matchAnyValueAttr (("tunnel2_startup_action").data)
      (out.getD (e + 1) []) = true := by rw [hv1]; exact hM1
  have hA20 : matchAnyValueAttr
      (("tunnel1_enable_tunnel_lifecycle_control").data)
      (out.getD e []) = false := by
    rw [hv0]
    exact (any_excludes_other hmem0 hmem2 (by decide) hM0).1
  have hA21 : matchAnyValueAttr
      (("tunnel1_enable_tunnel_lifecycle_control").data)
      (out.getD (e + 1) []) = false := by
    rw [hv1]
    exact (any_excludes_other hmem1 hmem2 (by decide) hM1).1
  have hA22 : matchAnyValueAttr
      (("tunnel1_enable_tunnel_lifecycle_control").data)
      (out.getD (e + 2) []) = true := by rw [hv2]; exact hM2
  have hA30 : matchAnyValueAttr
      (("tunnel2_enable_tunnel_lifecycle_control").data)
      (out.getD e []) = false := by
    rw [hv0]
    exact (any_excludes_other hmem0 hmem3 (by decide) hM0).1
  have hA31 : matchAnyValueAttr
      (("tunnel2_enable_tunnel_lifecycle_control").data)
      (out.getD (e + 1) []) = false := by
    rw [hv1]
    exact (any_excludes_other hmem1 hmem3 (by decide) hM1).1
  have hA32 : matchAnyValueAttr
      (("tunnel2_enable_tunnel_lifecycle_control").data)
      (out.getD (e + 2) []) = false := by
    rw [hv2]
    exact (any_excludes_other hmem2 hmem3 (by decide) hM2).1
  have hA33 : matchAnyValueAttr
      (("tunnel2_enable_tunnel_lifecycle_control").data)
      (out.getD (e + 3) []) = true := by rw [hv3]; exact hM3
  have hq0 : idxOfAttrFrom out (("tunnel1_startup_action").data) start
      (e + 4) = some (some e) := by
    apply idxOfAttrFrom_of_find hse hbound
      (houtpre _ (fun k hk => (habs _ hmem0 k hk).1))
    rw [show List.range' e 4 = [e, e + 1, e + 2, e + 3] from rfl]
    rw [find_attr_cons_true hA00]
  have hq1 : idxOfAttrFrom out (("tunnel2_startup_action").data) start
      (e + 4) = some (some (e + 1)) := by
    apply idxOfAttrFrom_of_find hse hbound
      (houtpre _ (fun k hk => (habs _ hmem1 k hk).1))
    rw [show List.range' e 4 = [e, e + 1, e + 2, e + 3] from rfl]
    rw [find_attr_cons_false hA10, find_attr_cons_true hA11]
  have hq2 : idxOfAttrFrom out
      (("tunnel1_enable_tunnel_lifecycle_control").data) start
      (e + 4) = some (some (e + 2)) := by
    apply idxOfAttrFrom_of_find hse hbound
      (houtpre _ (fun k hk => (habs _ hmem2 k hk).1))
    rw [show List.range' e 4 = [e, e + 1, e + 2, e + 3] from rfl]
    rw [find_attr_cons_false hA20, find_attr_cons_false hA21,
      find_attr_cons_true hA22]
  have hq3 : idxOfAttrFrom out
      (("tunnel2_enable_tunnel_lifecycle_control").data) start
      (e + 4) = some (some (e + 3)) := by
    apply idxOfAttrFrom_of_find hse hbound
      (houtpre _ (fun k hk => (habs _ hmem3 k hk).1))
    rw [show List.range' e 4 = [e, e + 1, e + 2, e + 3] from rfl]
    rw [find_attr_cons_false hA30, find_attr_cons_false hA31,
      find_attr_cons_false hA32, find_attr_cons_true hA33]
  have hgroups : GROUPS.foldlM (normalizeGroup start (e + 4)) (out, true) =
      some (out, true) := by
    apply foldlM_normalizeGroup_id
    intro g hg
    have hg2 : g = ((("tunnel1_startup_action").data : Line),
        (("tunnel2_startup_action").data : Line)) ∨
        g = ((("tunnel1_enable_tunnel_lifecycle_control").data : Line),
        (("tunnel2_enable_tunnel_lifecycle_control").data : Line)) := by
      simpa [GROUPS] using hg
    rcases hg2 with rfl | rfl
    · exact normalizeGroup_adjacent hq0 hq1
    · exact normalizeGroup_adjacent hq2 hq3
  unfold ensure_attributes_in_block
  simp only [hinfer, hscan, hfold]
  rw [hacce4, haccl', haccm', hmsg4]
  simp only [hgroups]

/-- Witness for C7 at the two-line empty block `bufC7`. -/
theorem C7_append_before_close_witness :
    ∃ ind, inferIndentLoop bufC7 0 1 = some ind ∧
      ensure_attributes_in_block bufC7 0 1 false =
        some (true, 1 + 4,
          [Msg.appended (("tunnel1_startup_action").data) (1 + 1),
           Msg.appended (("tunnel2_startup_action").data) (1 + 2),
           Msg.appended (("tunnel1_enable_tunnel_lifecycle_control").data)
             (1 + 3),
           Msg.appended (("tunnel2_enable_tunnel_lifecycle_control").data)
             (1 + 4)],
          bufC7.take 1 ++
            TARGET_ATTRS.map (fun p => ind ++ targetLine p.1 p.2) ++
            bufC7.drop 1) :=
  C7_append_before_close bufC7 0 1 false (by decide) (by decide) (by decide)

/-! ## Region decomposition: reading, writing and filtering the block
interior of a buffer of the form `A ++ M ++ C` -/

theorem getElem?_append_mid {A M C : List Line} {i : Nat}
    (h1 : A.length ≤ i) (h2 : i < A.length + M.length) :
    (A ++ M ++ C)[i]? = M[i - A.length]? := by
  rw [List.getElem?_append_left (show i < (A ++ M).length by
    rw [List.length_append]; omega)]
  rw [List.getElem?_append_right h1]

theorem set_append_mid {A M C : List Line} {i : Nat} {x : Line}
    (h1 : A.length ≤ i) (h2 : i < A.length + M.length) :
    (A ++ M ++ C).set i x = A ++ M.set (i - A.length) x ++ C := by
  rw [List.set_append]
  rw [if_pos (show i < (A ++ M).length by rw [List.length_append]; omega)]
  rw [List.set_append]
  rw [if_neg (show ¬i < A.length by omega)]

theorem set_eq_take_cons_drop {M : List Line} {k : Nat} {x : Line}
    (h : k < M.length) :
    M.set k x = M.take k ++ x :: M.drop (k + 1) := by
  induction M generalizing k with
  | nil => exact absurd h (by simp)
  | cons a as ih =>
    cases k with
    | zero => rfl
    | succ k =>
      have h' : k < as.length := by simpa using h
      show a :: as.set k x = a :: (as.take k ++ x :: as.drop (k + 1))
      rw [ih h']

theorem eq_take_cons_drop {M : List Line} {k : Nat} {old : Line}
    (h : M[k]? = some old) :
    M = M.take k ++ old :: M.drop (k + 1) := by
  have hk : k < M.length := lt_of_getElem?_some h
  have h2 := List.drop_eq_getElem_cons hk
  have h3 : M[k] = old := by
    have h4 := List.getElem?_eq_getElem hk
    rw [h] at h4
    injection h4 with h4
    exact h4.symm
  calc M = M.take k ++ M.drop k := (List.take_append_drop k M).symm
    _ = M.take k ++ old :: M.drop (k + 1) := by rw [h2, h3]

theorem filter_set_parts {p : Line → Bool} {M : List Line} {k : Nat}
    {old x : Line} (hk : M[k]? = some old) (hx : p x = true)
    (h1 : (M.take k).countP p = 0) (h2 : (M.drop (k + 1)).countP p = 0) :
    (M.set k x).filter p = [x] := by
  have hklt : k < M.length := lt_of_getElem?_some hk
  rw [set_eq_take_cons_drop hklt, List.filter_append]
  rw [List.filter_eq_nil_iff.mpr (fun l hl => (List.countP_eq_zero.mp h1) l hl)]
  rw [List.filter_cons_of_pos hx]
  rw [List.filter_eq_nil_iff.mpr (fun l hl => (List.countP_eq_zero.mp h2) l hl)]
  rfl

theorem countP_parts_of_le_one {p : Line → Bool} {M : List Line} {k : Nat}
    {old : Line} (hk : M[k]? = some old) (hold : p old = true)
    (hle : M.countP p ≤ 1) :
    (M.take k).countP p = 0 ∧ (M.drop (k + 1)).countP p = 0 := by
  have hc := congrArg (List.countP p) (eq_take_cons_drop hk)
  rw [List.countP_append, List.countP_cons, hold, if_pos rfl] at hc
  constructor <;> omega

theorem countP_parts_of_zero {p : Line → Bool} {M : List Line} {k : Nat}
    {old : Line} (hk : M[k]? = some old) (h0 : M.countP p = 0) :
    (M.take k).countP p = 0 ∧ (M.drop (k + 1)).countP p = 0 := by
  have hc := congrArg (List.countP p) (eq_take_cons_drop hk)
  rw [List.countP_append, List.countP_cons] at hc
  constructor <;> omega

theorem filter_set_of_both_neg {p : Line → Bool} {M : List Line} {k : Nat}
    {old x : Line} (hk : M[k]? = some old) (ho : p old = false)
    (hx : p x = false) :
    (M.set k x).filter p = M.filter p := by
  have hklt : k < M.length := lt_of_getElem?_some hk
  rw [set_eq_take_cons_drop hklt]
  conv_rhs => rw [eq_take_cons_drop hk]
  rw [List.filter_append, List.filter_append]
  rw [List.filter_cons_of_neg (by simp [hx]), List.filter_cons_of_neg
    (by simp [ho])]

theorem filter_singleton_of_mem {p : Line → Bool} {M : List Line} {z : Line}
    (hz : z ∈ M) (hpz : p z = true) (hle : M.countP p ≤ 1) :
    M.filter p = [z] := by
  have hzf : z ∈ M.filter p := List.mem_filter.mpr ⟨hz, hpz⟩
  have hlen : (M.filter p).length ≤ 1 := by
    rw [← List.countP_eq_length_filter]
    exact hle
  rcases hf : M.filter p with _ | ⟨w, ws⟩
  · rw [hf] at hzf
    exact absurd hzf (by simp)
  · rcases ws with _ | ⟨w2, ws2⟩
    · rw [hf] at hzf
      have hzw : z = w := by simpa using hzf
      rw [hzw]
    · rw [hf] at hlen
      have hlen2 : (w :: w2 :: ws2).length = ws2.length + 2 := rfl
      omega

/-! ## Region and window correspondence -/

theorem region_all_of_window {lines : List Line} {start e : Nat}
    {p : Line → Bool}
    (h : ∀ k ∈ scanWindow start e, p (lines.getD k []) = false) :
    ∀ l ∈ (lines.drop (start + 1)).take (e - (start + 1)), p l = false := by
  intro l hl
  obtain ⟨j, hj⟩ := List.mem_iff_getElem?.mp hl
  have hjlen : j < ((lines.drop (start + 1)).take (e - (start + 1))).length :=
    lt_of_getElem?_some hj
  have hjw : j < e - (start + 1) := by
    rw [List.length_take] at hjlen
    exact Nat.lt_of_lt_of_le hjlen (Nat.min_le_left _ _)
  rw [List.getElem?_take_of_lt hjw, List.getElem?_drop] at hj
  have hk : start + 1 + j ∈ scanWindow start e := by
    show start + 1 + j ∈ List.range' (start + 1) (e - (start + 1))
    rw [List.mem_range'_1]
    omega
  have h2 := h _ hk
  rw [getD_of_getElem? hj] at h2
  exact h2

theorem window_mem_region {lines : List Line} {start e k : Nat}
    (hk : k ∈ scanWindow start e) (hel : e ≤ lines.length) :
    ((lines.drop (start + 1)).take (e - (start + 1)))[k - (start + 1)]? =
      some (lines.getD k []) := by
  have hb := List.mem_range'_1.mp hk
  rw [List.getElem?_take_of_lt (by omega), List.getElem?_drop]
  rw [show start + 1 + (k - (start + 1)) = k from by omega]
  have hklen : k < lines.length := by omega
  rw [List.getElem?_eq_getElem hklen, List.getD_eq_getElem?_getD,
    List.getElem?_eq_getElem hklen]
  rfl

/-! ## Pattern disjointness across distinct target attributes -/

theorem patterns_disjoint {a v b w li : Line}
    (hma : (a, v) ∈ TARGET_ATTRS) (hmb : (b, w) ∈ TARGET_ATTRS)
    (hne : a ≠ b) :
    ¬((matchAnyValueAttr a li = true ∨ matchCommentAttr a li = true) ∧
      (matchAnyValueAttr b li = true ∨ matchCommentAttr b li = true)) := by
  rintro ⟨ha | ha, hb2 | hb2⟩
  · have h := (any_excludes_other hma hmb hne ha).1
    rw [hb2] at h
    exact Bool.noConfusion h
  · have h := (comment_excludes_attr hma hb2).1
    rw [ha] at h
    exact Bool.noConfusion h
  · have h := (comment_excludes_attr hmb ha).1
    rw [hb2] at h
    exact Bool.noConfusion h
  · have h := matchComment_incompat (attrs_incompat (a, v) hma (b, w) hmb hne) ha
    rw [hb2] at h
    exact Bool.noConfusion h

theorem pendingInv_single {start : Nat} {ps : List (Line × Line)}
    {acc : RecAcc} {q : Line × Line} (hq : q ∈ ps)
    (hp : PendingInv start ps acc) : PendingInv start [q] acc := by
  intro r hr
  have hrq : r = q := by simpa using hr
  subst hrq
  exact hp r hq

/-- One reconcile step of a different attribute leaves the pending recorded
line of a tracked attribute untouched: the step writes only at its own
recorded index (which cannot coincide, because the recorded patterns of
distinct attributes cannot match one line) or inserts at the tracked end. -/
theorem reconcileStep_pending_other {enforce : Bool} {inner : Line}
    {start : Nat} {acc acc' : RecAcc} {av : Line × Line} {q : Line × Line}
    (hstep : reconcileStep enforce inner acc av = some acc')
    (hq : q ∈ TARGET_ATTRS) (hmb : av ∈ TARGET_ATTRS) (hne : q.1 ≠ av.1)
    (hpb : PendingInv start [av] acc)
    (hp : PendingInv start [q] acc) : PendingInv start [q] acc' := by
  obtain ⟨sc, so, -, hend, -, -, hcases⟩ := reconcileStep_fields hstep
  intro r hr
  have hrq : r = q := by simpa using hr
  subst hrq
  obtain ⟨ho, hc⟩ := hp r (by simp)
  have hbpat : ∀ i lib, acc.lines[i]? = some lib →
      ((acc.st.other_value_idx av.1 = some i ∨
        acc.st.commented_idx av.1 = some i)) →
      matchAnyValueAttr av.1 lib = true ∨ matchCommentAttr av.1 lib = true := by
    intro i lib hlib hrec
    rcases hrec with hrec | hrec
    · obtain ⟨-, -, li2, hli2, hanyb, -⟩ := (hpb av (by simp)).1 i hrec
      rw [hlib] at hli2
      injection hli2 with hli2
      subst hli2
      exact Or.inl hanyb
    · obtain ⟨-, -, li2, hli2, hcmb⟩ := (hpb av (by simp)).2 i hrec
      rw [hlib] at hli2
      injection hli2 with hli2
      subst hli2
      exact Or.inr hcmb
  constructor
  · intro i hi
    rw [so] at hi
    obtain ⟨h1, h2, li, hli, hany, hex⟩ := ho i hi
    refine ⟨h1, Nat.lt_of_lt_of_le h2 hend, li, ?_, hany, hex⟩
    rcases hcases with ⟨hl, -, -⟩ | ⟨j, old, hrec, holdj, -, hl, -, -⟩ |
      ⟨hl, -, -⟩
    · rw [hl]; exact hli
    · rw [hl]
      refine (set_getElem?_ne ?_).trans hli
      intro hij
      subst hij
      exact patterns_disjoint
        (show ((r.1, r.2) : Line × Line) ∈ TARGET_ATTRS from hq)
        (show ((av.1, av.2) : Line × Line) ∈ TARGET_ATTRS from hmb) hne
        ⟨Or.inl hany, hbpat i li hli hrec⟩
    · rw [hl]
      exact (pyInsertAt_getElem?_lt h2 (lt_of_getElem?_some hli)).trans hli
  · intro i hi
    rw [sc] at hi
    obtain ⟨h1, h2, li, hli, hcm⟩ := hc i hi
    refine ⟨h1, Nat.lt_of_lt_of_le h2 hend, li, ?_, hcm⟩
    rcases hcases with ⟨hl, -, -⟩ | ⟨j, old, hrec, holdj, -, hl, -, -⟩ |
      ⟨hl, -, -⟩
    · rw [hl]; exact hli
    · rw [hl]
      refine (set_getElem?_ne ?_).trans hli
      intro hij
      subst hij
      exact patterns_disjoint
        (show ((r.1, r.2) : Line × Line) ∈ TARGET_ATTRS from hq)
        (show ((av.1, av.2) : Line × Line) ∈ TARGET_ATTRS from hmb) hne
        ⟨Or.inr hcm, hbpat i li hli hrec⟩
    · rw [hl]
      exact (pyInsertAt_getElem?_lt h2 (lt_of_getElem?_some hli)).trans hli

/-- One reconcile step of a different attribute keeps the region shape
`A ++ M ++ C` of the buffer and does not change which region lines match
the tracked attribute's any-value pattern. -/
theorem reconcileStep_region_filter {enforce : Bool} {inner : Line}
    {start : Nat} {A C M : List Line} {a v : Line} {av : Line × Line}
    {acc acc' : RecAcc}
    (hA : A.length = start + 1) (hws : inner.all isWsChar = true)
    (hma : (a, v) ∈ TARGET_ATTRS) (hmb : av ∈ TARGET_ATTRS)
    (hne : av.1 ≠ a)
    (hstep : reconcileStep enforce inner acc av = some acc')
    (hl : acc.lines = A ++ M ++ C) (he : acc.endIdx = A.length + M.length)
    (hpb : PendingInv start [av] acc) :
    ∃ M', acc'.lines = A ++ M' ++ C ∧
      acc'.endIdx = A.length + M'.length ∧
      M'.filter (fun l => matchAnyValueAttr a l) =
        M.filter (fun l => matchAnyValueAttr a l) := by
  have hmb' : ((av.1, av.2) : Line × Line) ∈ TARGET_ATTRS := hmb
  obtain ⟨-, -, -, -, -, -, hcases⟩ := reconcileStep_fields hstep
  obtain ⟨xs, hxb⟩ := attr_cons_of_mem hmb'
  rcases hcases with ⟨hl', hend', -⟩ | ⟨j, old, hrec, holdj, -, hl', hend', -⟩ |
    ⟨hl', hend', -⟩
  · exact ⟨M, by rw [hl', hl], by rw [hend', he], rfl⟩
  · have hfacts : start + 1 ≤ j ∧ j < acc.endIdx ∧
        (matchAnyValueAttr av.1 old = true ∨
          matchCommentAttr av.1 old = true) := by
      rcases hrec with hrec | hrec
      · obtain ⟨h1, h2, li, hli, hanyb, -⟩ := (hpb av (by simp)).1 j hrec
        rw [holdj] at hli
        injection hli with hli
        subst hli
        exact ⟨h1, h2, Or.inl hanyb⟩
      · obtain ⟨h1, h2, li, hli, hcmb⟩ := (hpb av (by simp)).2 j hrec
        rw [holdj] at hli
        injection hli with hli
        subst hli
        exact ⟨h1, h2, Or.inr hcmb⟩
    obtain ⟨hj1, hj2, holdpat⟩ := hfacts
    have hj1' : A.length ≤ j := by omega
    have hj2' : j < A.length + M.length := by omega
    have hMk : M[j - A.length]? = some old := by
      rw [← getElem?_append_mid hj1' hj2', ← hl]
      exact holdj
    have hindws : ((if (leadingWs old).isEmpty then inner
        else leadingWs old)).all isWsChar = true := by
      by_cases hemp : (leadingWs old).isEmpty = true
      · rw [if_pos hemp]; exact hws
      · rw [if_neg hemp]; exact leadingWs_all_ws old
    have hnlany : matchAnyValueAttr av.1
        ((if (leadingWs old).isEmpty then inner else leadingWs old) ++
          targetLine av.1 av.2) = true :=
      matchAny_target hindws hxb (by decide)
    have hnota : matchAnyValueAttr a
        ((if (leadingWs old).isEmpty then inner else leadingWs old) ++
          targetLine av.1 av.2) = false :=
      (any_excludes_other hmb' hma hne hnlany).1
    have holdnota : matchAnyValueAttr a old = false := by
      rcases holdpat with hanyb | hcmb
      · exact (any_excludes_other hmb' hma hne hanyb).1
      · exact (comment_excludes_attr hma hcmb).1
    refine ⟨M.set (j - A.length)
      ((if (leadingWs old).isEmpty then inner else leadingWs old) ++
        targetLine av.1 av.2), ?_, ?_, ?_⟩
    · rw [hl', hl, set_append_mid hj1' hj2']
    · rw [hend', he, List.length_set]
    · exact filter_set_of_both_neg hMk holdnota hnota
  · have hnlany : matchAnyValueAttr av.1
        (inner ++ targetLine av.1 av.2) = true :=
      matchAny_target hws hxb (by decide)
    have hnota : matchAnyValueAttr a (inner ++ targetLine av.1 av.2) = false :=
      (any_excludes_other hmb' hma hne hnlany).1
    refine ⟨M ++ [inner ++ targetLine av.1 av.2], ?_, ?_, ?_⟩
    · rw [hl', hl,
        pyInsertAt_boundary (show A.length + M.length = acc.endIdx from
          by omega)]
    · rw [hend', he, List.length_append]
      have h1 : ([inner ++ targetLine av.1 av.2] : List Line).length = 1 := rfl
      omega
    · rw [List.filter_append, List.filter_cons_of_neg (by simp [hnota])]
      simp

/-- Folding the reconcile step over attributes all distinct from a tracked
attribute keeps the region shape, the tracked attribute's matching lines,
and the tracked pending facts. -/
theorem reconcileFold_region_filter {inner : Line} {start : Nat}
    {A C : List Line} {a v : Line}
    (hA : A.length = start + 1) (hws : inner.all isWsChar = true)
    (hma : (a, v) ∈ TARGET_ATTRS) :
    ∀ (ps : List (Line × Line)) {enforce : Bool} (acc acc' : RecAcc),
    ps.foldlM (reconcileStep enforce inner) acc = some acc' →
    (∀ p ∈ ps, p ∈ TARGET_ATTRS ∧ p.1 ≠ a) →
    (ps.map Prod.fst).Nodup →
    PendingInv start ps acc →
    ∀ M, acc.lines = A ++ M ++ C →
    acc.endIdx = A.length + M.length →
    ∃ M', acc'.lines = A ++ M' ++ C ∧
      acc'.endIdx = A.length + M'.length ∧
      M'.filter (fun l => matchAnyValueAttr a l) =
        M.filter (fun l => matchAnyValueAttr a l) ∧
      (PendingInv start [(a, v)] acc → PendingInv start [(a, v)] acc') := by
  intro ps
  induction ps with
  | nil =>
    intro enforce acc acc' h _ _ _ M hl he
    simp only [List.foldlM_nil] at h
    injection h with h
    subst h
    exact ⟨M, hl, he, rfl, id⟩
  | cons p ps ih =>
    intro enforce acc acc' h hkeys hnd hpend M hl he
    rw [List.foldlM_cons] at h
    rcases hstep : reconcileStep enforce inner acc p with _ | acc1
    · rw [hstep] at h; exact absurd h (by simp)
    · rw [hstep] at h
      simp only [Option.bind_eq_bind, Option.some_bind] at h
      obtain ⟨hpT, hpne⟩ := hkeys p (List.mem_cons_self p ps)
      have hpb : PendingInv start [p] acc :=
        pendingInv_single (List.mem_cons_self p ps) hpend
      obtain ⟨M1, hl1, he1, hf1⟩ := reconcileStep_region_filter hA hws hma
        hpT hpne hstep hl he hpb
      have hnp : p.1 ∉ ps.map Prod.fst := (List.nodup_cons.mp hnd).1
      have hpend1 : PendingInv start ps acc1 := by
        intro q hq2
        have hqb : q.1 ≠ p.1 := by
          intro hqe
          exact hnp (hqe ▸ List.mem_map_of_mem Prod.fst hq2)
        exact reconcileStep_pending_other hstep
          (hkeys q (List.mem_cons_of_mem _ hq2)).1 hpT hqb hpb
          (pendingInv_single (List.mem_cons_of_mem _ hq2) hpend) q (by simp)
      obtain ⟨M', hl', he', hf', himp⟩ := ih acc1 acc' h
        (fun q hq => hkeys q (List.mem_cons_of_mem _ hq))
        (List.nodup_cons.mp hnd).2 hpend1 M1 hl1 he1
      refine ⟨M', hl', he', hf'.trans hf1, fun hpa => himp ?_⟩
      exact reconcileStep_pending_other hstep hma hpT
        (show ((a, v) : Line × Line).1 ≠ p.1 from Ne.symm hpne) hpb hpa

/-- The scan's recorded indices point at lines of the recorded patterns
inside the window: the initial pending invariant at the start of the
reconcile loop. -/
theorem scan_pendingInv {lines : List Line} {start e : Nat} {st0 : ScanState}
    (hscan : scanLines lines start e initScan = some st0) :
    PendingInv start TARGET_ATTRS (RecAcc.mk lines e false [] st0) := by
  intro p hp
  obtain ⟨a, v⟩ := p
  obtain ⟨-, hcc, hoo⟩ := scanLines_fields hp hscan
  constructor
  · intro i hi
    have hi' : (scanWindow start e).find?
        (fun k => matchAnyValueAttr a (lines.getD k []) &&
          !matchExactAttr a v (lines.getD k [])) = some i := by
      rw [← hoo]
      exact hi
    have hmem := List.mem_of_find?_eq_some hi'
    have hb := List.mem_range'_1.mp hmem
    have hq0 := List.find?_some hi'
    have hq : (matchAnyValueAttr a (lines.getD i []) &&
        !matchExactAttr a v (lines.getD i [])) = true := hq0
    have hq' : matchAnyValueAttr a (lines.getD i []) = true ∧
        matchExactAttr a v (lines.getD i []) = false := by
      simp only [Bool.and_eq_true, Bool.not_eq_true'] at hq
      exact hq
    have hie : i < e := by omega
    have hilen : i < lines.length :=
      scanLinesGo_mem_lt (show scanLinesGo lines (scanWindow start e)
        initScan = some st0 from hscan) i hmem
    refine ⟨by omega, (show i < e from hie : i < e), lines.getD i [], ?_,
      hq'.1, hq'.2⟩
    rw [List.getElem?_eq_getElem hilen, List.getD_eq_getElem?_getD,
      List.getElem?_eq_getElem hilen]
    rfl
  · intro i hi
    have hi' : (scanWindow start e).find?
        (fun k => matchCommentAttr a (lines.getD k [])) = some i := by
      rw [← hcc]
      exact hi
    have hmem := List.mem_of_find?_eq_some hi'
    have hb := List.mem_range'_1.mp hmem
    have hq0 := List.find?_some hi'
    have hq : matchCommentAttr a (lines.getD i []) = true := hq0
    have hie : i < e := by omega
    have hilen : i < lines.length :=
      scanLinesGo_mem_lt (show scanLinesGo lines (scanWindow start e)
        initScan = some st0 from hscan) i hmem
    refine ⟨by omega, (show i < e from hie : i < e), lines.getD i [], ?_, hq⟩
    rw [List.getElem?_eq_getElem hilen, List.getD_eq_getElem?_getD,
      List.getElem?_eq_getElem hilen]
    rfl

/-- C3 (amended): Completeness under enforcement, for blocks in which each
target attribute has at most one uncommented assignment line.  After the
Attribute Reconciler (the scan plus the `for attr, value in TARGET_ATTRS`
loop) runs with enforcement on, the block interior — the region that
replaces `lines[start+1:end]` — holds exactly one uncommented assignment
line for every target attribute, and that line is an exact
`name = desired_value` match. -/
theorem C3_enforce_exactly_one (lines : List Line) (start e : Nat)
    {inner : Line} {st0 : ScanState} {acc : RecAcc}
    (hse : start < e) (hel : e ≤ lines.length)
    (hinfer : inferIndentLoop lines start e = some inner)
    (hscan : scanLines lines start e initScan = some st0)
    (hfold : TARGET_ATTRS.foldlM (reconcileStep true inner)
      (RecAcc.mk lines e false [] st0) = some acc)
    (hdup : ∀ p ∈ TARGET_ATTRS,
      ((lines.drop (start + 1)).take (e - (start + 1))).countP
        (fun l => matchAnyValueAttr p.1 l) ≤ 1) :
    ∃ M, acc.lines = lines.take (start + 1) ++ M ++ lines.drop e ∧
      acc.endIdx = start + 1 + M.length ∧
      ∀ p ∈ TARGET_ATTRS,
        M.countP (fun l => matchAnyValueAttr p.1 l) = 1 ∧
        ∀ l ∈ M, matchAnyValueAttr p.1 l = true →
          matchExactAttr p.1 p.2 l = true := by
  have hws : inner.all isWsChar = true := inferIndentLoop_ws hinfer
  have hAlen : (lines.take (start + 1)).length = start + 1 :=
    List.length_take_of_le (by omega)
  have hM0len : ((lines.drop (start + 1)).take (e - (start + 1))).length =
      e - (start + 1) := by
    rw [List.length_take, List.length_drop]
    exact Nat.min_eq_left (by omega)
  have hdecomp : lines = lines.take (start + 1) ++
      (lines.drop (start + 1)).take (e - (start + 1)) ++ lines.drop e := by
    have h1 : (lines.drop (start + 1)).drop (e - (start + 1)) =
        lines.drop e := by
      rw [List.drop_drop]
      rw [show start + 1 + (e - (start + 1)) = e from by omega]
    calc lines = lines.take (start + 1) ++ lines.drop (start + 1) :=
        (List.take_append_drop (start + 1) lines).symm
      _ = lines.take (start + 1) ++
          ((lines.drop (start + 1)).take (e - (start + 1)) ++
            (lines.drop (start + 1)).drop (e - (start + 1))) := by
        rw [List.take_append_drop (e - (start + 1)) (lines.drop (start + 1))]
      _ = _ := by rw [h1, List.append_assoc]
  have hpend0 : PendingInv start TARGET_ATTRS
      (RecAcc.mk lines e false [] st0) := scan_pendingInv hscan
  have main : ∀ p ∈ TARGET_ATTRS,
      ∃ M, acc.lines = lines.take (start + 1) ++ M ++ lines.drop e ∧
        acc.endIdx = start + 1 + M.length ∧
        M.countP (fun l => matchAnyValueAttr p.1 l) = 1 ∧
        ∀ l ∈ M, matchAnyValueAttr p.1 l = true →
          matchExactAttr p.1 p.2 l = true := by
    intro p hp
    obtain ⟨a, v⟩ := p
    have hvne : v ≠ [] := (attrs_shape (a, v) hp).2.2.2.2
    obtain ⟨xs, hxa⟩ := attr_cons_of_mem hp
    obtain ⟨y, ys, hyv, hyw⟩ := value_cons_of_mem hp
    obtain ⟨hee, hcc, hoo⟩ := scanLines_fields hp hscan
    obtain ⟨ps1, ps2, hsplit⟩ := List.append_of_mem hp
    have hnd := attrs_keys_nodup
    rw [hsplit, List.map_append, List.map_cons] at hnd
    have hdisj := List.disjoint_of_nodup_append hnd
    have hps1a : ∀ q ∈ ps1, q.1 ≠ a := by
      intro q hq hqa
      have hmm : q.1 ∈ ps1.map Prod.fst := List.mem_map_of_mem Prod.fst hq
      rw [hqa] at hmm
      exact hdisj hmm (List.mem_cons_self _ _)
    have hps2a : ∀ q ∈ ps2, q.1 ≠ a := by
      intro q hq hqa
      have hninner := (List.nodup_cons.mp (List.Nodup.of_append_right hnd)).1
      have hmm : q.1 ∈ ps2.map Prod.fst := List.mem_map_of_mem Prod.fst hq
      rw [hqa] at hmm
      exact hninner hmm
    have hps1q : ∀ q ∈ ps2, ∀ r ∈ ps1, r.1 ≠ q.1 := by
      intro q hq r hr hre
      have hm1 : r.1 ∈ ps1.map Prod.fst := List.mem_map_of_mem Prod.fst hr
      have hm2 : q.1 ∈ ps2.map Prod.fst := List.mem_map_of_mem Prod.fst hq
      rw [hre] at hm1
      exact hdisj hm1 (List.mem_cons_of_mem _ hm2)
    have hnd1 : (ps1.map Prod.fst).Nodup := List.Nodup.of_append_left hnd
    have hnd2 : (ps2.map Prod.fst).Nodup :=
      (List.nodup_cons.mp (List.Nodup.of_append_right hnd)).2
    rw [hsplit, List.foldlM_append] at hfold
    rcases h1 : List.foldlM (reconcileStep true inner)
        (RecAcc.mk lines e false [] st0) ps1 with _ | acc1
    · rw [h1] at hfold; exact absurd hfold (by simp)
    · rw [h1] at hfold
      simp only [Option.bind_eq_bind, Option.some_bind,
        List.foldlM_cons] at hfold
      have hkeysps1 : ∀ q ∈ ps1, q ∈ TARGET_ATTRS ∧ q.1 ≠ a := by
        intro q hq
        exact ⟨hsplit ▸ List.mem_append.mpr (Or.inl hq), hps1a q hq⟩
      have hpendps1 : PendingInv start ps1 (RecAcc.mk lines e false [] st0) := by
        intro q hq
        exact hpend0 q (hsplit ▸ List.mem_append.mpr (Or.inl hq))
      have hl0 : (RecAcc.mk lines e false [] st0).lines =
          lines.take (start + 1) ++
          (lines.drop (start + 1)).take (e - (start + 1)) ++ lines.drop e :=
        hdecomp
      have he0 : (RecAcc.mk lines e false [] st0).endIdx =
          (lines.take (start + 1)).length +
          ((lines.drop (start + 1)).take (e - (start + 1))).length := by
        rw [hAlen, hM0len]
        show e = start + 1 + (e - (start + 1))
        omega
      obtain ⟨M1, hl1, he1, hf1, himp_a⟩ := reconcileFold_region_filter hAlen
        hws hp ps1 (RecAcc.mk lines e false [] st0) acc1 h1 hkeysps1 hnd1
        hpendps1 _ hl0 he0
      have hpa1 : PendingInv start [(a, v)] acc1 :=
        himp_a (pendingInv_single hp hpend0)
      obtain ⟨sc1, so1, se1, -, -, -, -⟩ := reconcileFold_fields ps1 _ _ h1
      have hex1 : acc1.st.exists_exact a = st0.exists_exact a := se1 a hps1a
      have hdupa : ((lines.drop (start + 1)).take (e - (start + 1))).countP
          (fun l => matchAnyValueAttr a l) ≤ 1 := hdup (a, v) hp
      have hcnt1 : M1.countP (fun l => matchAnyValueAttr a l) ≤ 1 := by
        rw [List.countP_eq_length_filter, hf1, ← List.countP_eq_length_filter]
        exact hdupa
      obtain ⟨acc2, hstep2, hfold2, M2, z, hl2, he2, hfM2, hzx⟩ :
          ∃ acc2, reconcileStep true inner acc1 (a, v) = some acc2 ∧
            ps2.foldlM (reconcileStep true inner) acc2 = some acc ∧
            ∃ M2 z,
              acc2.lines = lines.take (start + 1) ++ M2 ++ lines.drop e ∧
              acc2.endIdx = (lines.take (start + 1)).length + M2.length ∧
              M2.filter (fun l => matchAnyValueAttr a l) = [z] ∧
              matchExactAttr a v z = true := by
        cases hex : st0.exists_exact a with
        | true =>
          have hstepeq := @reconcileStep_noop true inner acc1 a v
            (by rw [hex1]; exact hex)
          have hexw : (scanWindow start e).any
              (fun k => matchExactAttr a v (lines.getD k [])) = true := by
            rw [← hee]; exact hex
          obtain ⟨k, hkw, hkx0⟩ := List.any_eq_true.mp hexw
          have hkx : matchExactAttr a v (lines.getD k []) = true := hkx0
          have hzmem := window_mem_region hkw hel
          have hzany : matchAnyValueAttr a (lines.getD k []) = true :=
            matchExact_imp_any hvne hkx
          have hfM0 : ((lines.drop (start + 1)).take
              (e - (start + 1))).filter (fun l => matchAnyValueAttr a l) =
              [lines.getD k []] :=
            filter_singleton_of_mem (List.getElem?_mem hzmem) hzany hdupa
          rw [hstepeq] at hfold
          simp only [Option.some_bind] at hfold
          exact ⟨_, hstepeq, hfold, M1, lines.getD k [], hl1, he1,
            by rw [hf1]; exact hfM0, hkx⟩
        | false =>
          have hex1' : acc1.st.exists_exact a = false := by
            rw [hex1]; exact hex
          rcases hov : st0.other_value_idx a with _ | i
          · -- no uncommented assignment line anywhere in the window
            have hnoany : ∀ k ∈ scanWindow start e,
                matchAnyValueAttr a (lines.getD k []) = false := by
              intro k hk
              have hfn : (scanWindow start e).find?
                  (fun j => matchAnyValueAttr a (lines.getD j []) &&
                    !matchExactAttr a v (lines.getD j [])) = none := by
                rw [← hoo]; exact hov
              have h2 := List.find?_eq_none.mp hfn k hk
              have hexf : (scanWindow start e).any
                  (fun j => matchExactAttr a v (lines.getD j [])) = false := by
                rw [← hee]; exact hex
              have h3 := List.any_eq_false.mp hexf k hk
              cases hany : matchAnyValueAttr a (lines.getD k []) with
              | false => rfl
              | true =>
                exfalso
                apply h2
                show (matchAnyValueAttr a (lines.getD k []) &&
                  !matchExactAttr a v (lines.getD k [])) = true
                rw [hany]
                cases hx2 : matchExactAttr a v (lines.getD k []) with
                | false => rfl
                | true => exact absurd hx2 h3
            have hfM0nil : ((lines.drop (start + 1)).take
                (e - (start + 1))).filter (fun l => matchAnyValueAttr a l) =
                [] := by
              apply List.filter_eq_nil_iff.mpr
              intro l hl
              have h4 := region_all_of_window hnoany l hl
              simp [h4]
            have hcnt0 : M1.countP (fun l => matchAnyValueAttr a l) = 0 := by
              rw [List.countP_eq_length_filter, hf1, hfM0nil]
              rfl
            rcases hcm : st0.commented_idx a with _ | i
            · -- absent: the step inserts the fresh exact line at the end
              have hstepeq := @reconcileStep_insert true inner acc1 a v hex1'
                (by rw [so1]; exact hov) (by rw [sc1]; exact hcm)
              have hnlany : matchAnyValueAttr a
                  (inner ++ targetLine a v) = true :=
                matchAny_target hws hxa (by decide)
              have hzx : matchExactAttr a v (inner ++ targetLine a v) = true :=
                matchExact_target hws hxa (by decide) hyv hyw
              rw [hstepeq] at hfold
              simp only [Option.some_bind] at hfold
              refine ⟨_, hstepeq, hfold, M1 ++ [inner ++ targetLine a v],
                inner ++ targetLine a v, ?_, ?_, ?_, hzx⟩
              · show pyInsertAt acc1.lines acc1.endIdx
                  (inner ++ targetLine a v) = lines.take (start + 1) ++
                  (M1 ++ [inner ++ targetLine a v]) ++ lines.drop e
                rw [hl1, pyInsertAt_boundary
                  (show (lines.take (start + 1)).length + M1.length =
                    acc1.endIdx from by omega)]
              · show acc1.endIdx + 1 = (lines.take (start + 1)).length +
                  (M1 ++ [inner ++ targetLine a v]).length
                rw [List.length_append]
                have h5 : ([inner ++ targetLine a v] : List Line).length = 1 :=
                  rfl
                omega
              · rw [List.filter_append, List.filter_cons_of_pos hnlany,
                  hf1, hfM0nil]
                rfl
            · -- commented: the step overwrites the recorded comment line
              have hcm1 : acc1.st.commented_idx a = some i := by
                rw [sc1]; exact hcm
              obtain ⟨hi1, hi2, old, hold1, hcmold⟩ :=
                (hpa1 (a, v) (by simp)).2 i hcm1
              have hindws : ((if (leadingWs old).isEmpty then inner
                  else leadingWs old)).all isWsChar = true := by
                by_cases hemp : (leadingWs old).isEmpty = true
                · rw [if_pos hemp]; exact hws
                · rw [if_neg hemp]; exact leadingWs_all_ws old
              have hzx : matchExactAttr a v
                  ((if (leadingWs old).isEmpty then inner
                    else leadingWs old) ++ targetLine a v) = true :=
                matchExact_target hindws hxa (by decide) hyv hyw
              have hnenew : old ≠ ((if (leadingWs old).isEmpty then inner
                  else leadingWs old) ++ targetLine a v) := by
                intro heq
                have h6 := comment_imp_not_any hp hcmold
                rw [heq, matchExact_imp_any hvne hzx] at h6
                exact Bool.noConfusion h6
              have hstepeq := @reconcileStep_uncomment true inner acc1 a v
                old i hex1' (by rw [so1]; exact hov) hcm1 hold1 hnenew
              have hi1' : (lines.take (start + 1)).length ≤ i := by
                rw [hAlen]; exact hi1
              have hi2' : i < (lines.take (start + 1)).length + M1.length := by
                omega
              have hMk : M1[i - (lines.take (start + 1)).length]? =
                  some old := by
                rw [← getElem?_append_mid hi1' hi2', ← hl1]
                exact hold1
              obtain ⟨hq1, hq2⟩ := countP_parts_of_zero hMk hcnt0
              have hfM2 := filter_set_parts hMk
                (matchExact_imp_any hvne hzx) hq1 hq2
              rw [hstepeq] at hfold
              simp only [Option.some_bind] at hfold
              refine ⟨_, hstepeq, hfold,
                M1.set (i - (lines.take (start + 1)).length)
                  ((if (leadingWs old).isEmpty then inner
                    else leadingWs old) ++ targetLine a v),
                (if (leadingWs old).isEmpty then inner
                  else leadingWs old) ++ targetLine a v, ?_, ?_, hfM2, hzx⟩
              · show acc1.lines.set i ((if (leadingWs old).isEmpty then inner
                  else leadingWs old) ++ targetLine a v) = _
                rw [hl1, set_append_mid hi1' hi2']
              · show acc1.endIdx = (lines.take (start + 1)).length +
                  (M1.set (i - (lines.take (start + 1)).length) _).length
                rw [List.length_set]
                omega
          · -- other value recorded: the step overwrites it in place
            have hov1 : acc1.st.other_value_idx a = some i := by
              rw [so1]; exact hov
            obtain ⟨hi1, hi2, old, hold1, hanyold, hexold⟩ :=
              (hpa1 (a, v) (by simp)).1 i hov1
            have hindws : ((if (leadingWs old).isEmpty then inner
                else leadingWs old)).all isWsChar = true := by
              by_cases hemp : (leadingWs old).isEmpty = true
              · rw [if_pos hemp]; exact hws
              · rw [if_neg hemp]; exact leadingWs_all_ws old
            have hzx : matchExactAttr a v
                ((if (leadingWs old).isEmpty then inner
                  else leadingWs old) ++ targetLine a v) = true :=
              matchExact_target hindws hxa (by decide) hyv hyw
            have hnenew : old ≠ ((if (leadingWs old).isEmpty then inner
                else leadingWs old) ++ targetLine a v) := by
              intro heq
              rw [heq, hzx] at hexold
              exact Bool.noConfusion hexold
            have hstepeq := @reconcileStep_enforce inner acc1 a v old i
              hex1' hov1 hold1 hnenew
            have hi1' : (lines.take (start + 1)).length ≤ i := by
              rw [hAlen]; exact hi1
            have hi2' : i < (lines.take (start + 1)).length + M1.length := by
              omega
            have hMk : M1[i - (lines.take (start + 1)).length]? =
                some old := by
              rw [← getElem?_append_mid hi1' hi2', ← hl1]
              exact hold1
            obtain ⟨hq1, hq2⟩ := countP_parts_of_le_one hMk hanyold hcnt1
            have hfM2 := filter_set_parts hMk
              (matchExact_imp_any hvne hzx) hq1 hq2
            rw [hstepeq] at hfold
            simp only [Option.some_bind] at hfold
            refine ⟨_, hstepeq, hfold,
              M1.set (i - (lines.take (start + 1)).length)
                ((if (leadingWs old).isEmpty then inner
                  else leadingWs old) ++ targetLine a v),
              (if (leadingWs old).isEmpty then inner
                else leadingWs old) ++ targetLine a v, ?_, ?_, hfM2, hzx⟩
            · show acc1.lines.set i ((if (leadingWs old).isEmpty then inner
                else leadingWs old) ++ targetLine a v) = _
              rw [hl1, set_append_mid hi1' hi2']
            · show acc1.endIdx = (lines.take (start + 1)).length +
                (M1.set (i - (lines.take (start + 1)).length) _).length
              rw [List.length_set]
              omega
      have hpend2 : PendingInv start ps2 acc2 := by
        intro q hq
        have hqT : q ∈ TARGET_ATTRS :=
          hsplit ▸ List.mem_append.mpr (Or.inr (List.mem_cons_of_mem _ hq))
        have hkeysps1q : ∀ r ∈ ps1, r ∈ TARGET_ATTRS ∧ r.1 ≠ q.1 := by
          intro r hr
          exact ⟨hsplit ▸ List.mem_append.mpr (Or.inl hr), hps1q q hq r hr⟩
        obtain ⟨-, -, -, -, himpq⟩ := reconcileFold_region_filter hAlen hws
          (show ((q.1, q.2) : Line × Line) ∈ TARGET_ATTRS from hqT) ps1
          (RecAcc.mk lines e false [] st0) acc1 h1 hkeysps1q hnd1 hpendps1 _
          hl0 he0
        have hq1 : PendingInv start [(q.1, q.2)] acc1 :=
          himpq (pendingInv_single hqT hpend0)
        exact reconcileStep_pending_other hstep2 hqT hp
          (show q.1 ≠ ((a, v) : Line × Line).1 from hps2a q hq) hpa1
          hq1 q (by simp)
      have hkeysps2 : ∀ q ∈ ps2, q ∈ TARGET_ATTRS ∧ q.1 ≠ a := by
        intro q hq
        exact ⟨hsplit ▸ List.mem_append.mpr
          (Or.inr (List.mem_cons_of_mem _ hq)), hps2a q hq⟩
      obtain ⟨Mf, hlf, hef, hff, -⟩ := reconcileFold_region_filter hAlen hws
        hp ps2 acc2 acc hfold2 hkeysps2 hnd2 hpend2 M2 hl2 he2
      have hfz : Mf.filter (fun l => matchAnyValueAttr a l) = [z] := by
        rw [hff]; exact hfM2
      refine ⟨Mf, hlf, ?_, ?_, ?_⟩
      · rw [hef, hAlen]
      · show Mf.countP (fun l => matchAnyValueAttr a l) = 1
        rw [List.countP_eq_length_filter, hfz]
        rfl
      · intro l hl hla
        have hlf2 : l ∈ Mf.filter (fun l => matchAnyValueAttr a l) :=
          List.mem_filter.mpr ⟨hl, hla⟩
        rw [hfz] at hlf2
        have hlz : l = z := by simpa using hlf2
        rw [hlz]
        exact hzx
  obtain ⟨M, hMl, hMe, -, -⟩ := main
    ((("tunnel1_startup_action").data : Line),
      (("\"start\"").data : Line)) (by decide)
  refine ⟨M, hMl, hMe, ?_⟩
  intro p hp
  obtain ⟨Mp, hMpl, hMpe, hc1, hc2⟩ := main p hp
  have hMM : Mp = M := by
    have h1 : lines.take (start + 1) ++ Mp ++ lines.drop e =
        lines.take (start + 1) ++ M ++ lines.drop e := by
      rw [← hMpl, ← hMl]
    exact List.append_cancel_left (List.append_cancel_right h1)
  rw [← hMM]
  exact ⟨hc1, hc2⟩

/-- Witness for C3 (amended) at the concrete mixed block `bufC3`. -/
theorem C3_enforce_exactly_one_witness :
    ∃ st0 acc,
      scanLines bufC3 0 3 initScan = some st0 ∧
      TARGET_ATTRS.foldlM (reconcileStep true (("  ").data))
        (RecAcc.mk bufC3 3 false [] st0) = some acc ∧
      ∃ M, acc.lines = bufC3.take 1 ++ M ++ bufC3.drop 3 ∧
        acc.endIdx = 1 + M.length ∧
        ∀ p ∈ TARGET_ATTRS,
          M.countP (fun l => matchAnyValueAttr p.1 l) = 1 ∧
          ∀ l ∈ M, matchAnyValueAttr p.1 l = true →
            matchExactAttr p.1 p.2 l = true := by
  refine ⟨_, _, rfl, rfl, ?_⟩
  exact C3_enforce_exactly_one bufC3 0 3 (by decide) (by decide)
    (show inferIndentLoop bufC3 0 3 = some (("  ").data) by decide)
    rfl rfl (by decide)

/-! ## Counting the effect of single buffer edits -/

theorem countP_set_account {p : Line → Bool} {M : List Line} {k : Nat}
    {old x : Line} (hk : M[k]? = some old) :
    (M.set k x).countP p + (if p old then 1 else 0) =
      M.countP p + (if p x then 1 else 0) := by
  have hklt : k < M.length := lt_of_getElem?_some hk
  rw [set_eq_take_cons_drop hklt]
  conv_rhs => rw [eq_take_cons_drop hk]
  rw [List.countP_append, List.countP_cons, List.countP_append,
    List.countP_cons]
  omega

theorem countP_pyInsertAt {p : Line → Bool} (M : List Line) (n : Nat)
    (x : Line) :
    (pyInsertAt M n x).countP p = M.countP p + (if p x then 1 else 0) := by
  unfold pyInsertAt
  rw [List.countP_append, List.countP_cons]
  conv_rhs => rw [← List.take_append_drop n M, List.countP_append]
  omega

theorem countP_eraseIdx {p : Line → Bool} {M : List Line} {j : Nat}
    {old : Line} (hj : M[j]? = some old) :
    (M.eraseIdx j).countP p + (if p old then 1 else 0) = M.countP p := by
  rw [List.eraseIdx_eq_take_drop_succ]
  conv_rhs => rw [eq_take_cons_drop hj]
  rw [List.countP_append, List.countP_append, List.countP_cons]
  omega

theorem eraseIdx_getElem_shift {M : List Line} {j t : Nat}
    (hj : j < M.length) (ht : j ≤ t) :
    (M.eraseIdx j)[t]? = M[t + 1]? := by
  rw [List.eraseIdx_eq_take_drop_succ]
  rw [List.getElem?_append_right (show (M.take j).length ≤ t by
    rw [List.length_take_of_le (Nat.le_of_lt hj)]; exact ht)]
  rw [List.getElem?_drop, List.length_take_of_le (Nat.le_of_lt hj)]
  rw [show j + 1 + (t - j) = t + 1 from by omega]

/-! ## Lines the reconcile loop writes and overwrites -/

theorem attrs_key_inj : ∀ p ∈ TARGET_ATTRS, ∀ q ∈ TARGET_ATTRS,
    p.1 = q.1 → p = q := by decide

theorem isTargetExact_blank {l : Line} (h : isBlank l = true) :
    isTargetExact l = false := by
  apply List.any_eq_false.mpr
  intro q hq hx
  have hv : q.2 ≠ [] := (attrs_shape q hq).2.2.2.2
  have hany := matchExact_imp_any hv hx
  obtain ⟨xs2, hxa⟩ := attr_cons_of_mem
    (show ((q.1, q.2) : Line × Line) ∈ TARGET_ATTRS from hq)
  have hnb := matchAny_not_blank hxa hany
  rw [h] at hnb
  exact Bool.noConfusion hnb

theorem isTargetExact_new {av : Line × Line} {ind : Line}
    (hmb : av ∈ TARGET_ATTRS) (hind : ind.all isWsChar = true) :
    isTargetExact (ind ++ targetLine av.1 av.2) = true := by
  apply List.any_eq_true.mpr
  refine ⟨av, hmb, ?_⟩
  obtain ⟨xs, hxa⟩ := attr_cons_of_mem
    (show ((av.1, av.2) : Line × Line) ∈ TARGET_ATTRS from hmb)
  obtain ⟨y, ys, hyv, hyw⟩ := value_cons_of_mem
    (show ((av.1, av.2) : Line × Line) ∈ TARGET_ATTRS from hmb)
  exact matchExact_target hind hxa (by decide) hyv hyw

theorem isTargetExact_pending {av : Line × Line} {old : Line}
    (hmb : av ∈ TARGET_ATTRS)
    (hpat : (matchAnyValueAttr av.1 old = true ∧
        matchExactAttr av.1 av.2 old = false) ∨
      matchCommentAttr av.1 old = true) :
    isTargetExact old = false := by
  apply List.any_eq_false.mpr
  intro q hq hx
  by_cases hqa : q.1 = av.1
  · have hqav : q = av := attrs_key_inj q hq av hmb hqa
    subst hqav
    rcases hpat with ⟨-, hex⟩ | hcm
    · rw [hx] at hex
      exact Bool.noConfusion hex
    · have h2 := (comment_excludes_attr
        (show ((q.1, q.2) : Line × Line) ∈ TARGET_ATTRS from hq) hcm).2 q.2
      rw [hx] at h2
      exact Bool.noConfusion h2
  · rcases hpat with ⟨hany, -⟩ | hcm
    · have h2 := (any_excludes_other
        (show ((av.1, av.2) : Line × Line) ∈ TARGET_ATTRS from hmb)
        (show ((q.1, q.2) : Line × Line) ∈ TARGET_ATTRS from hq)
        (fun hh => hqa hh.symm) hany).2 q.2
      rw [hx] at h2
      exact Bool.noConfusion h2
    · have h2 := (comment_excludes_attr
        (show ((q.1, q.2) : Line × Line) ∈ TARGET_ATTRS from hq) hcm).2 q.2
      rw [hx] at h2
      exact Bool.noConfusion h2

/-- One reconcile step either leaves the buffer and the flag alone, or
marks modified and adds exactly one target-exact line while keeping the
blank count. -/
theorem reconcileStep_measure {enforce : Bool} {inner : Line} {start : Nat}
    {acc acc' : RecAcc} {av : Line × Line}
    (hws : inner.all isWsChar = true)
    (hmb : av ∈ TARGET_ATTRS)
    (hstep : reconcileStep enforce inner acc av = some acc')
    (hpb : PendingInv start [av] acc) :
    (acc'.lines = acc.lines ∧ acc'.modified = acc.modified) ∨
    (acc'.lines.countP isTargetExact = acc.lines.countP isTargetExact + 1 ∧
      acc'.lines.countP isBlank = acc.lines.countP isBlank ∧
      acc'.modified = true) := by
  obtain ⟨-, -, -, -, -, -, hcases⟩ := reconcileStep_fields hstep
  rcases hcases with ⟨hl, -, hm⟩ | ⟨j, old, hrec, holdj, -, hl, -, hm⟩ |
    ⟨hl, -, hm⟩
  · exact Or.inl ⟨hl, hm⟩
  · right
    have hpat : (matchAnyValueAttr av.1 old = true ∧
        matchExactAttr av.1 av.2 old = false) ∨
        matchCommentAttr av.1 old = true := by
      rcases hrec with hrec | hrec
      · obtain ⟨-, -, li, hli, h1, h2⟩ := (hpb av (by simp)).1 j hrec
        rw [holdj] at hli
        injection hli with hli
        subst hli
        exact Or.inl ⟨h1, h2⟩
      · obtain ⟨-, -, li, hli, h1⟩ := (hpb av (by simp)).2 j hrec
        rw [holdj] at hli
        injection hli with hli
        subst hli
        exact Or.inr h1
    have hindws : ((if (leadingWs old).isEmpty then inner
        else leadingWs old)).all isWsChar = true := by
      by_cases hemp : (leadingWs old).isEmpty = true
      · rw [if_pos hemp]; exact hws
      · rw [if_neg hemp]; exact leadingWs_all_ws old
    have hXacc := countP_set_account (p := isTargetExact)
      (x := (if (leadingWs old).isEmpty then inner else leadingWs old) ++
        targetLine av.1 av.2) holdj
    have hBacc := countP_set_account (p := isBlank)
      (x := (if (leadingWs old).isEmpty then inner else leadingWs old) ++
        targetLine av.1 av.2) holdj
    have hXold : isTargetExact old = false := isTargetExact_pending hmb hpat
    have hXnew : isTargetExact ((if (leadingWs old).isEmpty then inner
        else leadingWs old) ++ targetLine av.1 av.2) = true :=
      isTargetExact_new hmb hindws
    have hBold : isBlank old = false := by
      rcases hpat with ⟨h1, -⟩ | h1
      · obtain ⟨xs, hxa⟩ := attr_cons_of_mem
          (show ((av.1, av.2) : Line × Line) ∈ TARGET_ATTRS from hmb)
        exact matchAny_not_blank hxa h1
      · exact matchComment_not_blank h1
    have hBnew : isBlank ((if (leadingWs old).isEmpty then inner
        else leadingWs old) ++ targetLine av.1 av.2) = false := by
      obtain ⟨xs, hxa⟩ := attr_cons_of_mem
        (show ((av.1, av.2) : Line × Line) ∈ TARGET_ATTRS from hmb)
      exact isBlank_target hxa (by decide)
    refine ⟨?_, ?_, hm⟩
    · rw [hl]
      rw [hXold, hXnew,
        show (if (false = true) then 1 else 0) = 0 from rfl,
        show (if (true = true) then 1 else 0) = 1 from rfl] at hXacc
      omega
    · rw [hl]
      rw [hBold, hBnew,
        show (if (false = true) then 1 else 0) = 0 from rfl] at hBacc
      omega
  · right
    have hXi := countP_pyInsertAt (p := isTargetExact) acc.lines acc.endIdx
      (inner ++ targetLine av.1 av.2)
    have hBi := countP_pyInsertAt (p := isBlank) acc.lines acc.endIdx
      (inner ++ targetLine av.1 av.2)
    have hXnew : isTargetExact (inner ++ targetLine av.1 av.2) = true :=
      isTargetExact_new hmb hws
    have hBnew : isBlank (inner ++ targetLine av.1 av.2) = false := by
      obtain ⟨xs, hxa⟩ := attr_cons_of_mem
        (show ((av.1, av.2) : Line × Line) ∈ TARGET_ATTRS from hmb)
      exact isBlank_target hxa (by decide)
    refine ⟨?_, ?_, hm⟩
    · rw [hl, hXi, hXnew,
        show (if (true = true) then 1 else 0) = 1 from rfl]
    · rw [hl, hBi, hBnew,
        show (if (false = true) then 1 else 0) = 0 from rfl]
      omega

/-- The whole reconcile loop adds one target-exact line per mutating step,
keeps the blank count, raises the flag exactly when a step mutates, and
leaves the buffer alone when none does. -/
theorem reconcileFold_measure {inner : Line} {start : Nat}
    (hws : inner.all isWsChar = true) :
    ∀ (ps : List (Line × Line)) {enforce : Bool} (acc acc' : RecAcc),
    ps.foldlM (reconcileStep enforce inner) acc = some acc' →
    (∀ p ∈ ps, p ∈ TARGET_ATTRS) →
    (ps.map Prod.fst).Nodup →
    PendingInv start ps acc →
    ∃ k, acc'.lines.countP isTargetExact =
        acc.lines.countP isTargetExact + k ∧
      acc'.lines.countP isBlank = acc.lines.countP isBlank ∧
      (acc'.modified = true ↔ (acc.modified = true ∨ 0 < k)) ∧
      (k = 0 → acc'.lines = acc.lines) := by
  intro ps
  induction ps with
  | nil =>
    intro enforce acc acc' h _ _ _
    simp only [List.foldlM_nil] at h
    injection h with h
    subst h
    exact ⟨0, by omega, rfl, by simp, fun _ => rfl⟩
  | cons p ps ih =>
    intro enforce acc acc' h hkeys hnd hpend
    rw [List.foldlM_cons] at h
    rcases hstep : reconcileStep enforce inner acc p with _ | acc1
    · rw [hstep] at h; exact absurd h (by simp)
    · rw [hstep] at h
      simp only [Option.bind_eq_bind, Option.some_bind] at h
      have hpT := hkeys p (List.mem_cons_self p ps)
      have hpb : PendingInv start [p] acc :=
        pendingInv_single (List.mem_cons_self p ps) hpend
      have hpend1 : PendingInv start ps acc1 := by
        intro q hq2
        have hqb : q.1 ≠ p.1 := by
          intro hqe
          exact (List.nodup_cons.mp hnd).1
            (hqe ▸ List.mem_map_of_mem Prod.fst hq2)
        exact reconcileStep_pending_other hstep
          (hkeys q (List.mem_cons_of_mem _ hq2)) hpT hqb hpb
          (pendingInv_single (List.mem_cons_of_mem _ hq2) hpend) q (by simp)
      obtain ⟨k, hX, hB, hM, hI⟩ := ih acc1 acc' h
        (fun q hq => hkeys q (List.mem_cons_of_mem _ hq))
        (List.nodup_cons.mp hnd).2 hpend1
      rcases reconcileStep_measure hws hpT hstep hpb with ⟨hl1, hm1⟩ |
        ⟨hX1, hB1, hm1⟩
      · refine ⟨k, ?_, ?_, ?_, ?_⟩
        · rw [hX, hl1]
        · rw [hB, hl1]
        · rw [hm1] at hM
          exact hM
        · intro hk0
          rw [hI hk0, hl1]
      · refine ⟨k + 1, ?_, ?_, ?_, ?_⟩
        · rw [hX, hX1]
          omega
        · rw [hB, hB1]
        · rw [hm1] at hM
          exact ⟨fun _ => Or.inr (by omega), fun _ => hM.mpr (Or.inl rfl)⟩
        · intro hk0
          exact absurd hk0 (by omega)

/-! ## The adjacency pass: blank deletion and relocation accounting -/

theorem bool_eq_of_iff {a b : Bool} (h : a = true ↔ b = true) : a = b := by
  cases a <;> cases b <;> simp_all

theorem onlyCommentsGo_spec {lines : List Line} :
    ∀ {L : List Nat}, onlyCommentsGo lines L = some true →
    ∀ k ∈ L, commentish (lines.getD k []) = true := by
  intro L
  induction L with
  | nil =>
    intro _ k hk
    exact absurd hk (List.not_mem_nil k)
  | cons i is ih =>
    intro h k hk
    unfold onlyCommentsGo at h
    rcases hl : lines[i]? with _ | l
    · simp only [hl] at h
      exact absurd h (by simp)
    · simp only [hl] at h
      by_cases hc : commentish l = true
      · rw [if_pos hc] at h
        rcases List.mem_cons.mp hk with rfl | hk2
        · rw [getD_of_getElem? hl]
          exact hc
        · exact ih h k hk2
      · rw [if_neg hc] at h
        injection h with h
        exact Bool.noConfusion h

theorem idxOfAttrGo_found {lines : List Line} {attr : Line} :
    ∀ {L : List Nat} {i : Nat},
    idxOfAttrGo lines attr L = some (some i) →
    ∃ l, lines[i]? = some l ∧ matchAnyValueAttr attr l = true := by
  intro L
  induction L with
  | nil =>
    intro i h
    unfold idxOfAttrGo at h
    injection h with h
    exact absurd h (by simp)
  | cons j js ih =>
    intro i h
    unfold idxOfAttrGo at h
    rcases hl : lines[j]? with _ | l
    · simp only [hl] at h
      exact absurd h (by simp)
    · simp only [hl] at h
      by_cases hm : matchAnyValueAttr attr l = true
      · rw [if_pos hm] at h
        injection h with h
        injection h with h
        subst h
        exact ⟨l, hl, hm⟩
      · rw [if_neg hm] at h
        exact ih h

/-- The blank-deletion loop, measured exactly: it deletes some number `d`
of blank lines between the pair, leaves every exact target line in the
buffer, shifts the tracked second index down by `d`, and raises the
modified flag exactly when it deleted something.  The tracked second line
itself is preserved and still sits at the shifted index. -/
theorem deleteBlanksGo_measure :
    ∀ (fuel : Nat) (lines : List Line) (j i2 : Nat) (m : Bool)
      (lines1 : List Line) (i2' : Nat) (m' : Bool),
    fuel = i2 - j →
    deleteBlanksGo lines j i2 m fuel = some (lines1, i2', m') →
    ∃ d, i2' = i2 - d ∧ d ≤ i2 - j ∧
      lines1.countP isTargetExact = lines.countP isTargetExact ∧
      lines1.countP isBlank + d = lines.countP isBlank ∧
      (m' = true ↔ (m = true ∨ 0 < d)) ∧
      (d = 0 → lines1 = lines ∧ i2' = i2 ∧ m' = m) ∧
      (∀ x, lines[i2]? = some x → lines1[i2']? = some x) := by
  intro fuel
  induction fuel with
  | zero =>
    intro lines j i2 m lines1 i2' m' hf h
    unfold deleteBlanksGo at h
    injection h with h
    injection h with h1 h2
    injection h2 with h2 h3
    subst h1
    subst h2
    subst h3
    exact ⟨0, by omega, by omega, rfl, by omega, by simp,
      fun _ => ⟨rfl, rfl, rfl⟩, fun x hx => hx⟩
  | succ fuel ih =>
    intro lines j i2 m lines1 i2' m' hf h
    unfold deleteBlanksGo at h
    rcases hl : lines[j]? with _ | l
    · simp only [hl] at h
      exact absurd h (by simp)
    · simp only [hl] at h
      by_cases hbl : isBlank l = true
      · rw [if_pos hbl] at h
        have hjlt : j < i2 := by omega
        have hjlen : j < lines.length := lt_of_getElem?_some hl
        obtain ⟨d, hd1, hd2, hdX, hdB, hdM, hdI, hdC⟩ :=
          ih (lines.eraseIdx j) j (i2 - 1) true lines1 i2' m' (by omega) h
        have haccX := countP_eraseIdx (p := isTargetExact) hl
        have haccB := countP_eraseIdx (p := isBlank) hl
        have hifX : (if isTargetExact l = true then 1 else 0) = 0 := by
          rw [isTargetExact_blank hbl]
          rfl
        have hifB : (if isBlank l = true then 1 else 0) = 1 := by
          rw [hbl]
          rfl
        refine ⟨d + 1, by omega, by omega, by omega, by omega, ?_, ?_, ?_⟩
        · constructor
          · intro _
            exact Or.inr (by omega)
          · intro _
            exact hdM.mpr (Or.inl rfl)
        · intro hd0
          exact absurd hd0 (by omega)
        · intro x hx
          apply hdC
          rw [eraseIdx_getElem_shift hjlen (by omega),
            show i2 - 1 + 1 = i2 from by omega]
          exact hx
      · rw [if_neg hbl] at h
        obtain ⟨d, hd1, hd2, hdX, hdB, hdM, hdI, hdC⟩ :=
          ih lines (j + 1) i2 m lines1 i2' m' (by omega) h
        exact ⟨d, hd1, by omega, hdX, hdB, hdM, hdI, hdC⟩

theorem deleteBlanks_measure {lines : List Line} {j i2 : Nat} {m : Bool}
    {lines1 : List Line} {i2' : Nat} {m' : Bool}
    (h : deleteBlanks lines j i2 m = some (lines1, i2', m')) :
    ∃ d, i2' = i2 - d ∧ d ≤ i2 - j ∧
      lines1.countP isTargetExact = lines.countP isTargetExact ∧
      lines1.countP isBlank + d = lines.countP isBlank ∧
      (m' = true ↔ (m = true ∨ 0 < d)) ∧
      (d = 0 → lines1 = lines ∧ i2' = i2 ∧ m' = m) ∧
      (∀ x, lines[i2]? = some x → lines1[i2']? = some x) :=
  deleteBlanksGo_measure (i2 - j) lines j i2 m lines1 i2' m' rfl h

theorem slice_all_commentish {lines : List Line} {s n : Nat}
    (h : ∀ k ∈ List.range' s n, commentish (lines.getD k []) = true) :
    ∀ l ∈ (lines.drop s).take n, commentish l = true := by
  intro l hl
  obtain ⟨j, hj⟩ := List.mem_iff_getElem?.mp hl
  have hjlen := lt_of_getElem?_some hj
  have hjn : j < n := by
    rw [List.length_take] at hjlen
    omega
  rw [List.getElem?_take_of_lt hjn, List.getElem?_drop] at hj
  have h2 := h (s + j) (by rw [List.mem_range'_1]; omega)
  rw [getD_of_getElem? hj] at h2
  exact h2

theorem cwGo_append : ∀ (xs : List Line) (n : Nat) (ys : List Line),
    cwGo n (xs ++ ys) = cwGo n xs + cwGo (n + xs.length) ys := by
  intro xs
  induction xs with
  | nil =>
    intro n ys
    simp [cwGo]
  | cons x xs ih =>
    intro n ys
    have h1 : cwGo n ((x :: xs) ++ ys) =
        (if commentish x then n else 0) + cwGo (n + 1) (xs ++ ys) := rfl
    have h2 : cwGo n (x :: xs) =
        (if commentish x then n else 0) + cwGo (n + 1) xs := rfl
    rw [h1, h2, ih (n + 1) ys,
      show n + 1 + xs.length = n + (x :: xs).length from by
        simp only [List.length_cons]
        omega]
    omega

theorem cwGo_shift_comment : ∀ (cs : List Line) (n : Nat),
    (∀ l ∈ cs, commentish l = true) →
    cwGo (n + 1) cs = cwGo n cs + cs.length := by
  intro cs
  induction cs with
  | nil =>
    intro n _
    rfl
  | cons c cs ih =>
    intro n h
    have hc : commentish c = true := h c (List.mem_cons_self c cs)
    have h1 : cwGo (n + 1) (c :: cs) =
        (if commentish c then n + 1 else 0) + cwGo (n + 1 + 1) cs := rfl
    have h2 : cwGo n (c :: cs) =
        (if commentish c then n else 0) + cwGo (n + 1) cs := rfl
    rw [h1, h2, hc,
      show (if (true = true) then n + 1 else 0) = n + 1 from rfl,
      show (if (true = true) then n else 0) = n from rfl,
      ih (n + 1) (fun l hl => h l (List.mem_cons_of_mem _ hl))]
    simp only [List.length_cons]
    omega

/-- Moving a non-comment line from behind a nonempty run of comment lines
to its front strictly increases the position-weighted comment count: every
comment line in the run shifts one slot to the right. -/
theorem cwGo_rotate {mid rest : List Line} {moved : Line} (n : Nat)
    (hmovc : commentish moved = false)
    (hcs : ∀ l ∈ mid, commentish l = true) (hne : mid ≠ []) :
    cwGo n (mid ++ moved :: rest) < cwGo n (moved :: (mid ++ rest)) := by
  have h1 : cwGo n (mid ++ moved :: rest) =
      cwGo n mid + cwGo (n + mid.length + 1) rest := by
    rw [cwGo_append mid n (moved :: rest)]
    have h2 : cwGo (n + mid.length) (moved :: rest) =
        (if commentish moved then n + mid.length else 0) +
          cwGo (n + mid.length + 1) rest := rfl
    rw [h2, hmovc,
      show (if (false = true) then n + mid.length else 0) = 0 from rfl]
    omega
  have h3 : cwGo n (moved :: (mid ++ rest)) =
      cwGo (n + 1) mid + cwGo (n + 1 + mid.length) rest := by
    have h4 : cwGo n (moved :: (mid ++ rest)) =
        (if commentish moved then n else 0) + cwGo (n + 1) (mid ++ rest) :=
      rfl
    rw [h4, hmovc, show (if (false = true) then n else 0) = 0 from rfl,
      cwGo_append mid (n + 1) rest]
    omega
  rw [h1, h3, cwGo_shift_comment mid n hcs,
    show n + 1 + mid.length = n + mid.length + 1 from by omega]
  have hpos : 0 < mid.length := List.length_pos.mpr hne
  omega

/-- A line carrying an uncommented assignment for a target attribute is
never comment-like: its first non-whitespace character is the `t` of the
attribute name, not `#` or `//`. -/
theorem anyTarget_not_commentish {a v l : Line}
    (hm : (a, v) ∈ TARGET_ATTRS) (h : matchAnyValueAttr a l = true) :
    commentish l = false := by
  obtain ⟨xs, hxa⟩ := attr_cons_of_mem hm
  obtain ⟨r1, r2, hs, -, -⟩ := matchAnyValueAttr_iff.mp h
  rw [hxa] at hs
  obtain ⟨c, cs, hdl, hlc, -⟩ := stripLit_cons_some hs
  have hct : c.toLower = 't' := by
    have h1 := (lowerEq_iff 't' c).mp hlc
    exact h1.symm.trans (by decide)
  have hch : c ≠ '#' ∧ c ≠ '/' := by
    constructor <;> (intro he; subst he; exact absurd hct (by decide))
  unfold commentish
  split
  · next heq =>
    rw [hdl] at heq
    exact absurd heq (by simp)
  · next heq =>
    rw [hdl] at heq
    injection heq with h1 _
    exact absurd h1 hch.1
  · next heq =>
    rw [hdl] at heq
    injection heq with h1 _
    exact absurd h1 hch.2
  · rfl

/-- The relocation step in explicit region form: deleting the second pair
member at its index and re-inserting it right after the first turns
`A ++ mid ++ moved :: rest` into `A ++ moved :: (mid ++ rest)`. -/
theorem rotate_forms {A mid rest : List Line} {moved : Line} {i1 i2' : Nat}
    (hA : A.length = i1 + 1) (hm : A.length + mid.length = i2') :
    pyInsertAt ((A ++ mid ++ moved :: rest).eraseIdx i2') (i1 + 1) moved =
      A ++ moved :: (mid ++ rest) := by
  have h1 : (A ++ mid ++ moved :: rest).eraseIdx i2' =
      (A ++ mid) ++ rest := by
    rw [List.eraseIdx_eq_take_drop_succ]
    have ht : (A ++ mid ++ moved :: rest).take i2' = A ++ mid :=
      List.take_left' (by rw [List.length_append]; omega)
    have hsh : A ++ mid ++ moved :: rest =
        (A ++ mid ++ [moved]) ++ rest := by
      simp
    have hd : (A ++ mid ++ moved :: rest).drop (i2' + 1) = rest := by
      rw [hsh]
      exact List.drop_left' (by simp; omega)
    rw [ht, hd]
  rw [h1]
  unfold pyInsertAt
  rw [List.append_assoc A mid rest, List.take_left' hA, List.drop_left' hA]

theorem rotate_countP {A mid rest : List Line} {moved : Line}
    (p : Line → Bool) :
    (A ++ moved :: (mid ++ rest)).countP p =
      (A ++ mid ++ moved :: rest).countP p := by
  simp only [List.countP_append, List.countP_cons]
  omega

theorem rotate_weight {A mid rest : List Line} {moved : Line}
    (hmovc : commentish moved = false)
    (hcs : ∀ l ∈ mid, commentish l = true) (hne : mid ≠ []) :
    commentWeight (A ++ mid ++ moved :: rest) <
      commentWeight (A ++ moved :: (mid ++ rest)) := by
  unfold commentWeight
  rw [show A ++ mid ++ moved :: rest = A ++ (mid ++ moved :: rest) from
    List.append_assoc A mid (moved :: rest)]
  rw [cwGo_append A 0 (mid ++ moved :: rest),
    cwGo_append A 0 (moved :: (mid ++ rest))]
  have hrot := @cwGo_rotate mid rest moved (0 + A.length) hmovc hcs hne
  omega

/-- One adjacency-group pass either returns its state unchanged, or raises
the modified flag while preserving the number of exact target lines and
making strict lexicographic progress: the blank count drops, or it is
unchanged while the position-weighted comment count grows. -/
theorem normalizeGroup_cases {start endIdx : Nat}
    {state state' : List Line × Bool} {g : Line × Line}
    (hg : g ∈ GROUPS)
    (h : normalizeGroup start endIdx state g = some state') :
    state' = state ∨
    (state'.2 = true ∧
      state'.1.countP isTargetExact = state.1.countP isTargetExact ∧
      (state'.1.countP isBlank < state.1.countP isBlank ∨
        (state'.1.countP isBlank = state.1.countP isBlank ∧
          commentWeight state.1 < commentWeight state'.1))) := by
  unfold normalizeGroup at h
  dsimp only at h
  rcases h1 : idxOfAttrFrom state.1 g.1 start endIdx with _ | (_ | i1)
  · simp only [h1] at h
    exact absurd h (by simp)
  · simp only [h1] at h
    injection h with h
    exact Or.inl h.symm
  · simp only [h1] at h
    rcases h2 : idxOfAttrFrom state.1 g.2 start endIdx with _ | (_ | i2)
    · simp only [h2] at h
      exact absurd h (by simp)
    · simp only [h2] at h
      injection h with h
      exact Or.inl h.symm
    · simp only [h2] at h
      by_cases hle : i2 ≤ i1
      · rw [if_pos hle] at h
        injection h with h
        exact Or.inl h.symm
      · rw [if_neg hle] at h
        rcases hdel : deleteBlanks state.1 (i1 + 1) i2 state.2
          with _ | ⟨lines1, i2', m1⟩
        · simp only [hdel] at h
          exact absurd h (by simp)
        · simp only [hdel] at h
          obtain ⟨d, hd1, hd2, hdX, hdB, hdM, hdI, hdC⟩ :=
            deleteBlanks_measure hdel
          by_cases hadj : i2' ≠ i1 + 1
          · rw [if_pos hadj] at h
            rcases hoc : onlyCommentsBetween lines1 i1 i2' with _ | b
            · simp only [hoc] at h
              exact absurd h (by simp)
            · cases b with
              | false =>
                simp only [hoc] at h
                injection h with h
                by_cases hd0 : d = 0
                · obtain ⟨he1, -, he3⟩ := hdI hd0
                  left
                  rw [← h, he1, he3]
                · right
                  have hs1 : state'.1 = lines1 := by
                    rw [← h]
                  have hs2 : state'.2 = m1 := by
                    rw [← h]
                  refine ⟨?_, ?_, Or.inl ?_⟩
                  · rw [hs2]
                    exact hdM.mpr (Or.inr (by omega))
                  · rw [hs1]
                    exact hdX
                  · rw [hs1]
                    omega
              | true =>
                simp only [hoc] at h
                rcases hmov : lines1[i2']? with _ | moved
                · simp only [hmov] at h
                  exact absurd h (by simp)
                · simp only [hmov] at h
                  injection h with h
                  have hs1 : state'.1 =
                      pyInsertAt (lines1.eraseIdx i2') (i1 + 1) moved := by
                    rw [← h]
                  have hs2 : state'.2 = true := by
                    rw [← h]
                  have h12 : i1 + 1 < i2' := by omega
                  have hlen : i2' < lines1.length := lt_of_getElem?_some hmov
                  have hg2 := (groups_shape g hg).2.1
                  obtain ⟨p2, hp2T, hp2e⟩ := List.mem_map.mp hg2
                  obtain ⟨a2, v2⟩ := p2
                  have ha2 : a2 = g.2 := hp2e
                  have h2go : idxOfAttrGo state.1 g.2
                      (List.range' (start + 1) (endIdx - (start + 1))) =
                      some (some i2) := h2
                  obtain ⟨l2, hl2, hany2⟩ := idxOfAttrGo_found h2go
                  have hml : lines1[i2']? = some l2 := hdC l2 hl2
                  have hmoved : moved = l2 :=
                    Option.some.inj (hmov.symm.trans hml)
                  have hmovc : commentish moved = false := by
                    apply anyTarget_not_commentish hp2T
                    show matchAnyValueAttr a2 moved = true
                    rw [ha2, hmoved]
                    exact hany2
                  have hocGo : onlyCommentsGo lines1
                      (List.range' (i1 + 1) (i2' - (i1 + 1))) = some true :=
                    hoc
                  have hmid := slice_all_commentish (onlyCommentsGo_spec hocGo)
                  have hAlen : (lines1.take (i1 + 1)).length = i1 + 1 :=
                    List.length_take_of_le (by omega)
                  have hmidlen : ((lines1.drop (i1 + 1)).take
                      (i2' - (i1 + 1))).length = i2' - (i1 + 1) := by
                    rw [List.length_take, List.length_drop]
                    exact Nat.min_eq_left (by omega)
                  have hmidne : (lines1.drop (i1 + 1)).take
                      (i2' - (i1 + 1)) ≠ [] := by
                    apply List.length_pos.mp
                    rw [hmidlen]
                    omega
                  have htk : lines1.take i2' = lines1.take (i1 + 1) ++
                      (lines1.drop (i1 + 1)).take (i2' - (i1 + 1)) := by
                    rw [← List.take_add]
                    rw [show i1 + 1 + (i2' - (i1 + 1)) = i2' from by omega]
                  have hdec : lines1 = lines1.take (i1 + 1) ++
                      (lines1.drop (i1 + 1)).take (i2' - (i1 + 1)) ++
                      moved :: lines1.drop (i2' + 1) := by
                    conv_lhs => rw [eq_take_cons_drop hmov]
                    rw [htk]
                  have hforms := @rotate_forms (lines1.take (i1 + 1))
                    ((lines1.drop (i1 + 1)).take (i2' - (i1 + 1)))
                    (lines1.drop (i2' + 1)) moved i1 i2' hAlen
                    (by rw [hAlen, hmidlen]; omega)
                  rw [← hdec] at hforms
                  right
                  refine ⟨?_, ?_, ?_⟩
                  · rw [hs2]
                  · rw [hs1, hforms, rotate_countP isTargetExact, ← hdec]
                    exact hdX
                  · by_cases hd0 : d = 0
                    · obtain ⟨he1, -, -⟩ := hdI hd0
                      refine Or.inr ⟨?_, ?_⟩
                      · rw [hs1, hforms, rotate_countP isBlank, ← hdec, he1]
                      · rw [hs1, hforms, ← he1]
                        conv_lhs => rw [hdec]
                        exact rotate_weight hmovc hmid hmidne
                    · refine Or.inl ?_
                      rw [hs1, hforms, rotate_countP isBlank, ← hdec]
                      omega
          · rw [if_neg hadj] at h
            injection h with h
            by_cases hd0 : d = 0
            · obtain ⟨he1, -, he3⟩ := hdI hd0
              left
              rw [← h, he1, he3]
            · right
              have hs1 : state'.1 = lines1 := by
                rw [← h]
              have hs2 : state'.2 = m1 := by
                rw [← h]
              refine ⟨?_, ?_, Or.inl ?_⟩
              · rw [hs2]
                exact hdM.mpr (Or.inr (by omega))
              · rw [hs1]
                exact hdX
              · rw [hs1]
                omega

/-- The whole `for a1, a2 in GROUPS` fold either returns its state
unchanged or raises the modified flag while keeping the exact-target-line
count and making strict lexicographic blank/weight progress. -/
theorem groupsFold_cases {start endIdx : Nat} :
    ∀ (gs : List (Line × Line)) (state state' : List Line × Bool),
    (∀ g ∈ gs, g ∈ GROUPS) →
    gs.foldlM (normalizeGroup start endIdx) state = some state' →
    state' = state ∨
    (state'.2 = true ∧
      state'.1.countP isTargetExact = state.1.countP isTargetExact ∧
      (state'.1.countP isBlank < state.1.countP isBlank ∨
        (state'.1.countP isBlank = state.1.countP isBlank ∧
          commentWeight state.1 < commentWeight state'.1))) := by
  intro gs
  induction gs with
  | nil =>
    intro state state' _ h
    simp only [List.foldlM_nil] at h
    injection h with h
    exact Or.inl h.symm
  | cons g gs ih =>
    intro state state' hmem h
    rw [List.foldlM_cons] at h
    rcases hng : normalizeGroup start endIdx state g with _ | st1
    · rw [hng] at h
      exact absurd h (by simp)
    · rw [hng] at h
      simp only [Option.bind_eq_bind, Option.some_bind] at h
      have hrest := ih st1 state'
        (fun g' hg' => hmem g' (List.mem_cons_of_mem _ hg')) h
      have hfirst := normalizeGroup_cases
        (hmem g (List.mem_cons_self g gs)) hng
      rcases hfirst with rfl | ⟨hf2, hfX, hfB⟩
      · exact hrest
      · rcases hrest with rfl | ⟨hr2, hrX, hrB⟩
        · exact Or.inr ⟨hf2, hfX, hfB⟩
        · right
          refine ⟨hr2, by rw [hrX, hfX], ?_⟩
          rcases hfB with hfB | ⟨hfBe, hfW⟩
          · rcases hrB with hrB | ⟨hrBe, hrW⟩
            · exact Or.inl (by omega)
            · exact Or.inl (by omega)
          · rcases hrB with hrB | ⟨hrBe, hrW⟩
            · exact Or.inl (by omega)
            · exact Or.inr ⟨by omega, by omega⟩

/-- C10: change-flag exactness — for every call that returns,
`ensure_attributes_in_block` reports `modified = true` exactly when the
buffer it returns differs from the buffer it was given.  Every mutating
reconcile step strictly increases the count of exact target lines, and
every adjacency-pass mutation strictly decreases the blank count or, with
blanks unchanged, strictly increases the position-weighted comment count,
so a raised flag certifies a changed buffer and a clean flag certifies an
untouched one. -/
theorem C10_modified_iff (lines : List Line) (start e : Nat)
    (enforce : Bool) {m : Bool} {e' : Nat} {msgs : List Msg}
    {out : List Line}
    (h : ensure_attributes_in_block lines start e enforce =
      some (m, e', msgs, out)) :
    m = true ↔ out ≠ lines := by
  unfold ensure_attributes_in_block at h
  rcases hinf : inferIndentLoop lines start e with _ | inner
  · simp only [hinf] at h
    exact absurd h (by simp)
  · simp only [hinf] at h
    rcases hscan : scanLines lines start e initScan with _ | st0
    · simp only [hscan] at h
      exact absurd h (by simp)
    · simp only [hscan] at h
      rcases hfold : TARGET_ATTRS.foldlM (reconcileStep enforce inner)
          (RecAcc.mk lines e false [] st0) with _ | acc
      · simp only [hfold] at h
        exact absurd h (by simp)
      · simp only [hfold] at h
        rcases hgf : GROUPS.foldlM (normalizeGroup start acc.endIdx)
            (acc.lines, acc.modified) with _ | st2
        · simp only [hgf] at h
          exact absurd h (by simp)
        · obtain ⟨lines2, m2⟩ := st2
          simp only [hgf] at h
          injection h with h
          injection h with hm h
          injection h with he h
          injection h with hmsg hout
          subst hm
          subst hout
          have hws : inner.all isWsChar = true := inferIndentLoop_ws hinf
          have hpend := scan_pendingInv hscan
          obtain ⟨k, hkX, hkB, hkM, hkI⟩ := reconcileFold_measure hws
            TARGET_ATTRS (RecAcc.mk lines e false [] st0) acc hfold
            (fun p hp => hp) attrs_keys_nodup hpend
          have hkX' : acc.lines.countP isTargetExact =
              lines.countP isTargetExact + k := hkX
          have hkB' : acc.lines.countP isBlank =
              lines.countP isBlank := hkB
          have hkM0 : acc.modified = true ↔ (false = true ∨ 0 < k) := hkM
          have hkM' : acc.modified = true ↔ 0 < k := by
            rw [hkM0]
            simp
          have hkI' : k = 0 → acc.lines = lines := hkI
          have hcases := groupsFold_cases GROUPS
            (acc.lines, acc.modified) (lines2, m2) (fun g hgg => hgg) hgf
          constructor
          · intro hm2 heq
            rcases hcases with hid | ⟨hp2, hpX, hpB⟩
            · have h1 : lines2 = acc.lines := congrArg Prod.fst hid
              have h2 : m2 = acc.modified := congrArg Prod.snd hid
              have hk : 0 < k := hkM'.mp (by rw [← h2]; exact hm2)
              have hcontra : lines.countP isTargetExact =
                  lines.countP isTargetExact + k := by
                conv_lhs => rw [← heq, h1]
                exact hkX'
              omega
            · have hpX' : lines2.countP isTargetExact =
                  acc.lines.countP isTargetExact := hpX
              have hpB' : lines2.countP isBlank <
                    acc.lines.countP isBlank ∨
                  (lines2.countP isBlank = acc.lines.countP isBlank ∧
                    commentWeight acc.lines < commentWeight lines2) := hpB
              by_cases hk0 : k = 0
              · have hacc := hkI' hk0
                rw [hacc, ← heq] at hpB'
                rcases hpB' with hlt | ⟨-, hW⟩
                · omega
                · omega
              · have hcontra : lines.countP isTargetExact =
                    lines.countP isTargetExact + k := by
                  conv_lhs => rw [← heq]
                  rw [hpX']
                  exact hkX'
                omega
          · intro hne
            by_contra hm2c
            have hm2f : m2 = false := by
              cases m2
              · rfl
              · exact absurd rfl hm2c
            rcases hcases with hid | ⟨hp2, -, -⟩
            · have h1 : lines2 = acc.lines := congrArg Prod.fst hid
              have h2 : m2 = acc.modified := congrArg Prod.snd hid
              have hkz : k = 0 := by
                by_contra hkk
                have hacct : acc.modified = true := hkM'.mpr (by omega)
                rw [← h2, hm2f] at hacct
                exact Bool.noConfusion hacct
              exact hne (h1.trans (hkI' hkz))
            · have hp2' : m2 = true := hp2
              rw [hm2f] at hp2'
              exact Bool.noConfusion hp2'

/-- Closed witness for C10 at the concrete `bufUnc` input: the run
uncomments one line, reports `modified = true`, and indeed the output
buffer differs from the input. -/
theorem C10_modified_iff_witness : (true = true ↔ outUnc ≠ bufUnc) :=
  C10_modified_iff bufUnc 0 5 false
    (show ensure_attributes_in_block bufUnc 0 5 false =
      some (true, 5, msgsUnc, outUnc) by decide)

/-! ## The adjacency pass leaves no blank line between a located pair -/

theorem eraseIdx_getElem_lt {M : List Line} {j t : Nat} (hj : j < M.length)
    (ht : t < j) : (M.eraseIdx j)[t]? = M[t]? := by
  rw [List.eraseIdx_eq_take_drop_succ,
    List.getElem?_append_left (show t < (M.take j).length by
      rw [List.length_take_of_le (Nat.le_of_lt hj)]
      exact ht),
    List.getElem?_take_of_lt ht]

/-- The blank-deletion loop never touches the buffer below its starting
index, and on return no blank line remains between the starting index and
the shifted second index. -/
theorem deleteBlanksGo_clean :
    ∀ (fuel : Nat) (lines : List Line) (j i2 : Nat) (m : Bool)
      (lines1 : List Line) (i2' : Nat) (m' : Bool),
    fuel = i2 - j →
    deleteBlanksGo lines j i2 m fuel = some (lines1, i2', m') →
    (∀ kk, kk < j → lines1[kk]? = lines[kk]?) ∧
    (∀ kk, j ≤ kk → kk < i2' → ∀ l, lines1[kk]? = some l →
      isBlank l = false) := by
  intro fuel
  induction fuel with
  | zero =>
    intro lines j i2 m lines1 i2' m' hf h
    unfold deleteBlanksGo at h
    injection h with h
    injection h with h1 h2
    injection h2 with h2 h3
    subst h1
    subst h2
    constructor
    · intro kk _
      rfl
    · intro kk hk1 hk2 l _
      exact absurd hk2 (by omega)
  | succ fuel ih =>
    intro lines j i2 m lines1 i2' m' hf h
    unfold deleteBlanksGo at h
    rcases hl : lines[j]? with _ | l0
    · simp only [hl] at h
      exact absurd h (by simp)
    · simp only [hl] at h
      have hjlen : j < lines.length := lt_of_getElem?_some hl
      by_cases hbl : isBlank l0 = true
      · rw [if_pos hbl] at h
        obtain ⟨hP1, hP2⟩ :=
          ih (lines.eraseIdx j) j (i2 - 1) true lines1 i2' m' (by omega) h
        constructor
        · intro kk hkk
          rw [hP1 kk hkk, eraseIdx_getElem_lt hjlen hkk]
        · exact hP2
      · rw [if_neg hbl] at h
        obtain ⟨hP1, hP2⟩ :=
          ih lines (j + 1) i2 m lines1 i2' m' (by omega) h
        constructor
        · intro kk hkk
          exact hP1 kk (by omega)
        · intro kk hk1 hk2 l hkl
          by_cases hkj : kk = j
          · subst hkj
            rw [hP1 kk (by omega), hl] at hkl
            injection hkl with hkl
            rw [hkl] at hbl
            cases hb2 : isBlank l
            · rfl
            · exact absurd hb2 hbl
          · exact hP2 kk (by omega) hk2 l hkl

theorem deleteBlanks_clean {lines : List Line} {j i2 : Nat} {m : Bool}
    {lines1 : List Line} {i2' : Nat} {m' : Bool}
    (h : deleteBlanks lines j i2 m = some (lines1, i2', m')) :
    (∀ kk, kk < j → lines1[kk]? = lines[kk]?) ∧
    (∀ kk, j ≤ kk → kk < i2' → ∀ l, lines1[kk]? = some l →
      isBlank l = false) :=
  deleteBlanksGo_clean (i2 - j) lines j i2 m lines1 i2' m' rfl h

theorem onlyCommentsGo_false {lines : List Line} :
    ∀ {L : List Nat}, onlyCommentsGo lines L = some false →
    ∃ k ∈ L, ∃ l, lines[k]? = some l ∧ commentish l = false := by
  intro L
  induction L with
  | nil =>
    intro h
    unfold onlyCommentsGo at h
    injection h with h
    exact Bool.noConfusion h
  | cons i is ih =>
    intro h
    unfold onlyCommentsGo at h
    rcases hl : lines[i]? with _ | l
    · simp only [hl] at h
      exact absurd h (by simp)
    · simp only [hl] at h
      by_cases hc : commentish l = true
      · rw [if_pos hc] at h
        obtain ⟨k, hk, l2, hl2, hc2⟩ := ih h
        exact ⟨k, List.mem_cons_of_mem _ hk, l2, hl2, hc2⟩
      · rw [if_neg hc] at h
        refine ⟨i, List.mem_cons_self i is, l, hl, ?_⟩
        cases hc2 : commentish l
        · rfl
        · exact absurd hc2 hc

/-- C8: adjacency guarantee.  When both members of an adjacency group are
located inside the block with the second strictly after the first, one
normalizer pass deletes every blank line strictly between them — the first
member's line is untouched and the second member's line survives at the
shifted index — and then exactly one of three outcomes happens: the pair
is already adjacent; only comment lines remain between them and the second
member is relocated to the index directly after the first, whose line is
unchanged; or a non-comment, non-blank line still separates them and the
buffer is left exactly as the blank deletion produced it, so no reordering
happens across meaningful content. -/
theorem C8_adjacency_guarantee {start endIdx : Nat}
    {state state' : List Line × Bool} {g : Line × Line} {i1 i2 : Nat}
    (h1 : idxOfAttrFrom state.1 g.1 start endIdx = some (some i1))
    (h2 : idxOfAttrFrom state.1 g.2 start endIdx = some (some i2))
    (h12 : i1 < i2)
    (h : normalizeGroup start endIdx state g = some state') :
    ∃ lines1 i2' m1,
      deleteBlanks state.1 (i1 + 1) i2 state.2 = some (lines1, i2', m1) ∧
      lines1[i1]? = state.1[i1]? ∧
      (∀ x, state.1[i2]? = some x → lines1[i2']? = some x) ∧
      (∀ kk l, i1 + 1 ≤ kk → kk < i2' → lines1[kk]? = some l →
        isBlank l = false) ∧
      ((i2' = i1 + 1 ∧ state' = (lines1, m1)) ∨
       (onlyCommentsBetween lines1 i1 i2' = some true ∧ i2' ≠ i1 + 1 ∧
         state'.1[i1]? = state.1[i1]? ∧
         (∀ x, lines1[i2']? = some x → state'.1[i1 + 1]? = some x) ∧
         state'.2 = true) ∨
       (onlyCommentsBetween lines1 i1 i2' = some false ∧ i2' ≠ i1 + 1 ∧
         (∃ kk l, i1 + 1 ≤ kk ∧ kk < i2' ∧ lines1[kk]? = some l ∧
           commentish l = false ∧ isBlank l = false) ∧
         state' = (lines1, m1))) := by
  unfold normalizeGroup at h
  dsimp only at h
  simp only [h1, h2] at h
  rw [if_neg (by omega)] at h
  rcases hdel : deleteBlanks state.1 (i1 + 1) i2 state.2
    with _ | ⟨lines1, i2', m1⟩
  · simp only [hdel] at h
    exact absurd h (by simp)
  · simp only [hdel] at h
    obtain ⟨d, hd1, hd2, hdX, hdB, hdM, hdI, hdC⟩ :=
      deleteBlanks_measure hdel
    obtain ⟨hP1, hP2⟩ := deleteBlanks_clean hdel
    have hge : i1 + 1 ≤ i2' := by omega
    refine ⟨lines1, i2', m1, rfl, hP1 i1 (by omega), hdC,
      fun kk l hk1 hk2 hkl => hP2 kk hk1 hk2 l hkl, ?_⟩
    by_cases hadj : i2' ≠ i1 + 1
    · rw [if_pos hadj] at h
      rcases hoc : onlyCommentsBetween lines1 i1 i2' with _ | b
      · simp only [hoc] at h
        exact absurd h (by simp)
      · cases b with
        | false =>
          simp only [hoc] at h
          injection h with h
          refine Or.inr (Or.inr ⟨rfl, hadj, ?_, h.symm⟩)
          have hocGo : onlyCommentsGo lines1
              (List.range' (i1 + 1) (i2' - (i1 + 1))) = some false := hoc
          obtain ⟨kk, hkmem, l, hkl, hlc⟩ := onlyCommentsGo_false hocGo
          rw [List.mem_range'_1] at hkmem
          have hkb1 : i1 + 1 ≤ kk := by omega
          have hkb2 : kk < i2' := by omega
          exact ⟨kk, l, hkb1, hkb2, hkl, hlc, hP2 kk hkb1 hkb2 l hkl⟩
        | true =>
          simp only [hoc] at h
          rcases hmov : lines1[i2']? with _ | moved
          · simp only [hmov] at h
            exact absurd h (by simp)
          · simp only [hmov] at h
            injection h with h
            have hs1 : state'.1 =
                pyInsertAt (lines1.eraseIdx i2') (i1 + 1) moved := by
              rw [← h]
            have hs2 : state'.2 = true := by
              rw [← h]
            have h12' : i1 + 1 < i2' := by omega
            have hlen : i2' < lines1.length := lt_of_getElem?_some hmov
            have hAlen : (lines1.take (i1 + 1)).length = i1 + 1 :=
              List.length_take_of_le (by omega)
            have hmidlen : ((lines1.drop (i1 + 1)).take
                (i2' - (i1 + 1))).length = i2' - (i1 + 1) := by
              rw [List.length_take, List.length_drop]
              exact Nat.min_eq_left (by omega)
            have htk : lines1.take i2' = lines1.take (i1 + 1) ++
                (lines1.drop (i1 + 1)).take (i2' - (i1 + 1)) := by
              rw [← List.take_add]
              rw [show i1 + 1 + (i2' - (i1 + 1)) = i2' from by omega]
            have hdec : lines1 = lines1.take (i1 + 1) ++
                (lines1.drop (i1 + 1)).take (i2' - (i1 + 1)) ++
                moved :: lines1.drop (i2' + 1) := by
              conv_lhs => rw [eq_take_cons_drop hmov]
              rw [htk]
            have hforms := @rotate_forms (lines1.take (i1 + 1))
              ((lines1.drop (i1 + 1)).take (i2' - (i1 + 1)))
              (lines1.drop (i2' + 1)) moved i1 i2' hAlen
              (by rw [hAlen, hmidlen]; omega)
            rw [← hdec] at hforms
            refine Or.inr (Or.inl ⟨rfl, hadj, ?_, ?_, hs2⟩)
            · rw [hs1, hforms,
                List.getElem?_append_left (show
                  i1 < (lines1.take (i1 + 1)).length by
                    rw [hAlen]
                    omega),
                List.getElem?_take_of_lt (show i1 < i1 + 1 by omega)]
              exact hP1 i1 (by omega)
            · intro x hx
              have hxm : moved = x := Option.some.inj hx
              rw [hs1, hforms,
                List.getElem?_append_right (show
                  (lines1.take (i1 + 1)).length ≤ i1 + 1 from
                    Nat.le_of_eq hAlen),
                hAlen, Nat.sub_self]
              simp only [List.getElem?_cons_zero]
              rw [hxm]
    · rw [if_neg hadj] at h
      injection h with h
      exact Or.inl ⟨by omega, h.symm⟩

/-- Closed witness for C8 at `bufC8`: the blank line between the pair is
deleted and the second member is relocated directly after the first. -/
theorem C8_adjacency_guarantee_witness :
    ∃ lines1 i2' m1,
      deleteBlanks bufC8 2 4 false = some (lines1, i2', m1) ∧
      lines1[1]? = bufC8[1]? ∧
      (∀ x, bufC8[4]? = some x → lines1[i2']? = some x) ∧
      (∀ kk l, 2 ≤ kk → kk < i2' → lines1[kk]? = some l →
        isBlank l = false) ∧
      ((i2' = 2 ∧ (outC8, true) = (lines1, m1)) ∨
       (onlyCommentsBetween lines1 1 i2' = some true ∧ i2' ≠ 2 ∧
         outC8[1]? = bufC8[1]? ∧
         (∀ x, lines1[i2']? = some x → outC8[2]? = some x) ∧
         true = true) ∨
       (onlyCommentsBetween lines1 1 i2' = some false ∧ i2' ≠ 2 ∧
         (∃ kk l, 2 ≤ kk ∧ kk < i2' ∧ lines1[kk]? = some l ∧
           commentish l = false ∧ isBlank l = false) ∧
         (outC8, true) = (lines1, m1))) :=
  @C8_adjacency_guarantee 0 5 (bufC8, false) (outC8, true)
    ((("tunnel1_startup_action").data), (("tunnel2_startup_action").data))
    1 4 (by decide) (by decide) (by decide) (by decide)

end PatchTf
